import Mathlib

/-!
# Stream pool, host work queue and transfer manager

A shallow embedding of

* `itex/core/compiler/xla/service/stream_pool.cc`
* `itex/core/compiler/xla/stream_executor/host/host_stream.cc`
* `itex/core/compiler/xla/service/generic_transfer_manager.cc`

Stateful C++ is rendered as explicit state passing.  Heap objects are named by
their identity (a natural number standing for the pointer value); loops are
structural recursions, with fuel where the C++ loop has no syntactic bound.
-/

/-! ## Status (`itex::Status`, also `port::Status` and `xla::Status`) -/

namespace itex

/-- A status: success, or a failure with its code and message. -/
inductive Status where
  | ok
  | error (code : Nat) (message : String)
deriving DecidableEq, Repr

namespace Status

/-- Modelled from the spec: `Status::Update` is defined with the status class,
whose source is not at hand.  The spec has each returned status "merged into a running
aggregate status that keeps the first non-success status seen ... and ignores
successes": an ok aggregate takes the new status, a failed one keeps its own. -/
def Update (self new_status : Status) : Status :=
  match self with
  | ok => new_status
  | error code message => error code message

end Status

end itex

namespace itex_xla

/-! ## Stream pool (`stream_pool.cc`) -/

/-- The part of `se::StreamExecutor` the pool depends on.  `se::Stream` is not
at hand: whether `Init()` leaves a stream built against the executor ok is
taken as a parameter, `allocateStream`. -/
structure StreamExecutor where
  device_ordinal : Nat
  allocateStream : Bool
deriving DecidableEq, Repr

/-- A `StreamPool` together with the heap of `se::Stream` objects it points
into.  `streams_` is the `std::vector<std::unique_ptr<se::Stream>>` member
(`back()` is the last entry of the list); a stream is named by its identity.
`ok` is what `stream->ok()` answers at this moment, `next` is the identity the
next `std::make_unique<se::Stream>` yields, and `constructed` / `destroyed`
log, in program order, the constructor and destructor calls made so far. -/
structure StreamPool where
  streams_ : List Nat
  ok : Nat → Bool
  next : Nat
  constructed : List (Nat × StreamExecutor)
  destroyed : List Nat

namespace StreamPool

/-- Running the destructor of stream `s` (`stream = nullptr` on the owning
`unique_ptr`, or `delete stream`). -/
def destroy (pool : StreamPool) (s : Nat) : StreamPool :=
  { pool with destroyed := pool.destroyed ++ [s] }

/-- The lines `std::make_unique<se::Stream>(executor); stream->Init();`. -/
def construct (pool : StreamPool) (executor : StreamExecutor) : Nat × StreamPool :=
  (pool.next,
   { pool with
     ok := Function.update pool.ok pool.next executor.allocateStream
     next := pool.next + 1
     constructed := pool.constructed ++ [(pool.next, executor)] })

/-- The loop `while (!streams_.empty() && !stream) { ... }` of `BorrowStream`;
the second component is the local `stream` (`none` is `nullptr`). -/
def borrowLoop : Nat → StreamPool → Option Nat → StreamPool × Option Nat
  | 0, pool, stream => (pool, stream)
  | fuel + 1, pool, stream =>
    if !pool.streams_.isEmpty && stream.isNone then
      match pool.streams_.getLast? with
      | none => (pool, stream)
      | some s =>
        let pool := { pool with streams_ := pool.streams_.dropLast }
        if pool.ok s then
          borrowLoop fuel pool (some s)
        else
          borrowLoop fuel (pool.destroy s) none
    else
      (pool, stream)

/-- `StreamPool::BorrowStream`.  The result is the stream wrapped by the
returned `Ptr` and the state afterwards.  Each iteration of the loop pops one
entry, so `streams_.length` iterations always suffice. -/
def BorrowStream (pool : StreamPool) (executor : StreamExecutor) : Nat × StreamPool :=
  match borrowLoop pool.streams_.length pool none with
  | (pool, some stream) => (stream, pool)
  | (pool, none) => pool.construct executor

/-- `StreamPool::ReturnStream`. -/
def ReturnStream (pool : StreamPool) (stream : Nat) : StreamPool :=
  if pool.ok stream then
    { pool with streams_ := pool.streams_ ++ [stream] }
  else
    pool.destroy stream

/-- A freshly constructed pool: no streams, nothing built or destroyed. -/
def empty (ok : Nat → Bool) : StreamPool :=
  { streams_ := [], ok := ok, next := 0, constructed := [], destroyed := [] }

end StreamPool

/-- What can happen to a pool: a caller borrows, a `Ptr` is released (its
deleter calls `ReturnStream`), or a stream runs into an error on the device
and stops being ok. -/
inductive PoolOp where
  | borrow (executor : StreamExecutor)
  | release (stream : Nat)
  | fail (stream : Nat)
deriving DecidableEq, Repr

namespace StreamPool

/-- Stream `s` enters its error state. -/
def markFailed (pool : StreamPool) (s : Nat) : StreamPool :=
  { pool with ok := Function.update pool.ok s false }

/-- One operation on the pool. -/
def apply (pool : StreamPool) : PoolOp → StreamPool
  | .borrow executor => (BorrowStream pool executor).2
  | .release s => ReturnStream pool s
  | .fail s => pool.markFailed s

/-- A sequence of operations, first to last. -/
def run : List PoolOp → StreamPool → StreamPool
  | [], pool => pool
  | op :: ops, pool => run ops (pool.apply op)

/-- No stream of the pool is ok. -/
def foundNoOk (pool : StreamPool) : Bool :=
  pool.streams_.all fun s => !pool.ok s

/-- The number of borrows of the sequence that found no ok stream in the pool
at the moment they were made. -/
def misses : List PoolOp → StreamPool → Nat
  | [], _ => 0
  | .borrow executor :: ops, pool =>
    (if pool.foundNoOk then 1 else 0) + misses ops (pool.apply (.borrow executor))
  | op :: ops, pool => misses ops (pool.apply op)

end StreamPool

/-- A pool and its callers: `leased` holds the streams wrapped in the `Ptr`
handles the callers have not released yet. -/
structure PoolSystem where
  pool : StreamPool
  leased : List Nat

namespace PoolSystem

/-- A new pool, nothing leased. -/
def init (ok : Nat → Bool) : PoolSystem :=
  { pool := StreamPool.empty ok, leased := [] }

/-- One step of the pool with its callers.  A handle can be released only
while it is held, hence at most once per lease. -/
def step (sys : PoolSystem) : PoolOp → Option PoolSystem
  | .borrow executor =>
    some { pool := (sys.pool.BorrowStream executor).2
           leased := (sys.pool.BorrowStream executor).1 :: sys.leased }
  | .release s =>
    if s ∈ sys.leased then
      some { pool := sys.pool.ReturnStream s, leased := sys.leased.erase s }
    else none
  | .fail s => some { sys with pool := sys.pool.markFailed s }

/-- A sequence of steps; `none` when some handle is released without being
held. -/
def run : List PoolOp → PoolSystem → Option PoolSystem
  | [], sys => some sys
  | op :: ops, sys => (sys.step op).bind (run ops)

/-- Every stream constructed so far is in exactly one place: the pool, a
caller's handle, or the list of destroyed streams. -/
def Exclusive (sys : PoolSystem) : Prop :=
  (sys.pool.streams_ ++ sys.leased ++ sys.pool.destroyed).Perm (List.range sys.pool.next)

end PoolSystem

end itex_xla

/-! ## Host stream (`host_stream.cc`) -/

namespace stream_executor
namespace host

open itex

/-- Everything a queued closure can read or write: the member `status_` of the
stream (reachable only from closures the stream builds itself), the state `env`
of the callers, and the locals `done` and `status` of the `BlockUntilDone` call
in progress, which its closure captures by reference. -/
structure Store (σ : Type) where
  status_ : Status
  env : σ
  done : Bool
  status : Status

/-- A non-empty `std::function<void()>` given to `EnqueueTask`: a closure of a
caller, or the lambda `[&done, &status, this]` of `BlockUntilDone`. -/
inductive Task (σ : Type) where
  | user (f : σ → σ)
  | captureStatus

/-- A non-empty `std::function<port::Status()>`: a closure of a caller, or the
lambda `[task]() { task(); return OkStatus(); }` of `EnqueueTask`. -/
inductive StatusTask (σ : Type) where
  | user (f : σ → Status × σ)
  | wrapped (task : Task σ)

/-- Calling a `std::function<void()>`. -/
def Task.call {σ : Type} : Task σ → Store σ → Store σ
  | .user f, st => { st with env := f st.env }
  | .captureStatus, st => { st with status := st.status_, status_ := Status.ok, done := true }

/-- Calling a `std::function<port::Status()>`: the status returned and the
store afterwards. -/
def StatusTask.call {σ : Type} : StatusTask σ → Store σ → Status × Store σ
  | .user f, st => ((f st.env).1, { st with env := (f st.env).2 })
  | .wrapped task, st => (Status.ok, task.call st)

/-- The statement `status_.Update(fn());`: `fn` runs first, then its result is
merged into the aggregate. -/
def runItem {σ : Type} (fn : StatusTask σ) (st : Store σ) : Store σ :=
  { (fn.call st).2 with status_ := (fn.call st).2.status_.Update (fn.call st).1 }

/-- Where the thread running `WorkLoop` stands: blocked in `mu_.Await` with a
fresh empty local `queue`, inside the inner loop with the local `queue` shown,
or returned. -/
inductive Worker (σ : Type) where
  | awaiting
  | draining (queue : List (Option (StatusTask σ)))
  | exited

/-- A `HostStream`.  `work_queue_` is the `std::queue` member (`front()` is the
head of the list, `none` an empty `std::function`), `thread_` its worker,
`store` holds `status_` and what the closures touch, and `executed` logs the
items the worker has called, in order. -/
structure HostStream (σ : Type) where
  work_queue_ : List (Option (StatusTask σ))
  thread_ : Worker σ
  store : Store σ
  executed : List (StatusTask σ)

namespace HostStream

variable {σ : Type}

/-- The constructor: an empty queue, an ok `status_`, the worker started. -/
def new (env : σ) : HostStream σ :=
  { work_queue_ := []
    thread_ := .awaiting
    store := { status_ := Status.ok, env := env, done := false, status := Status.ok }
    executed := [] }

/-- `HostStream::EnqueueTaskWithStatus`; `none` is the abort of
`ITEX_CHECK(task != nullptr)`. -/
def EnqueueTaskWithStatus (hs : HostStream σ) (task : Option (StatusTask σ)) :
    Option (Bool × HostStream σ) :=
  match task with
  | none => none
  | some fn => some (true, { hs with work_queue_ := hs.work_queue_ ++ [some fn] })

/-- `HostStream::EnqueueTask`. -/
def EnqueueTask (hs : HostStream σ) (task : Task σ) : Option (Bool × HostStream σ) :=
  hs.EnqueueTaskWithStatus (some (.wrapped task))

/-- `HostStream::WorkAvailable`. -/
def WorkAvailable (hs : HostStream σ) : Bool :=
  !hs.work_queue_.isEmpty

/-- One move of the worker in `WorkLoop`; `none` when it cannot move (blocked
in `Await`, or returned).
* awaiting: once work is available, `std::swap(queue, work_queue_)`;
* inner loop, `queue` empty: back to the top of `while (true)`;
* inner loop, front empty (`!fn`): `return`;
* inner loop otherwise: `status_.Update(fn()); queue.pop();`. -/
def workStep (hs : HostStream σ) : Option (HostStream σ) :=
  match hs.thread_ with
  | .awaiting =>
    if hs.WorkAvailable then
      some { hs with thread_ := .draining hs.work_queue_, work_queue_ := [] }
    else none
  | .draining [] => some { hs with thread_ := .awaiting }
  | .draining (none :: _) => some { hs with thread_ := .exited }
  | .draining (some fn :: queue) =>
    some { hs with store := runItem fn hs.store
                   executed := hs.executed ++ [fn]
                   thread_ := .draining queue }
  | .exited => none

/-- `HostStream::WorkLoop`, run for at most `fuel` moves: the worker goes on
until it blocks with nothing to do or returns. -/
def WorkLoop : Nat → HostStream σ → HostStream σ
  | 0, hs => hs
  | fuel + 1, hs =>
    match hs.workStep with
    | none => hs
    | some hs2 => WorkLoop fuel hs2

/-- `done.WaitForNotification()`: the caller sleeps while the worker moves,
until `done` has been notified. -/
def WaitForNotification : Nat → HostStream σ → HostStream σ
  | 0, hs => hs
  | fuel + 1, hs =>
    if hs.store.done then hs
    else
      match hs.workStep with
      | none => hs
      | some hs2 => WaitForNotification fuel hs2

/-- `HostStream::BlockUntilDone`; `none` when the notification has not come
within `fuel` moves of the worker. -/
def BlockUntilDone (fuel : Nat) (hs : HostStream σ) : Option (Status × HostStream σ) :=
  let hs1 : HostStream σ :=
    { hs with store := { hs.store with done := false, status := Status.ok } }
  match hs1.EnqueueTask .captureStatus with
  | none => none
  | some (_, hs2) =>
    let hs3 := WaitForNotification fuel hs2
    if hs3.store.done then some (hs3.store.status, hs3) else none

/-- Whether the worker has returned from `WorkLoop`. -/
def hasExited (hs : HostStream σ) : Bool :=
  match hs.thread_ with
  | .exited => true
  | _ => false

/-- `HostStream::~HostStream`: push the empty item, then `thread_.reset()`
waits for the worker to return; `none` when it has not within `fuel` moves. -/
def destroy (fuel : Nat) (hs : HostStream σ) : Option (HostStream σ) :=
  let hs1 : HostStream σ := { hs with work_queue_ := hs.work_queue_ ++ [none] }
  let hs2 := WorkLoop fuel hs1
  if hs2.hasExited then some hs2 else none

/-- The local `queue` of the worker. -/
def localQueue (hs : HostStream σ) : List (Option (StatusTask σ)) :=
  match hs.thread_ with
  | .draining queue => queue
  | _ => []

/-- The items not yet taken up by the worker, oldest first. -/
def pending (hs : HostStream σ) : List (Option (StatusTask σ)) :=
  hs.localQueue ++ hs.work_queue_

end HostStream

/-- What the threads around a stream do, one at a time: a producer enqueues a
non-empty item, the destructor pushes the empty one, or the worker moves. -/
inductive Event (σ : Type) where
  | enqueue (task : StatusTask σ)
  | shutdown
  | work

namespace HostStream

variable {σ : Type}

/-- The effect of one event; a worker that cannot move stays put. -/
def step (hs : HostStream σ) : Event σ → HostStream σ
  | .enqueue task =>
    match hs.EnqueueTaskWithStatus (some task) with
    | some (_, hs2) => hs2
    | none => hs
  | .shutdown => { hs with work_queue_ := hs.work_queue_ ++ [none] }
  | .work =>
    match hs.workStep with
    | some hs2 => hs2
    | none => hs

/-- A schedule: the events in the order in which they take the lock. -/
def runEvents : List (Event σ) → HostStream σ → HostStream σ
  | [], hs => hs
  | e :: es, hs => runEvents es (hs.step e)

end HostStream

/-- The items a schedule pushes, in submission order (`none` for the empty
item of the destructor). -/
def pushed {σ : Type} : List (Event σ) → List (Option (StatusTask σ))
  | [] => []
  | .enqueue task :: es => some task :: pushed es
  | .shutdown :: es => none :: pushed es
  | .work :: es => pushed es

/-- The items ahead of the first empty item. -/
def beforeSentinel {σ : Type} : List (Option (StatusTask σ)) → List (StatusTask σ)
  | [] => []
  | none :: _ => []
  | some fn :: rest => fn :: beforeSentinel rest

/-- Whether a list of items holds an empty one. -/
def hasSentinel {σ : Type} : List (Option (StatusTask σ)) → Bool
  | [] => false
  | none :: _ => true
  | some _ :: rest => hasSentinel rest

/-- Reference queue, after the spec's "dequeuing one item at a time from a
single FIFO": take the front item, run it and merge its status, until the FIFO
is empty or its front is the empty item.  The result is the store and the log
of items run. -/
def fifoRun {σ : Type} :
    List (Option (StatusTask σ)) → Store σ × List (StatusTask σ) →
      Store σ × List (StatusTask σ)
  | [], acc => acc
  | none :: _, acc => acc
  | some fn :: rest, acc => fifoRun rest (runItem fn acc.1, acc.2 ++ [fn])

/-- Whether an item is a closure of a caller, as opposed to the item that
`BlockUntilDone` builds to capture and reset the aggregate. -/
def StatusTask.fromCaller {σ : Type} : StatusTask σ → Bool
  | .wrapped .captureStatus => false
  | _ => true

/-- What an item returns and does to the callers' state. -/
def StatusTask.onEnv {σ : Type} : StatusTask σ → σ → Status × σ
  | .user f, env => f env
  | .wrapped (.user f), env => (Status.ok, f env)
  | .wrapped .captureStatus, env => (Status.ok, env)

/-- The statuses a list of items returns when run in order. -/
def returned {σ : Type} : List (StatusTask σ) → σ → List Status
  | [], _ => []
  | fn :: fns, env => (fn.onEnv env).1 :: returned fns (fn.onEnv env).2

/-- The callers' state after a list of items has run in order. -/
def envAfter {σ : Type} : List (StatusTask σ) → σ → σ
  | [], env => env
  | fn :: fns, env => envAfter fns (fn.onEnv env).2

/-- The non-empty items a schedule enqueues, in submission order. -/
def submitted {σ : Type} : List (Event σ) → List (StatusTask σ)
  | [] => []
  | .enqueue task :: es => task :: submitted es
  | _ :: es => submitted es

/-- An event of normal operation with callers only: a caller enqueues one of
its closures, or the worker moves. -/
def Event.fromCaller {σ : Type} : Event σ → Bool
  | .enqueue task => task.fromCaller
  | .shutdown => false
  | .work => true

/-- Whether the event is the destructor pushing the empty item. -/
def Event.isShutdown {σ : Type} : Event σ → Bool
  | .shutdown => true
  | _ => false

/-- A stream at rest between two drains: the worker alive, nothing pending and
the aggregate ok, as left by the constructor and by `BlockUntilDone`. -/
def HostStream.Quiescent {σ : Type} (hs : HostStream σ) : Prop :=
  hs.hasExited = false ∧ hs.pending = [] ∧ hs.store.status_ = Status.ok

/-- The first non-success status of a list, or success when there is none. -/
def firstFailure : List Status → Status
  | [] => Status.ok
  | Status.ok :: rest => firstFailure rest
  | Status.error code message :: _ => Status.error code message

end host
end stream_executor

/-! ## Generic transfer manager (`generic_transfer_manager.cc`) -/

namespace itex_xla

open itex

/-- Modelled from the spec: the primitive element types are declared in a
header that is not at hand; the spec speaks of "per-element byte sizes", so an
element type is given here together with the number of bytes one element
takes. -/
structure PrimitiveType where
  id : Nat
  byte_size : Nat
deriving DecidableEq, Repr

/-- Modelled from the spec: `Shape` is declared in `shape.h`, not at hand.
The spec: "a tree describing either an array (element type + dimensions +
layout, dimensions may be marked dynamic) or a tuple of child shapes".  The
layout is the minor-to-major order of the dimensions, as in the example
`F32[5,8,10,4]{3,2,1,0}` of `index_util.h`. -/
inductive Shape where
  | array (element_type : PrimitiveType) (dimensions : List Nat)
      (dynamic_dimensions : List Bool) (minor_to_major : List Nat)
  | tuple (tuple_shapes : List Shape)

/-- A `ShapeIndex`: the child selectors from the root down; `[]` is the root. -/
abbrev ShapeIndex := List Nat

namespace Shape

/-- Modelled from the spec: `Shape::IsArray`. -/
def IsArray : Shape → Bool
  | .array .. => true
  | .tuple _ => false

/-- Modelled from the spec: `Shape::IsTuple`. -/
def IsTuple : Shape → Bool
  | .array .. => false
  | .tuple _ => true

/-- Modelled from the spec: `Shape::dimensions_size`, the rank. -/
def dimensions_size : Shape → Nat
  | .array _ dimensions _ _ => dimensions.length
  | .tuple _ => 0

/-- Modelled from the spec: `Shape::dimensions`. -/
def dimensions : Shape → List Nat
  | .array _ dimensions _ _ => dimensions
  | .tuple _ => []

/-- Modelled from the spec: `Shape::layout`, as the minor-to-major order. -/
def layout : Shape → List Nat
  | .array _ _ _ minor_to_major => minor_to_major
  | .tuple _ => []

/-- Modelled from the spec: the byte width of the element type of an array. -/
def element_size : Shape → Nat
  | .array element_type _ _ _ => element_type.byte_size
  | .tuple _ => 0

mutual
/-- Modelled from the spec: `Shape::is_static`, no dimension anywhere in the
shape is marked dynamic. -/
def is_static : Shape → Bool
  | .array _ _ dynamic_dimensions _ => !dynamic_dimensions.any id
  | .tuple tuple_shapes => is_static_all tuple_shapes
/-- Every shape of the list is static. -/
def is_static_all : List Shape → Bool
  | [] => true
  | shape :: rest => shape.is_static && is_static_all rest
end

mutual
/-- The nodes of a shape tree, each with its index, in depth-first pre-order:
the order in which `ShapeUtil::ForEachSubshapeWithStatus` visits them. -/
def subshapes : Shape → ShapeIndex → List (Shape × ShapeIndex)
  | .array element_type dimensions dynamic_dimensions minor_to_major, index =>
    [(.array element_type dimensions dynamic_dimensions minor_to_major, index)]
  | .tuple tuple_shapes, index =>
    (.tuple tuple_shapes, index) :: subshapes_from tuple_shapes index 0
/-- The nodes below the children `i, i + 1, ...` of the tuple at `index`. -/
def subshapes_from : List Shape → ShapeIndex → Nat → List (Shape × ShapeIndex)
  | [], _, _ => []
  | shape :: rest, index, i =>
    shape.subshapes (index ++ [i]) ++ subshapes_from rest index (i + 1)
end

end Shape

namespace ShapeUtil

/-- Modelled from the spec: `ShapeUtil::TupleElementCount`. -/
def TupleElementCount : Shape → Nat
  | .array .. => 0
  | .tuple tuple_shapes => tuple_shapes.length

/-- Modelled from the spec: `ShapeUtil::ByteSizeOf`.  "the size is the sum of
per-element byte sizes under the shape's layout, scaled by a pointer width for
tuple index tables": an array takes the width of its element type for each of
its elements, a tuple one pointer for each child. -/
def ByteSizeOf (shape : Shape) (pointer_size : Nat) : Nat :=
  match shape with
  | .array element_type dimensions _ _ => element_type.byte_size * dimensions.prod
  | .tuple tuple_shapes => pointer_size * tuple_shapes.length

/-- Modelled from the spec: `ShapeUtil::GetSubshape`, "subshape lookup by
index"; `none` when the index leaves the tree (a fatal check in the code). -/
def GetSubshape : Shape → ShapeIndex → Option Shape
  | shape, [] => some shape
  | .array .., _ :: _ => none
  | .tuple tuple_shapes, i :: rest =>
    match tuple_shapes[i]? with
    | some child => GetSubshape child rest
    | none => none

mutual
/-- Modelled from the spec: `ShapeUtil::Compatible`, the shapes are
"structurally compatible": the same tree, and at each array the same element
type and dimensions; layouts and dynamic markings are not compared. -/
def Compatible : Shape → Shape → Bool
  | .array element_type dimensions _ _, .array element_type2 dimensions2 _ _ =>
    element_type == element_type2 && dimensions == dimensions2
  | .tuple tuple_shapes, .tuple tuple_shapes2 => Compatible_all tuple_shapes tuple_shapes2
  | _, _ => false
/-- The two lists are of equal length and compatible entry by entry. -/
def Compatible_all : List Shape → List Shape → Bool
  | [], [] => true
  | shape :: rest, shape2 :: rest2 => Compatible shape shape2 && Compatible_all rest rest2
  | _, _ => false
end

/-- The visit of a list of nodes in order, stopping at the first status that
is not ok; `none` is a fatal check failing inside `fn`. -/
def visit {S : Type} (fn : Shape → ShapeIndex → S → Option (Status × S)) :
    List (Shape × ShapeIndex) → S → Option (Status × S)
  | [], s => some (Status.ok, s)
  | (subshape, index) :: rest, s =>
    match fn subshape index s with
    | none => none
    | some (Status.ok, s2) => visit fn rest s2
    | some (Status.error code message, s2) => some (Status.error code message, s2)

/-- Modelled from the spec: `ShapeUtil::ForEachSubshapeWithStatus`, a
depth-first visit of the shape tree that ends at the first failure. -/
def ForEachSubshapeWithStatus {S : Type} (shape : Shape)
    (fn : Shape → ShapeIndex → S → Option (Status × S)) (s : S) : Option (Status × S) :=
  visit fn (shape.subshapes []) s

end ShapeUtil

namespace LayoutUtil

/-- Modelled from the spec: `LayoutUtil::Equal` on minor-to-major orders. -/
def Equal (lhs rhs : List Nat) : Bool :=
  lhs == rhs

/-- Modelled from the spec: `LayoutUtil::ValidateLayoutForShape` for an array:
the minor-to-major order names every dimension exactly once. -/
def ValidLayout (minor_to_major : List Nat) (rank : Nat) : Prop :=
  minor_to_major.Perm (List.range rank)

instance (minor_to_major : List Nat) (rank : Nat) :
    Decidable (ValidLayout minor_to_major rank) := by
  unfold ValidLayout; infer_instance

end LayoutUtil

namespace IndexUtil

/-- The linear index along a minor-to-major order: the most minor dimension
counts units, the next one multiples of its extent, and so on. -/
def linearIndex (dimensions multi_index : List Nat) : List Nat → Nat
  | [] => 0
  | d :: rest =>
    multi_index.getD d 0 + dimensions.getD d 0 * linearIndex dimensions multi_index rest

/-- Modelled from the spec: `IndexUtil::MultidimensionalIndexToLinearIndex` is
declared in `index_util.h`, its definition is not at hand: "Converts a
multidimensional index ... into a linear index based on the shape and its
layout". -/
def MultidimensionalIndexToLinearIndex (shape : Shape) (multi_index : List Nat) : Nat :=
  linearIndex shape.dimensions multi_index shape.layout

/-- Peeling a linear index along a minor-to-major order into `acc`. -/
def multiIndex (dimensions : List Nat) : List Nat → Nat → List Nat → List Nat
  | [], _, acc => acc
  | d :: rest, linear_index, acc =>
    multiIndex dimensions rest (linear_index / dimensions.getD d 0)
      (acc.set d (linear_index % dimensions.getD d 0))

/-- Modelled from the spec: `IndexUtil::LinearIndexToMultidimensionalIndex` is
declared in `index_util.h`, its definition is not at hand: "Converts a linear
index into multidimensional index ... based on the shape and its layout". -/
def LinearIndexToMultidimensionalIndex (shape : Shape) (linear_index : Nat) : List Nat :=
  multiIndex shape.dimensions shape.layout linear_index
    (List.replicate shape.dimensions.length 0)

/-- Modelled from the spec: `IndexUtil::IndexInBounds`, "the given multi-index
is contained in the bounds for the shape". -/
def IndexInBounds (shape : Shape) (index : List Nat) : Bool :=
  index.length == shape.dimensions.length
    && (List.range shape.dimensions.length).all fun d =>
        decide (index.getD d 0 < shape.dimensions.getD d 0)

end IndexUtil

/-- Modelled from the spec: a host value (`Literal`, `LiteralSlice`,
`MutableBorrowingLiteral`), "an in-memory value, shaped identically to a Device
Buffer's logical shape".  `data index` is the memory behind
`untyped_data(index)`, byte by byte from the start of the buffer. -/
structure Literal where
  shape : Shape
  data : ShapeIndex → Nat → Nat

namespace Literal

/-- Modelled from the spec: the constructor `LiteralSlice(literal, index)`, the
view of the sub-literal at `index`; `none` when there is no such sub-literal. -/
def Slice (literal : Literal) (index : ShapeIndex) : Option Literal :=
  match ShapeUtil.GetSubshape literal.shape index with
  | none => none
  | some subshape => some { shape := subshape, data := fun j => literal.data (index ++ j) }

/-- Modelled from the spec: `untyped_data()` of the root. -/
def untyped_data (literal : Literal) : Nat → Nat :=
  literal.data []

/-- Modelled from the spec: `LiteralBase::Relayout(new_layout, {})` on an
array, "producing a copy of a value with elements reordered to match a target
layout": the element at each multi-index moves to the place the new layout
gives it; bytes past the elements stay as they are.  `none` when the literal
is a tuple or the layout does not fit the shape (fatal checks). -/
def Relayout (literal : Literal) (new_layout : List Nat) : Option Literal :=
  match literal.shape with
  | .tuple _ => none
  | .array element_type dimensions dynamic_dimensions minor_to_major =>
    if LayoutUtil.ValidLayout new_layout dimensions.length then
      some
        { shape := .array element_type dimensions dynamic_dimensions new_layout
          data := fun j offset =>
            if j = [] ∧ offset < element_type.byte_size * dimensions.prod then
              literal.data []
                (IndexUtil.MultidimensionalIndexToLinearIndex
                    (.array element_type dimensions dynamic_dimensions minor_to_major)
                    (IndexUtil.LinearIndexToMultidimensionalIndex
                      (.array element_type dimensions dynamic_dimensions new_layout)
                      (offset / element_type.byte_size))
                    * element_type.byte_size
                  + offset % element_type.byte_size)
            else literal.data j offset }
    else none

/-- Modelled from the spec: reading the element at `multi_index` of the array
at `index`, as the bytes it occupies; `[]` when there is no array there. -/
def Get (literal : Literal) (index : ShapeIndex) (multi_index : List Nat) : List Nat :=
  match ShapeUtil.GetSubshape literal.shape index with
  | some (.array element_type dimensions dynamic_dimensions minor_to_major) =>
    (List.range element_type.byte_size).map fun k =>
      literal.data index
        (IndexUtil.MultidimensionalIndexToLinearIndex
            (.array element_type dimensions dynamic_dimensions minor_to_major) multi_index
            * element_type.byte_size
          + k)
  | _ => []

end Literal

/-- Modelled from the spec: `se::DeviceMemoryBase`, a region of device memory
given by its address and its size in bytes. -/
structure DeviceMemoryBase where
  address : Nat
  size : Nat
deriving DecidableEq, Repr

/-- The two regions have no byte in common: one ends where the other starts,
or before. -/
def DeviceMemoryBase.Disjoint (region1 region2 : DeviceMemoryBase) : Prop :=
  region1.address + region1.size ≤ region2.address
    ∨ region2.address + region2.size ≤ region1.address

instance (region1 region2 : DeviceMemoryBase) : Decidable (region1.Disjoint region2) := by
  unfold DeviceMemoryBase.Disjoint; infer_instance

/-- Modelled from the spec: `ShapedBuffer`, "an on-device memory region (or
tree of regions ...) associated with a shape and a device ordinal";
`buffers index` is `buffer(index)`. -/
structure ShapedBuffer where
  on_device_shape : Shape
  device_ordinal : Nat
  buffers : ShapeIndex → DeviceMemoryBase

/-- What a host-to-device copy reads: bytes of a literal, or the array of
pointers of a tuple index table. -/
inductive HostSource where
  | bytes (data : Nat → Nat)
  | pointers (elements : List Nat)

/-- The byte at `offset` of a host source; a pointer is laid out as eight
bytes, least significant first. -/
def HostSource.byte : HostSource → Nat → Nat
  | .bytes data, offset => data offset
  | .pointers elements, offset => (elements.getD (offset / 8) 0 / 256 ^ (offset % 8)) % 256

/-- An operation enqueued on a stream. -/
inductive StreamOp where
  | memcpy_h2d (dst : DeviceMemoryBase) (src : HostSource) (size : Nat)
  | memcpy_d2h (host_dst : ShapeIndex) (src : DeviceMemoryBase) (size : Nat)
  | memcpy_d2d (dst : DeviceMemoryBase) (src : DeviceMemoryBase) (size : Nat)
  | host_callback
  | block_host_until_done

/-- Modelled from the spec: `se::Stream`, "an ordered sequence of device
operations plus an attached error state".  `ops` is the sequence enqueued so
far, `memory a` the byte of device memory at the address `a`: one address
space for all regions, a region of address `p` and size `n` being the bytes
`p, ..., p + n - 1`.  The operations of one stream run in submission order, so
the effect of each is applied as it is enqueued, and an operation on a stream
that is not ok does nothing. -/
structure Stream where
  device_ordinal : Nat
  status : Status
  memory : Nat → Nat
  ops : List StreamOp

namespace Stream

/-- Whether the stream is ok. -/
def ok (stream : Stream) : Bool :=
  stream.status == Status.ok

/-- Modelled from the spec: `Stream::ThenMemcpy` from host to device: the
`size` bytes from the address of `dst` on receive the bytes of the source. -/
def ThenMemcpyToDevice (stream : Stream) (dst : DeviceMemoryBase) (src : HostSource)
    (size : Nat) : Stream :=
  { stream with
    ops := stream.ops ++ [.memcpy_h2d dst src size]
    memory :=
      if stream.ok then
        fun a =>
          if dst.address ≤ a ∧ a < dst.address + size then src.byte (a - dst.address)
          else stream.memory a
      else stream.memory }

/-- Modelled from the spec: `Stream::ThenMemcpy` from device to host, into the
buffer of `literal` at `index`. -/
def ThenMemcpyToHost (stream : Stream) (literal : Literal) (index : ShapeIndex)
    (src : DeviceMemoryBase) (size : Nat) : Stream × Literal :=
  ({ stream with ops := stream.ops ++ [.memcpy_d2h index src size] },
   if stream.ok then
     { literal with
       data := Function.update literal.data index fun offset =>
         if offset < size then stream.memory (src.address + offset)
         else literal.data index offset }
   else literal)

/-- Modelled from the spec: `Stream::ThenMemcpy` from device to device, "an
asynchronous device-to-device copy". -/
def ThenMemcpyDeviceToDevice (stream : Stream) (dst src : DeviceMemoryBase) (size : Nat) :
    Stream :=
  { stream with
    ops := stream.ops ++ [.memcpy_d2d dst src size]
    memory :=
      if stream.ok then
        fun a =>
          if dst.address ≤ a ∧ a < dst.address + size then
            stream.memory (src.address + (a - dst.address))
          else stream.memory a
      else stream.memory }

/-- Modelled from the spec: `Stream::ThenDoHostCallback`. -/
def ThenDoHostCallback (stream : Stream) : Stream :=
  { stream with ops := stream.ops ++ [.host_callback] }

/-- Modelled from the spec: `Stream::BlockHostUntilDone`, the status of the
stream once everything enqueued has run. -/
def BlockHostUntilDone (stream : Stream) : Status × Stream :=
  (stream.status, { stream with ops := stream.ops ++ [.block_host_until_done] })

end Stream

/-- The failure a `TF_RET_CHECK` returns. -/
def RetCheckFailure (what : String) : Status :=
  Status.error 13 what

/-- A `GenericTransferManager`. -/
structure GenericTransferManager where
  platform_id_ : Nat
  pointer_size_ : Nat

namespace GenericTransferManager

/-- `GenericTransferManager::GetByteSizeRequirement`. -/
def GetByteSizeRequirement (tm : GenericTransferManager) (shape : Shape) : Nat :=
  if shape.is_static || shape.IsTuple then
    ShapeUtil.ByteSizeOf shape tm.pointer_size_
  else
    ShapeUtil.ByteSizeOf shape tm.pointer_size_ + 4 * shape.dimensions_size

/-- Modelled from the spec: `TransferManager::TransferBufferToDevice` is
defined in the base class, whose source is not at hand: "a buffered host→device write",
and "total bytes copied into ... any array leaf never exceeds that leaf's
allocated region size": a write larger than the region is refused. -/
def TransferBufferToDevice (stream : Stream) (size : Nat) (source : HostSource)
    (destination : DeviceMemoryBase) : Status × Stream :=
  if destination.size < size then
    (Status.error 9 "Destination allocation on device not large enough for data transfer",
     stream)
  else
    (Status.ok, stream.ThenMemcpyToDevice destination source size)

/-- `GenericTransferManager::WriteSingleTupleIndexTable`. -/
def WriteSingleTupleIndexTable (tm : GenericTransferManager) (stream : Stream)
    (elements : List DeviceMemoryBase) (shape : Shape) (region : DeviceMemoryBase) :
    Status × Stream :=
  if elements.length != ShapeUtil.TupleElementCount shape then
    (RetCheckFailure "elements.size() == ShapeUtil::TupleElementCount(shape)", stream)
  else
    match TransferBufferToDevice stream (tm.GetByteSizeRequirement shape)
        (.pointers (elements.map fun element => element.address)) region with
    | (Status.error code message, stream2) => (Status.error code message, stream2)
    | (Status.ok, stream2) => (Status.ok, stream2.ThenDoHostCallback)

/-- Modelled from the spec: `TransferManager::WriteTupleIndexTablesAsync` is
defined in the base class, whose source is not at hand: it "writes any tuple index tables
(device-side arrays of child-buffer addresses) for every tuple subshape,
recursively, via one buffered write per tuple node". -/
def WriteTupleIndexTablesAsync (tm : GenericTransferManager) (stream : Stream)
    (device_buffer : ShapedBuffer) : Option (Status × Stream) :=
  ShapeUtil.ForEachSubshapeWithStatus device_buffer.on_device_shape
    (fun device_subshape index stream =>
      if device_subshape.IsTuple then
        some (tm.WriteSingleTupleIndexTable stream
          ((List.range (ShapeUtil.TupleElementCount device_subshape)).map fun i =>
            device_buffer.buffers (index ++ [i]))
          device_subshape (device_buffer.buffers index))
      else some (Status.ok, stream))
    stream

/-- The body of the lambda of `TransferLiteralToDeviceAsync`, run on each
subshape of the device buffer. -/
def transferLeafToDevice (tm : GenericTransferManager) (literal : Literal)
    (device_buffer : ShapedBuffer) (device_subshape : Shape) (index : ShapeIndex)
    (stream : Stream) : Option (Status × Stream) :=
  if device_subshape.IsArray then
    if tm.GetByteSizeRequirement device_subshape != (device_buffer.buffers index).size then
      some (RetCheckFailure "GetByteSizeRequirement(device_subshape) == device_memory.size()",
        stream)
    else
      match literal.Slice index with
      | none => none
      | some subliteral =>
        if LayoutUtil.Equal device_subshape.layout subliteral.shape.layout then
          some (TransferBufferToDevice stream (tm.GetByteSizeRequirement device_subshape)
            (.bytes subliteral.untyped_data) (device_buffer.buffers index))
        else
          match subliteral.Relayout device_subshape.layout with
          | none => none
          | some relayed_out_literal =>
            match TransferBufferToDevice stream (tm.GetByteSizeRequirement device_subshape)
                (.bytes relayed_out_literal.untyped_data) (device_buffer.buffers index) with
            | (Status.error code message, stream2) => some (Status.error code message, stream2)
            | (Status.ok, stream2) => some stream2.BlockHostUntilDone
  else some (Status.ok, stream)

/-- `GenericTransferManager::TransferLiteralToDeviceAsync`; `none` is a fatal
check failing. -/
def TransferLiteralToDeviceAsync (tm : GenericTransferManager) (stream : Stream)
    (literal : Literal) (device_buffer : ShapedBuffer) : Option (Status × Stream) :=
  if !ShapeUtil.Compatible literal.shape device_buffer.on_device_shape then
    some (RetCheckFailure
      "ShapeUtil::Compatible(literal.shape(), device_buffer.on_device_shape())", stream)
  else if stream.device_ordinal != device_buffer.device_ordinal then
    some (RetCheckFailure
      "stream->parent()->device_ordinal() == device_buffer.device_ordinal()", stream)
  else
    match tm.WriteTupleIndexTablesAsync stream device_buffer with
    | none => none
    | some (Status.error code message, stream2) => some (Status.error code message, stream2)
    | some (Status.ok, stream2) =>
      ShapeUtil.ForEachSubshapeWithStatus device_buffer.on_device_shape
        (tm.transferLeafToDevice literal device_buffer) stream2

/-- The body of the lambda of `TransferLiteralFromDevice`; the state is the
stream and the destination literal. -/
def transferLeafFromDevice (tm : GenericTransferManager) (device_buffer : ShapedBuffer)
    (subshape : Shape) (index : ShapeIndex) (state : Stream × Literal) :
    Option (Status × (Stream × Literal)) :=
  if subshape.IsArray then
    match ShapeUtil.GetSubshape state.2.shape index with
    | none => none
    | some literal_subshape =>
      some (Status.ok,
        state.1.ThenMemcpyToHost state.2 index (device_buffer.buffers index)
          (tm.GetByteSizeRequirement literal_subshape))
  else some (Status.ok, state)

/-- What `TransferLiteralFromDevice` leaves behind: the statuses `done` was
called with, in order, the stream and the destination literal. -/
structure FromDeviceResult where
  done_calls : List Status
  stream : Stream
  literal : Literal

/-- `GenericTransferManager::TransferLiteralFromDevice`; `none` is a fatal
check failing. -/
def TransferLiteralFromDevice (tm : GenericTransferManager) (stream : Stream)
    (device_buffer : ShapedBuffer) (literal : Literal) : Option FromDeviceResult :=
  let status : Option (Status × (Stream × Literal)) :=
    if stream.device_ordinal != device_buffer.device_ordinal then
      some (RetCheckFailure
        "stream->parent()->device_ordinal() == device_buffer.device_ordinal()",
        (stream, literal))
    else
      ShapeUtil.ForEachSubshapeWithStatus device_buffer.on_device_shape
        (tm.transferLeafFromDevice device_buffer) (stream, literal)
  match status with
  | none => none
  | some (Status.error code message, (stream2, literal2)) =>
    some { done_calls := [Status.error code message], stream := stream2, literal := literal2 }
  | some (Status.ok, (stream2, literal2)) =>
    some { done_calls := [stream2.BlockHostUntilDone.1]
           stream := stream2.BlockHostUntilDone.2
           literal := literal2 }

end GenericTransferManager

/-- The regions of the array nodes among `nodes`. -/
def ShapedBuffer.regionsOf (device_buffer : ShapedBuffer)
    (nodes : List (Shape × ShapeIndex)) : List DeviceMemoryBase :=
  (nodes.filter fun node => node.1.IsArray).map fun node => device_buffer.buffers node.2

/-- The regions of the array leaves of a device buffer, in visiting order. -/
def ShapedBuffer.leafRegions (device_buffer : ShapedBuffer) : List DeviceMemoryBase :=
  device_buffer.regionsOf (device_buffer.on_device_shape.subshapes [])

/-- No two array leaves of the device buffer have regions that overlap. -/
def ShapedBuffer.LeavesDisjoint (device_buffer : ShapedBuffer) : Prop :=
  device_buffer.leafRegions.Pairwise DeviceMemoryBase.Disjoint

instance (device_buffer : ShapedBuffer) : Decidable device_buffer.LeavesDisjoint := by
  unfold ShapedBuffer.LeavesDisjoint; infer_instance

/-- Every region of the device buffer has the size its subshape requires. -/
def ShapedBuffer.SizedFor (device_buffer : ShapedBuffer) (tm : GenericTransferManager) : Prop :=
  ∀ node ∈ device_buffer.on_device_shape.subshapes [],
    (device_buffer.buffers node.2).size = tm.GetByteSizeRequirement node.1

/-- Every array of the shape has a layout that fits it. -/
def Shape.LayoutsValid (shape : Shape) : Prop :=
  ∀ node ∈ shape.subshapes [], node.1.IsArray = true →
    LayoutUtil.ValidLayout node.1.layout node.1.dimensions_size

/-- At every array of `device_shape` the shape `host_shape` has the same
layout. -/
def Shape.SameLeafLayouts (host_shape device_shape : Shape) : Prop :=
  ∀ node ∈ device_shape.subshapes [], node.1.IsArray = true →
    (ShapeUtil.GetSubshape host_shape node.2).map Shape.layout = some node.1.layout

/-- The bytes `bytes` hold, in the layout of `device_subshape`, the elements
of the array of `literal` at `index`. -/
def HoldsElements (bytes : Nat → Nat) (device_subshape : Shape) (literal : Literal)
    (index : ShapeIndex) : Prop :=
  ∀ multi_index, IndexUtil.IndexInBounds device_subshape multi_index = true →
    (List.range device_subshape.element_size).map (fun k =>
        bytes (IndexUtil.MultidimensionalIndexToLinearIndex device_subshape multi_index
            * device_subshape.element_size + k))
      = literal.Get index multi_index

/-! ### Traces of a transfer -/

mutual
/-- The number of dimensions of an array that are marked dynamic (for a tuple,
of all its arrays together). -/
def Shape.dynamic_dimension_count : Shape → Nat
  | .array _ _ dynamic_dimensions _ => dynamic_dimensions.count true
  | .tuple tuple_shapes => Shape.dynamic_dimension_count_all tuple_shapes
/-- The dynamic dimensions of a list of shapes, added up. -/
def Shape.dynamic_dimension_count_all : List Shape → Nat
  | [] => 0
  | shape :: rest => shape.dynamic_dimension_count + Shape.dynamic_dimension_count_all rest
end

/-- Whether the operation is a host-to-device copy. -/
def StreamOp.isHostToDevice : StreamOp → Bool
  | .memcpy_h2d .. => true
  | _ => false

/-- Whether the operation is a device-to-host copy. -/
def StreamOp.isDeviceToHost : StreamOp → Bool
  | .memcpy_d2h .. => true
  | _ => false

/-- Whether the operation is a wait for the stream to be done. -/
def StreamOp.isBlock : StreamOp → Bool
  | .block_host_until_done => true
  | _ => false

/-- Whether the operation is a device-to-device copy. -/
def StreamOp.isDeviceToDevice : StreamOp → Bool
  | .memcpy_d2d .. => true
  | _ => false

/-- The number of bytes a copy moves; 0 for an operation that is no copy. -/
def StreamOp.byte_count : StreamOp → Nat
  | .memcpy_h2d _ _ size => size
  | .memcpy_d2h _ _ size => size
  | .memcpy_d2d _ _ size => size
  | _ => 0

/-- What an operation is, without the bytes it carries: whether it is a copy
to the device, whether it is a copy to the host, whether it is a wait, and how
many bytes it moves. -/
def StreamOp.summary (op : StreamOp) : Bool × Bool × Bool × Nat :=
  (op.isHostToDevice, op.isDeviceToHost, op.isBlock, op.byte_count)

/-- A direct-copy sequence: one copy to the device and nothing else. -/
def StreamOp.isDirectSequence : List StreamOp → Bool
  | [.memcpy_h2d ..] => true
  | _ => false

/-- A relayout-then-copy sequence: one copy to the device, then a wait. -/
def StreamOp.isRelayoutSequence : List StreamOp → Bool
  | [.memcpy_h2d .., .block_host_until_done] => true
  | _ => false

/-- Whether the host literal has, at the index of the node, the layout of the
node. -/
def Literal.layoutMatches (literal : Literal) (node : Shape × ShapeIndex) : Bool :=
  (ShapeUtil.GetSubshape literal.shape node.2).map Shape.layout == some node.1.layout

/-- An array node of the device shape at which the host literal has another
layout. -/
def Literal.layoutDiffers (literal : Literal) (node : Shape × ShapeIndex) : Bool :=
  node.1.IsArray && !literal.layoutMatches node

namespace GenericTransferManager

/-- What the transfer to the device is to enqueue at a node of the device
shape: nothing at a tuple; at an array whose host layout is that of the
device, one copy of the host bytes; at an array whose host layout differs, one
copy of the relaid-out bytes and then a wait for the stream. -/
def leafCopyOps (tm : GenericTransferManager) (literal : Literal)
    (device_buffer : ShapedBuffer) (node : Shape × ShapeIndex) : List StreamOp :=
  if node.1.IsArray then
    match literal.Slice node.2 with
    | none => []
    | some subliteral =>
      if LayoutUtil.Equal node.1.layout subliteral.shape.layout then
        [.memcpy_h2d (device_buffer.buffers node.2) (.bytes subliteral.untyped_data)
          (tm.GetByteSizeRequirement node.1)]
      else
        match subliteral.Relayout node.1.layout with
        | none => []
        | some relayed_out_literal =>
          [.memcpy_h2d (device_buffer.buffers node.2) (.bytes relayed_out_literal.untyped_data)
            (tm.GetByteSizeRequirement node.1), .block_host_until_done]
  else []

/-- The number of bytes the destination literal requires at `index`; 0 when it
has nothing there. -/
def literalByteSize (tm : GenericTransferManager) (literal : Literal)
    (index : ShapeIndex) : Nat :=
  match ShapeUtil.GetSubshape literal.shape index with
  | some literal_subshape => tm.GetByteSizeRequirement literal_subshape
  | none => 0

/-- The copy the transfer from the device is to enqueue at an array node: from
the region of the device buffer at the index of the node into the data of the
literal at that index, as many bytes as the literal requires there. -/
def leafCopyBack (tm : GenericTransferManager) (literal : Literal)
    (device_buffer : ShapedBuffer) (node : Shape × ShapeIndex) : StreamOp :=
  .memcpy_d2h node.2 (device_buffer.buffers node.2) (tm.literalByteSize literal node.2)

end GenericTransferManager

/-! ### Example values -/

namespace Example

/-- The element type `U8`, one byte wide. -/
def u8 : PrimitiveType := ⟨6, 1⟩

/-- A transfer manager for 8-byte pointers. -/
def manager : GenericTransferManager := ⟨0, 8⟩

/-- An ok stream on device 0 whose device memory is all zero. -/
def stream : Stream := ⟨0, Status.ok, fun _ => 0, []⟩

/-- The host array `[[1, 2], [3, 4]]` of shape `u8[2,2]`, row-major
(layout `{1,0}`): its buffer holds 1, 2, 3, 4. -/
def rowMajorValue : Literal :=
  ⟨.array u8 [2, 2] [false, false] [1, 0], fun _ offset => [1, 2, 3, 4].getD offset 0⟩

/-- A device buffer of shape `u8[2,2]`, column-major (layout `{0,1}`), in a
region of 4 bytes at address 100. -/
def columnMajorBuffer : ShapedBuffer :=
  ⟨.array u8 [2, 2] [false, false] [0, 1], 0, fun _ => ⟨100, 4⟩⟩

/-- A new host array of the shape of `rowMajorValue`, all zero. -/
def rowMajorDestination : Literal :=
  ⟨.array u8 [2, 2] [false, false] [1, 0], fun _ _ => 0⟩

/-- The host tuple `([[1, 2], [3, 4]], [5, 6])`, the matrix row-major. -/
def tupleValue : Literal :=
  ⟨.tuple [.array u8 [2, 2] [false, false] [1, 0], .array u8 [2] [false] [0]],
   fun index offset =>
    if index = [0] then [1, 2, 3, 4].getD offset 0
    else if index = [1] then [5, 6].getD offset 0
    else 0⟩

/-- A device buffer for a tuple of a column-major `u8[2,2]` and a `u8[2]`: the
index table in 16 bytes at address 10, the leaves at addresses 100 and 200. -/
def tupleBuffer : ShapedBuffer :=
  ⟨.tuple [.array u8 [2, 2] [false, false] [0, 1], .array u8 [2] [false] [0]], 0,
   fun index =>
    if index = [0] then ⟨100, 4⟩
    else if index = [1] then ⟨200, 2⟩
    else ⟨10, 16⟩⟩

/-- A new host tuple of the shape of `tupleBuffer`, all zero. -/
def tupleDestination : Literal :=
  ⟨.tuple [.array u8 [2, 2] [false, false] [0, 1], .array u8 [2] [false] [0]],
   fun _ _ => 0⟩

/-- The host tuple `([5, 6], [7, 8])` of two `u8[2]`. -/
def twoShortVectors : Literal :=
  ⟨.tuple [.array u8 [2] [false] [0], .array u8 [2] [false] [0]],
   fun index offset =>
    if index = [0] then [5, 6].getD offset 0
    else if index = [1] then [7, 8].getD offset 0
    else 0⟩

/-- A device buffer for a tuple of two `u8[2]` whose leaves overlap: 2 bytes at
address 100 and 2 bytes at address 101, both holding the byte 101. -/
def overlappingBuffer : ShapedBuffer :=
  ⟨.tuple [.array u8 [2] [false] [0], .array u8 [2] [false] [0]], 0,
   fun index =>
    if index = [0] then ⟨100, 2⟩
    else if index = [1] then ⟨101, 2⟩
    else ⟨10, 16⟩⟩

/-- A new host tuple of two `u8[2]`, all zero. -/
def twoShortVectorsDestination : Literal :=
  ⟨.tuple [.array u8 [2] [false] [0], .array u8 [2] [false] [0]], fun _ _ => 0⟩

/-- The shape `u8[<=2, 2]`: two dimensions, the first one dynamic. -/
def oneDynamicOfTwo : Shape :=
  .array u8 [2, 2] [true, false] [1, 0]

/-- The host tuple `([[1, 2], [3, 4]], [[5, 6], [7, 8]])`, both matrices
row-major. -/
def twoMatrices : Literal :=
  ⟨.tuple [.array u8 [2, 2] [false, false] [1, 0], .array u8 [2, 2] [false, false] [1, 0]],
   fun index offset =>
    if index = [0] then [1, 2, 3, 4].getD offset 0
    else if index = [1] then [5, 6, 7, 8].getD offset 0
    else 0⟩

/-- A device buffer for a tuple of two column-major `u8[2,2]`: the index table
in 16 bytes at address 10, the leaves in 4 bytes each at addresses 100 and
200. -/
def twoColumnMajorBuffer : ShapedBuffer :=
  ⟨.tuple [.array u8 [2, 2] [false, false] [0, 1], .array u8 [2, 2] [false, false] [0, 1]], 0,
   fun index =>
    if index = [0] then ⟨100, 4⟩
    else if index = [1] then ⟨200, 4⟩
    else ⟨10, 16⟩⟩

/-- The device buffer `tupleBuffer` with the region of its second leaf one
byte short: 1 byte at address 200 for a `u8[2]`. -/
def shortLeafBuffer : ShapedBuffer :=
  ⟨.tuple [.array u8 [2, 2] [false, false] [0, 1], .array u8 [2] [false] [0]], 0,
   fun index =>
    if index = [0] then ⟨100, 4⟩
    else if index = [1] then ⟨200, 1⟩
    else ⟨10, 16⟩⟩

/-- A device buffer of static shape `u8[2]` in a region of 2 bytes at address
100. -/
def vectorBuffer : ShapedBuffer :=
  ⟨.array u8 [2] [false] [0], 0, fun _ => ⟨100, 2⟩⟩

/-- The host vector `[5, 6]` of shape `u8[2]`. -/
def vectorValue : Literal :=
  ⟨.array u8 [2] [false] [0], fun _ offset => [5, 6].getD offset 0⟩

/-- A device buffer of shape `u8[2]`, in the layout of `vectorValue`, whose
region is one byte short: 1 byte at address 100. -/
def shortVectorBuffer : ShapedBuffer :=
  ⟨.array u8 [2] [false] [0], 0, fun _ => ⟨100, 1⟩⟩

/-- A new host array of shape `u8[<=2]`, its dimension dynamic, all zero. -/
def dynamicVectorDestination : Literal :=
  ⟨.array u8 [2] [true] [0], fun _ _ => 0⟩

end Example

/-! ### Operations the generic manager does not support -/

/-- Modelled from the spec: `Unimplemented(...)` is defined with the error
helpers, whose source is not at hand: an "explicit \"not implemented\"
failure", the status of code UNIMPLEMENTED (12) with the given message. -/
def Unimplemented (message : String) : Status :=
  Status.error 12 message

/-- Modelled from the spec: `InternalError(...)`, "an internal transfer
failure", the status of code INTERNAL (13) with the given message. -/
def InternalError (message : String) : Status :=
  Status.error 13 message

namespace GenericTransferManager

/-- `GenericTransferManager::TransferLiteralToInfeed`: the status returned,
and the executor as the call leaves it. -/
def TransferLiteralToInfeed (_tm : GenericTransferManager) (executor : StreamExecutor)
    (_literal : Literal) : Status × StreamExecutor :=
  (Unimplemented "Generic transfer to Infeed", executor)

/-- `GenericTransferManager::TransferLiteralFromOutfeed`: the status returned,
and the executor and the literal as the call leaves them. -/
def TransferLiteralFromOutfeed (_tm : GenericTransferManager) (executor : StreamExecutor)
    (literal : Literal) : Status × StreamExecutor × Literal :=
  (Unimplemented "Generic transfer from Outfeed", executor, literal)

/-- `GenericTransferManager::ResetDevices`: the status returned, and the
executors as the call leaves them. -/
def ResetDevices (_tm : GenericTransferManager) (executors : List StreamExecutor) :
    Status × List StreamExecutor :=
  (Unimplemented "Device reset is not yet supported on this platform (b/30481585)",
   executors)

/-- What `WriteSingleTupleIndexTable` is to enqueue for a tuple node: the copy
of the array of the addresses of its children into the region of the node, and
the host callback that keeps that array. -/
def tableOps (tm : GenericTransferManager) (device_buffer : ShapedBuffer)
    (node : Shape × ShapeIndex) : List StreamOp :=
  if node.1.IsTuple then
    [.memcpy_h2d (device_buffer.buffers node.2)
        (.pointers ((List.range (ShapeUtil.TupleElementCount node.1)).map fun i =>
          (device_buffer.buffers (node.2 ++ [i])).address))
        (tm.GetByteSizeRequirement node.1),
     .host_callback]
  else []

end GenericTransferManager

/-! ### Infeed thunk -/

mutual
/-- Modelled from the spec: `ShapeUtil::Equal`, the shape "exactly equals" the
other: the same tree, and at each array the same element type, dimensions,
dynamic markings and layout. -/
def ShapeUtil.Equal : Shape → Shape → Bool
  | .array element_type dimensions dynamic_dimensions minor_to_major,
    .array element_type2 dimensions2 dynamic_dimensions2 minor_to_major2 =>
    element_type == element_type2 && dimensions == dimensions2
      && dynamic_dimensions == dynamic_dimensions2 && minor_to_major == minor_to_major2
  | .tuple tuple_shapes, .tuple tuple_shapes2 => ShapeUtil.Equal_all tuple_shapes tuple_shapes2
  | _, _ => false
/-- The two lists are of equal length and equal entry by entry. -/
def ShapeUtil.Equal_all : List Shape → List Shape → Bool
  | [], [] => true
  | shape :: rest, shape2 :: rest2 => ShapeUtil.Equal shape shape2 && ShapeUtil.Equal_all rest rest2
  | _, _ => false
end

/-- A node of a shape tree without children: an array, or a tuple of
nothing. -/
def Shape.IsLeaf : Shape → Bool
  | .array .. => true
  | .tuple tuple_shapes => tuple_shapes.isEmpty

namespace gpu

/-- Modelled from the spec: `ShapedSlice`, a "symbolic destination slice"
(named by a number) with the shape declared for it. -/
structure ShapedSlice where
  slice : Nat
  shape : Shape

/-- Modelled from the spec: `BufferAllocations`, the "buffer-allocation table
collaborator" that "resolves a symbolic destination slice ... to a concrete
device address". -/
structure BufferAllocations where
  GetDeviceAddress : Nat → DeviceMemoryBase

/-- Modelled from the spec: `ShapeTree<se::ScopedDeviceMemory<uint8_t>>`, "a
tree of device-memory-owning buffers matching a shape". -/
structure ShapeTree where
  shape : Shape
  buffers : ShapeIndex → DeviceMemoryBase

/-- Modelled from the spec: `ShapeTree::leaves`, the leaves of the tree "in
traversal order", each with its index and its buffer. -/
def ShapeTree.leaves (tree : ShapeTree) : List (ShapeIndex × DeviceMemoryBase) :=
  ((tree.shape.subshapes []).filter fun node => node.1.IsLeaf).map fun node =>
    (node.2, tree.buffers node.2)

/-- How a run of `ExecuteOnStream` ends without returning: a fatal check
(`ITEX_CHECK_EQ`, or the check inside `ShapeUtil::GetSubshape`) aborts the
process, or `dest_slices_[index]` is read at an index that the vector does
not have. -/
inductive Fault where
  | check_failed
  | out_of_bounds (index : Nat)
deriving DecidableEq, Repr

/-- An `InfeedThunk`. -/
structure InfeedThunk where
  dest_slices_ : List ShapedSlice

namespace InfeedThunk

/-- The loop over the leaves in `InfeedThunk::ExecuteOnStream`, from the leaf
at hand on, with `index` and the stream as they stand: the status with which
the loop is left (ok when it runs to its end), and `index` and the stream
then. -/
def copyLeaves (thunk : InfeedThunk) (buffer_allocations : BufferAllocations)
    (source_buffers_shape : Shape) :
    List (ShapeIndex × DeviceMemoryBase) → Nat → Stream → Except Fault (Status × Nat × Stream)
  | [], index, stream => .ok (Status.ok, index, stream)
  | (shape_index, buffer) :: rest, index, stream =>
    match ShapeUtil.GetSubshape source_buffers_shape shape_index with
    | none => .error .check_failed
    | some source_shape =>
      match thunk.dest_slices_[index]? with
      | none => .error (.out_of_bounds index)
      | some dest =>
        if !ShapeUtil.Equal dest.shape source_shape then
          .ok (RetCheckFailure "ShapeUtil::Equal(dest_slices_[index].shape, source_shape)",
            index, stream)
        else
          copyLeaves thunk buffer_allocations source_buffers_shape rest (index + 1)
            (stream.ThenMemcpyDeviceToDevice (buffer_allocations.GetDeviceAddress dest.slice)
              buffer buffer.size)

/-- `InfeedThunk::ExecuteOnStream`, on the tree `source_buffers` that the
infeed manager hands over (`BlockingGetNextDestination`): the status returned
and the stream then, or the fault that ends the run. -/
def ExecuteOnStream (thunk : InfeedThunk) (stream : Stream)
    (buffer_allocations : BufferAllocations) (source_buffers : ShapeTree) :
    Except Fault (Status × Stream) :=
  match thunk.copyLeaves buffer_allocations source_buffers.shape source_buffers.leaves 0
      stream with
  | .error fault => .error fault
  | .ok (Status.error code message, _, stream2) => .ok (Status.error code message, stream2)
  | .ok (Status.ok, index, stream2) =>
    if index != thunk.dest_slices_.length then .error .check_failed
    else
      match stream2.BlockHostUntilDone with
      | (Status.ok, stream3) => .ok (Status.ok, stream3)
      | (Status.error _ message, stream3) =>
        .ok (InternalError ("Failed to complete data transfer on stream: " ++ message),
          stream3)

/-- Whether the leaf passes the check of the loop at position `index`: there
is a destination slice at that position, and its shape equals the shape of
the tree at the index of the leaf. -/
def shapeMatches (thunk : InfeedThunk) (source_buffers_shape : Shape) (index : Nat)
    (leaf : ShapeIndex × DeviceMemoryBase) : Bool :=
  match thunk.dest_slices_[index]?, ShapeUtil.GetSubshape source_buffers_shape leaf.1 with
  | some dest, some source_shape => ShapeUtil.Equal dest.shape source_shape
  | _, _ => false

/-- Every leaf of the list passes the check of the loop, the first at
position `index`, the next at `index + 1`, and so on. -/
def allMatch (thunk : InfeedThunk) (source_buffers_shape : Shape) :
    Nat → List (ShapeIndex × DeviceMemoryBase) → Bool
  | _, [] => true
  | index, leaf :: rest =>
    thunk.shapeMatches source_buffers_shape index leaf
      && allMatch thunk source_buffers_shape (index + 1) rest

/-- The copies of the leaves into the destination slices at the positions
`index, index + 1, ...`, position by position, for as long as there are
slices: each of the whole buffer of the leaf to the device address of the
slice. -/
def copiesFrom (thunk : InfeedThunk) (buffer_allocations : BufferAllocations) :
    Nat → List (ShapeIndex × DeviceMemoryBase) → List StreamOp
  | _, [] => []
  | index, leaf :: rest =>
    match thunk.dest_slices_[index]? with
    | none => []
    | some dest =>
      .memcpy_d2d (buffer_allocations.GetDeviceAddress dest.slice) leaf.2 leaf.2.size
        :: copiesFrom thunk buffer_allocations (index + 1) rest

end InfeedThunk

end gpu

/-! ### Permutations -/

/-- The checked accesses `Span::at` and `std::vector::at`, at an index given as
an `int64_t`: converted to `size_t`, a negative index is beyond every size.
`none` is the exception `std::out_of_range`. -/
def vector_at (v : List Int) (i : Int) : Option Int :=
  if i < 0 then none else v[i.toNat]?

/-- The checked assignment `v.at(i) = x`; `none` is the exception. -/
def vector_set_at (v : List Int) (i : Int) (x : Int) : Option (List Int) :=
  if i < 0 then none else if i.toNat < v.length then some (v.set i.toNat x) else none

/-- The loop of `IsPermutation` over the entries that remain, with the table
`seen` as it stands; `size` is `permutation.size()`.  The accesses `seen[p]` are
unchecked in the code: `none` is an access outside the table. -/
def IsPermutation.loop (size : Nat) : List Int → List Bool → Option Bool
  | [], _ => some true
  | p :: rest, seen =>
    if p < 0 || p ≥ (size : Int) then some false
    else
      match seen[p.toNat]? with
      | none => none
      | some true => some false
      | some false => IsPermutation.loop size rest (seen.set p.toNat true)

/-- `IsPermutation`. -/
def IsPermutation (permutation : List Int) : Option Bool :=
  IsPermutation.loop permutation.length permutation (List.replicate permutation.length false)

/-- `InversePermutation`; the `ITEX_DCHECK` of the input, present in debug
builds only, is left out.  `none` is an exception of a checked access. -/
def InversePermutation (input_permutation : List Int) : Option (List Int) :=
  (List.range input_permutation.length).foldlM
    (fun output_permutation (i : Nat) =>
      (vector_at input_permutation i).bind fun target =>
        vector_set_at output_permutation target i)
    (List.replicate input_permutation.length (-1))

/-- `ComposePermutations`; `none` is the fatal check of the sizes, or an
exception of a checked access. -/
def ComposePermutations (p1 p2 : List Int) : Option (List Int) :=
  if p1.length != p2.length then none
  else
    (List.range p1.length).foldlM
      (fun output (i : Nat) =>
        ((vector_at p2 i).bind (vector_at p1)).map fun x => output ++ [x]) []

/-- `IsIdentityPermutation`. -/
def IsIdentityPermutation (permutation : List Int) : Bool :=
  (List.range permutation.length).all fun i => permutation[i]? == some (i : Int)

/-- The list contains every integer of the range `[0, length of the list)`
exactly once. -/
def ContainsEachOnce (v : List Int) : Prop :=
  ∀ k : Nat, k < v.length → v.count (k : Int) = 1

instance (v : List Int) : Decidable (ContainsEachOnce v) := by
  unfold ContainsEachOnce; infer_instance

namespace Example

/-- A buffer-allocation table that puts slice `k` in 2 bytes at address
`1000 + k`. -/
def allocations : gpu.BufferAllocations :=
  ⟨fun slice => ⟨1000 + slice, 2⟩⟩

/-- A tree of two `u8[2]` leaves, in 2 bytes each at addresses 100 and 200. -/
def twoVectors : gpu.ShapeTree :=
  ⟨.tuple [.array u8 [2] [false] [0], .array u8 [2] [false] [0]],
   fun index => if index = [0] then ⟨100, 2⟩ else ⟨200, 2⟩⟩

/-- A thunk with two destination slices, both declared `u8[2]`. -/
def thunkOfTwo : gpu.InfeedThunk :=
  ⟨[⟨0, .array u8 [2] [false] [0]⟩, ⟨1, .array u8 [2] [false] [0]⟩]⟩

/-- A thunk with two destination slices, the second declared `u8[3]`. -/
def thunkSecondDiffers : gpu.InfeedThunk :=
  ⟨[⟨0, .array u8 [2] [false] [0]⟩, ⟨1, .array u8 [3] [false] [0]⟩]⟩

/-- A thunk with one destination slice, declared `u8[2]`. -/
def thunkOfOne : gpu.InfeedThunk :=
  ⟨[⟨0, .array u8 [2] [false] [0]⟩]⟩

/-- A thunk with three destination slices, all declared `u8[2]`. -/
def thunkOfThree : gpu.InfeedThunk :=
  ⟨[⟨0, .array u8 [2] [false] [0]⟩, ⟨1, .array u8 [2] [false] [0]⟩,
    ⟨2, .array u8 [2] [false] [0]⟩]⟩

end Example

end itex_xla

namespace itex_xla

/-! ### Lemmas about the borrow loop -/

namespace StreamPool

theorem borrowLoop_some (fuel : Nat) (pool : StreamPool) (s : Nat) :
    borrowLoop fuel pool (some s) = (pool, some s) := by
  cases fuel <;> simp [borrowLoop]

/-- Popping a run of not-ok streams from the back destroys them, last first. -/
theorem borrowLoop_skip (okf : Nat → Bool) (nxt : Nat) (cs : List (Nat × StreamExecutor)) :
    ∀ (post pre : List Nat) (ds : List Nat) (fuel : Nat),
      (∀ q ∈ post, okf q = false) →
      borrowLoop (post.length + fuel) ⟨pre ++ post, okf, nxt, cs, ds⟩ none
        = borrowLoop fuel ⟨pre, okf, nxt, cs, ds ++ post.reverse⟩ none := by
  intro post
  induction post using List.reverseRecOn with
  | nil => intro pre ds fuel _; simp
  | append_singleton post a ih =>
    intro pre ds fuel h
    have ha : okf a = false := h a (by simp)
    have hpost : ∀ q ∈ post, okf q = false := fun q hq => h q (by simp [hq])
    have hlen : (post ++ [a]).length + fuel = (post.length + fuel) + 1 := by
      simp; omega
    rw [hlen, borrowLoop]
    have hne : (pre ++ (post ++ [a])).isEmpty = false := by
      cases pre <;> cases post <;> simp
    have hlast : (pre ++ (post ++ [a])).getLast? = some a := by
      rw [← List.append_assoc]; simp
    have hdrop : (pre ++ (post ++ [a])).dropLast = pre ++ post := by
      rw [← List.append_assoc]; simp
    simp only [hne, hlast, hdrop, ha, destroy]
    simp only [Bool.not_false, Option.isNone_none, Bool.and_self, if_true]
    rw [ih pre (ds ++ [a]) fuel hpost]
    simp

/-- The loop stops at the last ok stream of the vector. -/
theorem borrowLoop_hit (okf : Nat → Bool) (nxt : Nat) (cs : List (Nat × StreamExecutor))
    (pre post ds : List Nat) (s : Nat) (hs : okf s = true)
    (hpost : ∀ q ∈ post, okf q = false) :
    borrowLoop (pre ++ s :: post).length ⟨pre ++ s :: post, okf, nxt, cs, ds⟩ none
      = (⟨pre, okf, nxt, cs, ds ++ post.reverse⟩, some s) := by
  have hlen : (pre ++ s :: post).length = post.length + (pre.length + 1) := by
    simp; omega
  have happ : pre ++ s :: post = (pre ++ [s]) ++ post := by simp
  rw [hlen, happ, borrowLoop_skip okf nxt cs post (pre ++ [s]) ds (pre.length + 1) hpost,
    borrowLoop]
  have hne : (pre ++ [s]).isEmpty = false := by cases pre <;> simp
  simp [hne, hs, borrowLoop_some]

/-- With no ok stream in the vector the loop empties it. -/
theorem borrowLoop_miss (okf : Nat → Bool) (nxt : Nat) (cs : List (Nat × StreamExecutor))
    (l ds : List Nat) (hl : ∀ q ∈ l, okf q = false) :
    borrowLoop l.length ⟨l, okf, nxt, cs, ds⟩ none
      = (⟨[], okf, nxt, cs, ds ++ l.reverse⟩, none) := by
  have h := borrowLoop_skip okf nxt cs l [] ds 0 hl
  simp only [Nat.add_zero, List.nil_append] at h
  rw [h, borrowLoop]

/-- Every vector either has a last ok entry or has none at all. -/
theorem lastOk_cases (okf : Nat → Bool) (l : List Nat) :
    (∃ pre s post, l = pre ++ s :: post ∧ okf s = true ∧ ∀ q ∈ post, okf q = false)
      ∨ (∀ q ∈ l, okf q = false) := by
  induction l using List.reverseRecOn with
  | nil => right; simp
  | append_singleton l a ih =>
    cases ha : okf a with
    | true => left; exact ⟨l, a, [], rfl, ha, by simp⟩
    | false =>
      rcases ih with ⟨pre, s, post, hl, hs, hpost⟩ | hall
      · left
        refine ⟨pre, s, post ++ [a], by simp [hl], hs, ?_⟩
        intro q hq
        rcases List.mem_append.1 hq with h | h
        · exact hpost q h
        · simp at h; simpa [h] using ha
      · right
        intro q hq
        rcases List.mem_append.1 hq with h | h
        · exact hall q h
        · simp at h; simpa [h] using ha

theorem BorrowStream_hit (pool : StreamPool) (executor : StreamExecutor)
    (pre post : List Nat) (s : Nat) (hl : pool.streams_ = pre ++ s :: post)
    (hs : pool.ok s = true) (hpost : ∀ q ∈ post, pool.ok q = false) :
    BorrowStream pool executor
      = (s, { pool with streams_ := pre, destroyed := pool.destroyed ++ post.reverse }) := by
  obtain ⟨l, okf, nxt, cs, ds⟩ := pool
  simp only at hl hs hpost
  subst hl
  simp only [BorrowStream]
  rw [borrowLoop_hit okf nxt cs pre post ds s hs hpost]

theorem BorrowStream_miss (pool : StreamPool) (executor : StreamExecutor)
    (hall : ∀ q ∈ pool.streams_, pool.ok q = false) :
    BorrowStream pool executor
      = (pool.next,
         { streams_ := []
           ok := Function.update pool.ok pool.next executor.allocateStream
           next := pool.next + 1
           constructed := pool.constructed ++ [(pool.next, executor)]
           destroyed := pool.destroyed ++ pool.streams_.reverse }) := by
  obtain ⟨l, okf, nxt, cs, ds⟩ := pool
  simp only at hall
  simp only [BorrowStream]
  rw [borrowLoop_miss okf nxt cs l ds hall]
  rfl

/-- The borrow never lengthens the vector. -/
theorem BorrowStream_length_le (pool : StreamPool) (executor : StreamExecutor) :
    (BorrowStream pool executor).2.streams_.length ≤ pool.streams_.length := by
  rcases lastOk_cases pool.ok pool.streams_ with ⟨pre, s, post, hl, hs, hpost⟩ | hall
  · rw [BorrowStream_hit pool executor pre post s hl hs hpost, hl]
    simp
  · rw [BorrowStream_miss pool executor hall]
    simp

end StreamPool

/-! ### Claims about the stream pool -/

/-- C1: `BorrowStream` hands out the last (most recently returned) ok stream of
the pool when there is one, destroying exactly the not-ok streams behind it and
leaving the streams in front of it untouched and in order; when no pooled
stream is ok it destroys them all, leaves the pool empty and hands out a stream
newly constructed and initialised against the executor.  In either case the
stream handed out is a pooled stream that is ok, with nothing constructed, or
the stream just constructed. -/
theorem C1_BorrowStream_contract (pool : StreamPool) (executor : StreamExecutor) :
    (∀ pre s post, pool.streams_ = pre ++ s :: post → pool.ok s = true →
        (∀ q ∈ post, pool.ok q = false) →
        StreamPool.BorrowStream pool executor
          = (s, { pool with streams_ := pre
                            destroyed := pool.destroyed ++ post.reverse }))
    ∧ ((∀ q ∈ pool.streams_, pool.ok q = false) →
        StreamPool.BorrowStream pool executor
          = (pool.next,
             { streams_ := []
               ok := Function.update pool.ok pool.next executor.allocateStream
               next := pool.next + 1
               constructed := pool.constructed ++ [(pool.next, executor)]
               destroyed := pool.destroyed ++ pool.streams_.reverse }))
    ∧ (((StreamPool.BorrowStream pool executor).1 ∈ pool.streams_
          ∧ pool.ok (StreamPool.BorrowStream pool executor).1 = true
          ∧ (StreamPool.BorrowStream pool executor).2.constructed = pool.constructed)
        ∨ ((∀ q ∈ pool.streams_, pool.ok q = false)
          ∧ (StreamPool.BorrowStream pool executor).2.streams_ = []
          ∧ (StreamPool.BorrowStream pool executor).2.constructed
              = pool.constructed ++ [((StreamPool.BorrowStream pool executor).1, executor)])) := by
  refine ⟨fun pre s post hl hs hpost =>
      StreamPool.BorrowStream_hit pool executor pre post s hl hs hpost,
    fun hall => StreamPool.BorrowStream_miss pool executor hall, ?_⟩
  rcases StreamPool.lastOk_cases pool.ok pool.streams_ with ⟨pre, s, post, hl, hs, hpost⟩ | hall
  · left
    rw [StreamPool.BorrowStream_hit pool executor pre post s hl hs hpost]
    exact ⟨by simp [hl], hs, rfl⟩
  · right
    rw [StreamPool.BorrowStream_miss pool executor hall]
    exact ⟨hall, rfl, rfl⟩

/-- Witness for C1: a pool `[5, 7, 9]` in which only stream 9 is not ok yields
stream 7, keeps `[5]` and destroys 9; a pool `[9]` yields the new stream 10. -/
theorem C1_BorrowStream_contract_witness :
    StreamPool.BorrowStream ⟨[5, 7, 9], fun s => s != 9, 10, [], []⟩ ⟨0, true⟩
        = (7, ⟨[5], fun s => s != 9, 10, [], [9]⟩)
    ∧ StreamPool.BorrowStream ⟨[9], fun s => s != 9, 10, [], []⟩ ⟨0, true⟩
        = (10, ⟨[], Function.update (fun s => s != 9) 10 true, 11, [(10, ⟨0, true⟩)], [9]⟩) :=
  ⟨(C1_BorrowStream_contract ⟨[5, 7, 9], fun s => s != 9, 10, [], []⟩ ⟨0, true⟩).1
      [5] 7 [9] rfl rfl (by simp),
   (C1_BorrowStream_contract ⟨[9], fun s => s != 9, 10, [], []⟩ ⟨0, true⟩).2.1 (by simp)⟩

/-- C2: `ReturnStream(s)` with `s` ok appends `s` at the end of the pool and
changes nothing else; with `s` not ok it destroys `s` and leaves the pool as it
was.  `BorrowStream` never lengthens the pool, so the pool grows only by the
return of an ok stream. -/
theorem C2_ReturnStream_contract (pool : StreamPool) (s : Nat) (executor : StreamExecutor) :
    (pool.ok s = true →
        StreamPool.ReturnStream pool s = { pool with streams_ := pool.streams_ ++ [s] })
    ∧ (pool.ok s = false →
        StreamPool.ReturnStream pool s = { pool with destroyed := pool.destroyed ++ [s] })
    ∧ (StreamPool.BorrowStream pool executor).2.streams_.length ≤ pool.streams_.length := by
  refine ⟨fun h => by simp [StreamPool.ReturnStream, h],
    fun h => by simp [StreamPool.ReturnStream, StreamPool.destroy, h],
    StreamPool.BorrowStream_length_le pool executor⟩

/-- Witness for C2: returning the ok stream 4 to the pool `[5]` gives `[5, 4]`;
returning the not-ok stream 9 destroys it. -/
theorem C2_ReturnStream_contract_witness :
    StreamPool.ReturnStream ⟨[5], fun s => s != 9, 10, [], []⟩ 4
        = ⟨[5, 4], fun s => s != 9, 10, [], []⟩
    ∧ StreamPool.ReturnStream ⟨[5], fun s => s != 9, 10, [], []⟩ 9
        = ⟨[5], fun s => s != 9, 10, [], [9]⟩ :=
  ⟨(C2_ReturnStream_contract ⟨[5], fun s => s != 9, 10, [], []⟩ 4 ⟨0, true⟩).1 rfl,
   (C2_ReturnStream_contract ⟨[5], fun s => s != 9, 10, [], []⟩ 9 ⟨0, true⟩).2.1 rfl⟩

/-- C3: a stream returned ok and still ok at the next borrow (whatever happened
to the health of the other streams in between, `ok2` being the health at the
borrow) is the stream that borrow hands out, with no construction and with the
pool as it was before the return.  From an empty pool: the first borrow
constructs exactly one stream; if that stream is ok when returned (`ok1`) the
pool then has size 1, and if it is still ok at the second borrow (`ok2`) that
borrow hands the same stream out again, the constructions staying at one. -/
theorem C3_return_then_borrow (pool : StreamPool) (s : Nat) (executor : StreamExecutor)
    (okf ok1 ok2 : Nat → Bool) :
    (pool.ok s = true → ok2 s = true →
        StreamPool.BorrowStream { StreamPool.ReturnStream pool s with ok := ok2 } executor
          = (s, { pool with ok := ok2 }))
    ∧ (ok1 0 = true → ok2 0 = true →
        (StreamPool.BorrowStream (StreamPool.empty okf) executor).1 = 0
        ∧ (StreamPool.BorrowStream (StreamPool.empty okf) executor).2.constructed
            = [(0, executor)]
        ∧ (StreamPool.ReturnStream
            { (StreamPool.BorrowStream (StreamPool.empty okf) executor).2 with ok := ok1 }
            0).streams_ = [0]
        ∧ StreamPool.BorrowStream
            { StreamPool.ReturnStream
                { (StreamPool.BorrowStream (StreamPool.empty okf) executor).2 with ok := ok1 } 0
              with ok := ok2 } executor
            = (0, ⟨[], ok2, 1, [(0, executor)], []⟩)) := by
  constructor
  · intro h1 h2
    have hr : StreamPool.ReturnStream pool s = { pool with streams_ := pool.streams_ ++ [s] } := by
      simp [StreamPool.ReturnStream, h1]
    rw [hr]
    rw [StreamPool.BorrowStream_hit _ executor pool.streams_ [] s rfl h2 (by simp)]
    simp
  · intro h1 h2
    have hb : StreamPool.BorrowStream (StreamPool.empty okf) executor
        = (0, ⟨[], Function.update okf 0 executor.allocateStream, 1, [(0, executor)], []⟩) := by
      rw [StreamPool.BorrowStream_miss _ executor (by simp [StreamPool.empty])]
      simp [StreamPool.empty]
    have hr : StreamPool.ReturnStream ⟨[], ok1, 1, [(0, executor)], []⟩ 0
        = ⟨[0], ok1, 1, [(0, executor)], []⟩ := by
      simp [StreamPool.ReturnStream, h1]
    rw [hb]
    simp only [hr]
    rw [StreamPool.BorrowStream_hit _ executor [] [] 0 rfl h2 (by simp)]
    simp

/-- Witness for C3 on the pool `[5]` and stream 4, and on the empty pool. -/
theorem C3_return_then_borrow_witness :
    StreamPool.BorrowStream
        { StreamPool.ReturnStream ⟨[5], fun s => s != 9, 10, [], []⟩ 4 with ok := fun s => s != 5 }
        ⟨0, true⟩
      = (4, ⟨[5], fun s => s != 5, 10, [], []⟩)
    ∧ StreamPool.BorrowStream
        { StreamPool.ReturnStream
            { (StreamPool.BorrowStream (StreamPool.empty fun _ => false) ⟨0, true⟩).2
              with ok := fun s => s != 9 } 0
          with ok := fun s => s != 5 } ⟨0, true⟩
        = (0, ⟨[], fun s => s != 5, 1, [(0, ⟨0, true⟩)], []⟩) :=
  ⟨(C3_return_then_borrow ⟨[5], fun s => s != 9, 10, [], []⟩ 4 ⟨0, true⟩
      (fun _ => false) (fun s => s != 9) (fun s => s != 5)).1 rfl rfl,
   ((C3_return_then_borrow ⟨[5], fun s => s != 9, 10, [], []⟩ 4 ⟨0, true⟩
      (fun _ => false) (fun s => s != 9) (fun s => s != 5)).2 rfl rfl).2.2.2⟩

/-! ### Counting constructions, and ownership -/

namespace StreamPool

theorem foundNoOk_iff (pool : StreamPool) :
    pool.foundNoOk = true ↔ ∀ q ∈ pool.streams_, pool.ok q = false := by
  simp [foundNoOk]

theorem BorrowStream_constructed (pool : StreamPool) (executor : StreamExecutor) :
    (BorrowStream pool executor).2.constructed.length
      = pool.constructed.length + (if pool.foundNoOk then 1 else 0) := by
  rcases lastOk_cases pool.ok pool.streams_ with ⟨pre, s, post, hl, hs, hpost⟩ | hall
  · have hno : pool.foundNoOk = false := by
      cases h : pool.foundNoOk with
      | false => rfl
      | true =>
        have := (foundNoOk_iff pool).1 h s (by simp [hl])
        simp [hs] at this
    rw [BorrowStream_hit pool executor pre post s hl hs hpost, hno]
    simp
  · rw [BorrowStream_miss pool executor hall, (foundNoOk_iff pool).2 hall]
    simp

theorem ReturnStream_constructed (pool : StreamPool) (s : Nat) :
    (ReturnStream pool s).constructed = pool.constructed := by
  unfold ReturnStream destroy
  split <;> rfl

theorem run_constructed (ops : List PoolOp) :
    ∀ pool : StreamPool,
      (run ops pool).constructed.length = pool.constructed.length + misses ops pool := by
  induction ops with
  | nil => intro pool; simp [run, misses]
  | cons op ops ih =>
    intro pool
    cases op with
    | borrow executor =>
      simp only [run, misses]
      rw [ih, apply, BorrowStream_constructed]
      omega
    | release s =>
      simp only [run, misses]
      rw [ih, apply, ReturnStream_constructed]
    | fail s =>
      simp only [run, misses]
      rw [ih]
      rfl

end StreamPool

/-- C4: over every sequence of borrows and returns (and of streams failing in
between), the number of streams constructed grows by exactly the number of
borrows that found no ok stream in the pool; from a new pool the two numbers
are equal.  A borrow constructs one stream when it finds no ok stream and none
otherwise, and a return constructs none. -/
theorem C4_constructions_equal_misses (ops : List PoolOp) (pool : StreamPool)
    (okf : Nat → Bool) :
    (StreamPool.run ops pool).constructed.length
        = pool.constructed.length + StreamPool.misses ops pool
    ∧ (StreamPool.run ops (StreamPool.empty okf)).constructed.length
        = StreamPool.misses ops (StreamPool.empty okf)
    ∧ (∀ executor, (StreamPool.BorrowStream pool executor).2.constructed.length
        = pool.constructed.length + (if pool.foundNoOk then 1 else 0))
    ∧ (∀ s, (StreamPool.ReturnStream pool s).constructed = pool.constructed) := by
  refine ⟨StreamPool.run_constructed ops pool, ?_,
    StreamPool.BorrowStream_constructed pool, StreamPool.ReturnStream_constructed pool⟩
  rw [StreamPool.run_constructed]
  simp [StreamPool.empty]

namespace PoolSystem

theorem Exclusive_init (okf : Nat → Bool) : Exclusive (init okf) := by
  simp [Exclusive, init, StreamPool.empty]

theorem Exclusive_step (sys sys2 : PoolSystem) (op : PoolOp)
    (hinv : Exclusive sys) (hstep : sys.step op = some sys2) : Exclusive sys2 := by
  unfold Exclusive at *
  cases op with
  | borrow executor =>
    simp only [step, Option.some.injEq] at hstep
    subst hstep
    rcases StreamPool.lastOk_cases sys.pool.ok sys.pool.streams_ with
      ⟨pre, s, post, hl, hs, hpost⟩ | hall
    · rw [StreamPool.BorrowStream_hit sys.pool executor pre post s hl hs hpost]
      rw [hl] at hinv
      refine List.Perm.trans ?_ hinv
      rw [List.perm_iff_count]
      intro a
      simp only [List.count_append, List.count_cons, List.count_reverse]
      omega
    · rw [StreamPool.BorrowStream_miss sys.pool executor hall]
      simp only [List.nil_append]
      rw [List.range_succ]
      have h2 := (List.perm_iff_count.1 hinv)
      rw [List.perm_iff_count]
      intro a
      have := h2 a
      simp only [List.count_append, List.count_cons, List.count_reverse, List.count_nil] at this ⊢
      omega
  | release s =>
    simp only [step] at hstep
    split at hstep
    · rename_i hmem
      simp only [Option.some.injEq] at hstep
      subst hstep
      have hp := List.perm_iff_count.1 (List.perm_cons_erase hmem)
      have h2 := List.perm_iff_count.1 hinv
      have hnext : (sys.pool.ReturnStream s).next = sys.pool.next := by
        unfold StreamPool.ReturnStream StreamPool.destroy; split <;> rfl
      simp only [hnext]
      rw [List.perm_iff_count]
      intro a
      have := h2 a
      have := hp a
      unfold StreamPool.ReturnStream StreamPool.destroy
      split <;>
        simp only [List.count_append, List.count_cons, List.count_nil] at * <;> omega
    · simp at hstep
  | fail s =>
    simp only [step, Option.some.injEq] at hstep
    subst hstep
    exact hinv

theorem Exclusive_run (ops : List PoolOp) :
    ∀ sys sys2 : PoolSystem, Exclusive sys → run ops sys = some sys2 → Exclusive sys2 := by
  induction ops with
  | nil =>
    intro sys sys2 hinv hrun
    simp only [run, Option.some.injEq] at hrun
    exact hrun ▸ hinv
  | cons op ops ih =>
    intro sys sys2 hinv hrun
    simp only [run] at hrun
    cases hs : sys.step op with
    | none => simp [hs] at hrun
    | some mid =>
      rw [hs] at hrun
      exact ih mid sys2 (Exclusive_step sys mid op hinv hs) hrun

theorem Exclusive.nodup {sys : PoolSystem} (h : Exclusive sys) :
    (sys.pool.streams_ ++ sys.leased ++ sys.pool.destroyed).Nodup :=
  (List.Perm.nodup_iff h).2 (List.nodup_range _)

end PoolSystem

namespace PoolSystem

/-- The identities handed out so far are exactly those of the constructed
streams. -/
theorem constructed_step (sys sys2 : PoolSystem) (op : PoolOp)
    (hinv : sys.pool.constructed.map Prod.fst = List.range sys.pool.next)
    (hstep : sys.step op = some sys2) :
    sys2.pool.constructed.map Prod.fst = List.range sys2.pool.next := by
  cases op with
  | borrow executor =>
    simp only [step, Option.some.injEq] at hstep
    subst hstep
    rcases StreamPool.lastOk_cases sys.pool.ok sys.pool.streams_ with
      ⟨pre, s, post, hl, hs, hpost⟩ | hall
    · rw [StreamPool.BorrowStream_hit sys.pool executor pre post s hl hs hpost]
      exact hinv
    · rw [StreamPool.BorrowStream_miss sys.pool executor hall]
      simp [List.range_succ, hinv]
  | release s =>
    simp only [step] at hstep
    split at hstep
    · simp only [Option.some.injEq] at hstep
      subst hstep
      unfold StreamPool.ReturnStream StreamPool.destroy
      split <;> exact hinv
    · simp at hstep
  | fail s =>
    simp only [step, Option.some.injEq] at hstep
    subst hstep
    exact hinv

theorem constructed_run (ops : List PoolOp) :
    ∀ sys sys2 : PoolSystem,
      sys.pool.constructed.map Prod.fst = List.range sys.pool.next →
      run ops sys = some sys2 →
      sys2.pool.constructed.map Prod.fst = List.range sys2.pool.next := by
  induction ops with
  | nil =>
    intro sys sys2 hinv hrun
    simp only [run, Option.some.injEq] at hrun
    exact hrun ▸ hinv
  | cons op ops ih =>
    intro sys sys2 hinv hrun
    simp only [run] at hrun
    cases hs : sys.step op with
    | none => simp [hs] at hrun
    | some mid =>
      rw [hs] at hrun
      exact ih mid sys2 (constructed_step sys mid op hinv hs) hrun

end PoolSystem

/-- C5: in every state a new pool reaches by borrows, releases of handles that
are held (so each lease is released at most once) and stream failures, every
stream constructed so far is in exactly one place, the pool, one caller's
handle, or destroyed: the pool holds no stream twice, no stream is leased
twice, none is both pooled and leased, a destroyed stream is neither, and no
constructed stream is missing from all three.  Releasing a held handle puts
its stream into the pool when the stream is ok and destroys it when it is not,
and the handle is no longer held. -/
theorem C5_exclusive_ownership (okf : Nat → Bool) (ops : List PoolOp) (sys : PoolSystem)
    (hrun : PoolSystem.run ops (PoolSystem.init okf) = some sys) :
    PoolSystem.Exclusive sys
    ∧ sys.pool.constructed.map Prod.fst = List.range sys.pool.next
    ∧ sys.pool.streams_.Nodup
    ∧ sys.leased.Nodup
    ∧ (∀ s ∈ sys.pool.streams_, s ∉ sys.leased)
    ∧ (∀ s ∈ sys.pool.destroyed, s ∉ sys.pool.streams_ ∧ s ∉ sys.leased)
    ∧ (∀ s ∈ sys.pool.constructed.map Prod.fst,
        s ∈ sys.pool.streams_ ∨ s ∈ sys.leased ∨ s ∈ sys.pool.destroyed)
    ∧ (∀ s ∈ sys.leased, ∃ sys2, sys.step (.release s) = some sys2
        ∧ PoolSystem.Exclusive sys2
        ∧ s ∉ sys2.leased
        ∧ (sys.pool.ok s = true → s ∈ sys2.pool.streams_ ∧ s ∉ sys2.pool.destroyed)
        ∧ (sys.pool.ok s = false → s ∈ sys2.pool.destroyed ∧ s ∉ sys2.pool.streams_)) := by
  have hex : PoolSystem.Exclusive sys :=
    PoolSystem.Exclusive_run ops _ sys (PoolSystem.Exclusive_init okf) hrun
  have hcons : sys.pool.constructed.map Prod.fst = List.range sys.pool.next :=
    PoolSystem.constructed_run ops _ sys (by simp [PoolSystem.init, StreamPool.empty]) hrun
  have hnd := hex.nodup
  have hnd1 : (sys.pool.streams_ ++ sys.leased).Nodup := (List.nodup_append.1 hnd).1
  have hdis : List.Disjoint (sys.pool.streams_ ++ sys.leased) sys.pool.destroyed :=
    (List.nodup_append.1 hnd).2.2
  refine ⟨hex, hcons, (List.nodup_append.1 hnd1).1, (List.nodup_append.1 hnd1).2.1, ?_, ?_, ?_, ?_⟩
  · intro s hs hl
    exact (List.nodup_append.1 hnd1).2.2 hs hl
  · intro s hs
    exact ⟨fun h => hdis (List.mem_append_left _ h) hs,
      fun h => hdis (List.mem_append_right _ h) hs⟩
  · intro s hs
    rw [hcons] at hs
    have := (List.Perm.mem_iff hex).2 hs
    simpa [or_assoc] using this
  · intro s hs
    have hstep : sys.step (.release s)
        = some { pool := sys.pool.ReturnStream s, leased := sys.leased.erase s } := by
      simp [PoolSystem.step, hs]
    have hex2 := PoolSystem.Exclusive_step sys _ (.release s) hex hstep
    have hnd2 := hex2.nodup
    refine ⟨_, hstep, hex2, ?_, ?_, ?_⟩
    · exact fun h => (List.Nodup.mem_erase_iff (List.nodup_append.1 hnd1).2.1).1 h |>.1 rfl
    · intro hok
      have hr : sys.pool.ReturnStream s = { sys.pool with streams_ := sys.pool.streams_ ++ [s] } := by
        simp [StreamPool.ReturnStream, hok]
      refine ⟨by simp [hr], ?_⟩
      rw [hr]
      exact fun h => hdis (List.mem_append_right _ hs) h
    · intro hok
      have hr : sys.pool.ReturnStream s
          = { sys.pool with destroyed := sys.pool.destroyed ++ [s] } := by
        simp [StreamPool.ReturnStream, StreamPool.destroy, hok]
      refine ⟨by simp [hr], ?_⟩
      rw [hr]
      exact fun h => (List.nodup_append.1 hnd1).2.2 h hs

/-- Witness for C5: borrow, borrow, the first stream fails, both are released. -/
theorem C5_exclusive_ownership_witness :
    PoolSystem.Exclusive
      ⟨⟨[1], Function.update (Function.update (Function.update (fun _ => false) 0 true) 1 true)
          0 false, 2, [(0, ⟨0, true⟩), (1, ⟨0, true⟩)], [0]⟩, []⟩ :=
  (C5_exclusive_ownership (fun _ => false)
    [.borrow ⟨0, true⟩, .borrow ⟨0, true⟩, .fail 0, .release 0, .release 1]
    ⟨⟨[1], Function.update (Function.update (Function.update (fun _ => false) 0 true) 1 true)
          0 false, 2, [(0, ⟨0, true⟩), (1, ⟨0, true⟩)], [0]⟩, []⟩ (by
      simp [PoolSystem.run, PoolSystem.step, PoolSystem.init, StreamPool.empty,
        StreamPool.BorrowStream, StreamPool.borrowLoop, StreamPool.construct,
        StreamPool.ReturnStream, StreamPool.markFailed, StreamPool.destroy])).1

end itex_xla

/-! ## Host stream: lemmas -/

namespace stream_executor
namespace host

open itex

variable {σ : Type}

theorem Status.Update_firstFailure (a s : Status) (rest : List Status) :
    (a.Update s).Update (firstFailure rest) = a.Update (firstFailure (s :: rest)) := by
  cases a <;> cases s <;> simp [Status.Update, firstFailure]

theorem Status.ok_Update (s : Status) : Status.ok.Update s = s := rfl

theorem Status.Update_ok (s : Status) : s.Update Status.ok = s := by
  cases s <;> rfl

theorem StatusTask.call_fst (fn : StatusTask σ) (st : Store σ) :
    (fn.call st).1 = (fn.onEnv st.env).1 := by
  rcases fn with f | t
  · rfl
  · cases t <;> rfl

theorem StatusTask.call_env (fn : StatusTask σ) (st : Store σ) :
    (fn.call st).2.env = (fn.onEnv st.env).2 := by
  rcases fn with f | t
  · rfl
  · cases t <;> rfl

/-- A caller's item changes nothing in the store but the callers' state. -/
theorem StatusTask.call_fromCaller (fn : StatusTask σ) (st : Store σ)
    (h : fn.fromCaller = true) :
    (fn.call st).2 = { st with env := (fn.onEnv st.env).2 } := by
  rcases fn with f | t
  · rfl
  · cases t
    · rfl
    · simp [StatusTask.fromCaller] at h

theorem runItem_fromCaller (fn : StatusTask σ) (st : Store σ) (h : fn.fromCaller = true) :
    runItem fn st
      = { st with status_ := st.status_.Update (fn.onEnv st.env).1
                  env := (fn.onEnv st.env).2 } := by
  simp [runItem, StatusTask.call_fromCaller fn st h, StatusTask.call_fst]

/-- The capture item of `BlockUntilDone`: copy the aggregate out, reset it,
notify. -/
theorem runItem_captureStatus (st : Store σ) :
    runItem (.wrapped .captureStatus) st
      = { st with status := st.status_, status_ := Status.ok, done := true } := by
  simp [runItem, StatusTask.call, Task.call, Status.Update]

/-- Running callers' items through the reference FIFO folds their statuses
into the aggregate, first failure first. -/
theorem fifoRun_callers (items : List (StatusTask σ)) :
    ∀ (st : Store σ) (ex : List (StatusTask σ)),
      (∀ t ∈ items, t.fromCaller = true) →
      fifoRun (items.map some) (st, ex)
        = ({ st with status_ := st.status_.Update (firstFailure (returned items st.env))
                     env := envAfter items st.env }, ex ++ items) := by
  induction items with
  | nil => intro st ex _; simp [fifoRun, firstFailure, returned, envAfter, Status.Update_ok]
  | cons fn fns ih =>
    intro st ex h
    have hfn : fn.fromCaller = true := h fn (by simp)
    have hrest : ∀ t ∈ fns, t.fromCaller = true := fun t ht => h t (by simp [ht])
    simp only [List.map_cons, fifoRun]
    rw [ih _ _ hrest, runItem_fromCaller fn st hfn]
    simp [returned, envAfter, Status.Update_firstFailure]

theorem fifoRun_executed (items : List (Option (StatusTask σ))) :
    ∀ acc : Store σ × List (StatusTask σ),
      (fifoRun items acc).2 = acc.2 ++ beforeSentinel items := by
  induction items with
  | nil => intro acc; simp [fifoRun, beforeSentinel]
  | cons it rest ih =>
    intro acc
    cases it with
    | none => simp [fifoRun, beforeSentinel]
    | some fn => simp [fifoRun, beforeSentinel, ih]

theorem fifoRun_append (p q : List (Option (StatusTask σ))) :
    ∀ acc : Store σ × List (StatusTask σ),
      fifoRun (p ++ q) acc
        = if hasSentinel p then fifoRun p acc else fifoRun q (fifoRun p acc) := by
  induction p with
  | nil => intro acc; simp [fifoRun, hasSentinel]
  | cons it rest ih =>
    intro acc
    cases it with
    | none => simp [fifoRun, hasSentinel]
    | some fn => simp [fifoRun, hasSentinel, ih]

theorem hasSentinel_append (p q : List (Option (StatusTask σ))) :
    hasSentinel (p ++ q) = (hasSentinel p || hasSentinel q) := by
  induction p with
  | nil => simp [hasSentinel]
  | cons it rest ih => cases it <;> simp [hasSentinel, ih]

theorem hasSentinel_map_some (items : List (StatusTask σ)) :
    hasSentinel (items.map some) = false := by
  induction items with
  | nil => rfl
  | cons fn fns ih => simp [hasSentinel, ih]

theorem beforeSentinel_map_some (items : List (StatusTask σ)) :
    beforeSentinel (items.map some) = items := by
  induction items with
  | nil => rfl
  | cons fn fns ih => simp [beforeSentinel, ih]

theorem beforeSentinel_append (p q : List (Option (StatusTask σ))) :
    beforeSentinel (p ++ q)
      = if hasSentinel p then beforeSentinel p else beforeSentinel p ++ beforeSentinel q := by
  induction p with
  | nil => simp [beforeSentinel, hasSentinel]
  | cons it rest ih =>
    cases it with
    | none => simp [beforeSentinel, hasSentinel]
    | some fn =>
      cases h : hasSentinel rest <;> simp [beforeSentinel, hasSentinel, ih, h]

namespace HostStream

theorem WorkLoop_exited (fuel : Nat) (w : List (Option (StatusTask σ))) (st : Store σ)
    (ex : List (StatusTask σ)) :
    WorkLoop fuel ⟨w, .exited, st, ex⟩ = ⟨w, .exited, st, ex⟩ := by
  cases fuel <;> simp [WorkLoop, workStep]

/-- The inner loop of the worker runs its local queue like the reference FIFO. -/
theorem WorkLoop_drain_local (w : List (Option (StatusTask σ))) :
    ∀ (l : List (Option (StatusTask σ))) (st : Store σ) (ex : List (StatusTask σ)) (fuel : Nat),
      WorkLoop (l.length + fuel) ⟨w, .draining l, st, ex⟩
        = if hasSentinel l then
            ⟨w, .exited, (fifoRun l (st, ex)).1, (fifoRun l (st, ex)).2⟩
          else
            WorkLoop fuel ⟨w, .draining [], (fifoRun l (st, ex)).1, (fifoRun l (st, ex)).2⟩ := by
  intro l
  induction l with
  | nil => intro st ex fuel; simp [hasSentinel, fifoRun]
  | cons it rest ih =>
    intro st ex fuel
    have hlen : (it :: rest).length + fuel = (rest.length + fuel) + 1 := by
      simp; omega
    rw [hlen]
    cases it with
    | none => simp [WorkLoop, workStep, hasSentinel, fifoRun, WorkLoop_exited]
    | some fn =>
      simp only [WorkLoop, workStep, hasSentinel, fifoRun]
      rw [ih]

theorem WorkLoop_awaiting (w : List (Option (StatusTask σ))) (st : Store σ)
    (ex : List (StatusTask σ)) (fuel : Nat) (hf : w.length + 2 ≤ fuel) :
    WorkLoop fuel ⟨w, .awaiting, st, ex⟩
      = if hasSentinel w then
          ⟨[], .exited, (fifoRun w (st, ex)).1, (fifoRun w (st, ex)).2⟩
        else
          ⟨[], .awaiting, (fifoRun w (st, ex)).1, (fifoRun w (st, ex)).2⟩ := by
  cases w with
  | nil =>
    cases fuel <;> simp [WorkLoop, workStep, WorkAvailable, hasSentinel, fifoRun]
  | cons it rest =>
    obtain ⟨k, rfl⟩ : ∃ k, fuel = ((it :: rest).length + (k + 1)) + 1 :=
      ⟨fuel - (it :: rest).length - 2, by simp at hf ⊢; omega⟩
    rw [WorkLoop]
    simp only [workStep, WorkAvailable, List.isEmpty_cons, Bool.not_false, if_true]
    rw [WorkLoop_drain_local]
    split
    · rfl
    · rw [WorkLoop]
      simp only [workStep]
      cases k <;> simp [WorkLoop, workStep, WorkAvailable]

theorem WorkLoop_draining (l w : List (Option (StatusTask σ))) (st : Store σ)
    (ex : List (StatusTask σ)) (fuel : Nat) (hf : l.length + w.length + 3 ≤ fuel) :
    WorkLoop fuel ⟨w, .draining l, st, ex⟩
      = if hasSentinel l then
          ⟨w, .exited, (fifoRun (l ++ w) (st, ex)).1, (fifoRun (l ++ w) (st, ex)).2⟩
        else if hasSentinel w then
          ⟨[], .exited, (fifoRun (l ++ w) (st, ex)).1, (fifoRun (l ++ w) (st, ex)).2⟩
        else
          ⟨[], .awaiting, (fifoRun (l ++ w) (st, ex)).1, (fifoRun (l ++ w) (st, ex)).2⟩ := by
  obtain ⟨k, rfl⟩ : ∃ k, fuel = l.length + ((w.length + 2 + k) + 1) :=
    ⟨fuel - l.length - w.length - 3, by omega⟩
  rw [WorkLoop_drain_local, fifoRun_append]
  cases hl : hasSentinel l with
  | true => simp
  | false =>
    simp only [Bool.false_eq_true, if_false]
    rw [WorkLoop]
    simp only [workStep]
    rw [WorkLoop_awaiting _ _ _ _ (by omega)]

/-- Left alone with enough moves, the worker comes to rest having run its
pending items exactly as the reference FIFO runs them. -/
theorem WorkLoop_settles (hs : HostStream σ) (hne : hs.hasExited = false) (fuel : Nat)
    (hf : hs.pending.length + 3 ≤ fuel) :
    ((WorkLoop fuel hs).store, (WorkLoop fuel hs).executed)
        = fifoRun hs.pending (hs.store, hs.executed)
    ∧ (WorkLoop fuel hs).hasExited = hasSentinel hs.pending
    ∧ (WorkLoop fuel hs).workStep = none
    ∧ (hasSentinel hs.pending = false → (WorkLoop fuel hs).pending = []) := by
  obtain ⟨w, th, st, ex⟩ := hs
  cases th with
  | awaiting =>
    simp only [pending, localQueue, List.nil_append] at hf ⊢
    rw [WorkLoop_awaiting w st ex fuel (by omega)]
    cases hw : hasSentinel w <;>
      simp [hasExited, workStep, WorkAvailable, pending, localQueue]
  | draining l =>
    simp only [pending, localQueue, List.length_append] at hf ⊢
    rw [WorkLoop_draining l w st ex fuel (by omega), hasSentinel_append]
    cases hl : hasSentinel l <;> cases hw : hasSentinel w <;>
      simp [hasExited, workStep, WorkAvailable, pending, localQueue]
  | exited => simp [hasExited] at hne

theorem pushed_cons (e : Event σ) (es : List (Event σ)) :
    pushed (e :: es) = pushed [e] ++ pushed es := by
  cases e <;> simp [pushed]

/-- What one event does to a stream whose worker has not returned: it leaves
store and log alone and appends what it pushes; or the worker runs the oldest
pending item; or the worker meets the empty item and returns. -/
theorem step_cases (hs : HostStream σ) (e : Event σ) (hne : hs.hasExited = false) :
    ((hs.step e).hasExited = false ∧ (hs.step e).store = hs.store
        ∧ (hs.step e).executed = hs.executed
        ∧ (hs.step e).pending = hs.pending ++ pushed [e])
    ∨ ((hs.step e).hasExited = false ∧ pushed [e] = []
        ∧ ∃ fn, hs.pending = some fn :: (hs.step e).pending
          ∧ (hs.step e).store = runItem fn hs.store
          ∧ (hs.step e).executed = hs.executed ++ [fn])
    ∨ ((hs.step e).hasExited = true ∧ (hs.step e).store = hs.store
        ∧ (hs.step e).executed = hs.executed
        ∧ ∃ rest, hs.pending = none :: rest) := by
  obtain ⟨w, th, st, ex⟩ := hs
  cases e with
  | enqueue task =>
    left
    cases th <;>
      simp_all [step, EnqueueTaskWithStatus, hasExited, pending, localQueue, pushed]
  | shutdown =>
    left
    cases th <;> simp_all [step, hasExited, pending, localQueue, pushed]
  | work =>
    cases th with
    | awaiting =>
      left
      cases w <;> simp [step, workStep, WorkAvailable, hasExited, pending, localQueue, pushed]
    | draining l =>
      cases l with
      | nil =>
        left
        simp [step, workStep, hasExited, pending, localQueue, pushed]
      | cons it rest =>
        cases it with
        | none =>
          right; right
          simp [step, workStep, hasExited, pending, localQueue]
        | some fn =>
          right; left
          simp [step, workStep, hasExited, pending, localQueue, pushed]
    | exited => simp [hasExited] at hne

/-- Once the worker has returned nothing is run any more. -/
theorem step_exited (hs : HostStream σ) (e : Event σ) (hex : hs.hasExited = true) :
    (hs.step e).hasExited = true ∧ (hs.step e).store = hs.store
      ∧ (hs.step e).executed = hs.executed := by
  obtain ⟨w, th, st, ex⟩ := hs
  cases th <;> simp [hasExited] at hex
  cases e <;> simp [step, EnqueueTaskWithStatus, workStep, hasExited]

theorem runEvents_exited (evs : List (Event σ)) :
    ∀ hs : HostStream σ, hs.hasExited = true →
      (runEvents evs hs).hasExited = true ∧ (runEvents evs hs).store = hs.store
        ∧ (runEvents evs hs).executed = hs.executed := by
  induction evs with
  | nil => intro hs h; exact ⟨h, rfl, rfl⟩
  | cons e es ih =>
    intro hs h
    obtain ⟨h1, h2, h3⟩ := step_exited hs e h
    obtain ⟨k1, k2, k3⟩ := ih (hs.step e) h1
    exact ⟨k1, k2.trans h2, k3.trans h3⟩

/-- Under every schedule the worker stays on the track of the reference FIFO
that is fed the same items: either it has not returned, what it has run and
what is pending make up, in order, what was pending and pushed, and running
the rest one by one ends where the reference ends; or it has returned at the
empty item, in the reference's final state. -/
theorem runEvents_outcome (evs : List (Event σ)) :
    ∀ hs : HostStream σ, hs.hasExited = false →
      ((runEvents evs hs).hasExited = false
        ∧ (∃ ran, (runEvents evs hs).executed = hs.executed ++ ran
            ∧ ran.map some ++ (runEvents evs hs).pending = hs.pending ++ pushed evs)
        ∧ fifoRun (runEvents evs hs).pending
              ((runEvents evs hs).store, (runEvents evs hs).executed)
            = fifoRun (hs.pending ++ pushed evs) (hs.store, hs.executed))
      ∨ ((runEvents evs hs).hasExited = true
        ∧ ((runEvents evs hs).store, (runEvents evs hs).executed)
            = fifoRun (hs.pending ++ pushed evs) (hs.store, hs.executed)
        ∧ hasSentinel (hs.pending ++ pushed evs) = true) := by
  induction evs with
  | nil =>
    intro hs hne
    left
    exact ⟨hne, ⟨[], by simp [runEvents], by simp [pushed, runEvents]⟩,
      by simp [pushed, runEvents]⟩
  | cons e es ih =>
    intro hs hne
    rw [pushed_cons]
    simp only [runEvents]
    rcases step_cases hs e hne with ⟨h1, h2, h3, h4⟩ | ⟨h1, h0, fn, h2, h3, h4⟩ | ⟨h1, h2, h3, rest, h4⟩
    · rcases ih (hs.step e) h1 with ⟨k1, ⟨ran, k2, k3⟩, k4⟩ | ⟨k1, k2, k3⟩
      · left
        refine ⟨k1, ⟨ran, by rw [k2, h3], by rw [k3, h4, List.append_assoc]⟩, ?_⟩
        rw [k4, h2, h3, h4, List.append_assoc]
      · right
        refine ⟨k1, ?_, ?_⟩
        · rw [k2, h2, h3, h4, List.append_assoc]
        · rw [← List.append_assoc, ← h4]; exact k3
    · rcases ih (hs.step e) h1 with ⟨k1, ⟨ran, k2, k3⟩, k4⟩ | ⟨k1, k2, k3⟩
      · left
        refine ⟨k1, ⟨fn :: ran, by rw [k2, h4]; simp, ?_⟩, ?_⟩
        · rw [h0, h2, List.nil_append]
          simp only [List.map_cons, List.cons_append]
          rw [k3]
        · rw [k4, h0, h2, h3, h4]
          simp [fifoRun]
      · right
        refine ⟨k1, ?_, ?_⟩
        · rw [k2, h0, h2, h3, h4]
          simp [fifoRun]
        · rw [h0, h2]
          simpa [hasSentinel] using k3
    · right
      obtain ⟨k1, k2, k3⟩ := runEvents_exited es (hs.step e) h1
      refine ⟨k1, ?_, ?_⟩
      · rw [k2, k3, h2, h3, h4]
        simp [fifoRun]
      · rw [h4]
        simp [hasSentinel]

/-- While waiting for the notification the worker runs callers' items like the
reference FIFO; none of them notifies. -/
theorem Wait_drain_callers (w q : List (Option (StatusTask σ))) :
    ∀ (items : List (StatusTask σ)) (st : Store σ) (ex : List (StatusTask σ)) (fuel : Nat),
      (∀ t ∈ items, t.fromCaller = true) → st.done = false →
      WaitForNotification (items.length + fuel) ⟨w, .draining (items.map some ++ q), st, ex⟩
        = WaitForNotification fuel
            ⟨w, .draining q, (fifoRun (items.map some) (st, ex)).1,
              (fifoRun (items.map some) (st, ex)).2⟩ := by
  intro items
  induction items with
  | nil => intro st ex fuel _ _; simp [fifoRun]
  | cons fn fns ih =>
    intro st ex fuel hc hd
    have hfn : fn.fromCaller = true := hc fn (by simp)
    have hrest : ∀ t ∈ fns, t.fromCaller = true := fun t ht => hc t (by simp [ht])
    have hlen : (fn :: fns).length + fuel = (fns.length + fuel) + 1 := by
      simp; omega
    rw [hlen]
    simp only [WaitForNotification, hd, List.map_cons, List.cons_append, workStep, fifoRun]
    simp only [Bool.false_eq_true, if_false]
    rw [ih _ _ _ hrest (by rw [runItem_fromCaller fn st hfn]; exact hd)]

theorem Wait_awaiting_capture (items : List (StatusTask σ)) (st : Store σ)
    (ex : List (StatusTask σ)) (fuel : Nat)
    (hc : ∀ t ∈ items, t.fromCaller = true) (hd : st.done = false)
    (hf : items.length + 2 ≤ fuel) :
    WaitForNotification fuel
        ⟨items.map some ++ [some (.wrapped .captureStatus)], .awaiting, st, ex⟩
      = ⟨[], .draining [],
          runItem (.wrapped .captureStatus) (fifoRun (items.map some) (st, ex)).1,
          (fifoRun (items.map some) (st, ex)).2 ++ [.wrapped .captureStatus]⟩ := by
  obtain ⟨k, rfl⟩ : ∃ k, fuel = (items.length + (k + 1)) + 1 :=
    ⟨fuel - items.length - 2, by omega⟩
  have hne : (List.map some items ++ [some (StatusTask.wrapped Task.captureStatus)]).isEmpty
      = false := by cases items <;> simp
  rw [WaitForNotification]
  simp only [hd, workStep, WorkAvailable, hne, Bool.not_false, if_true, Bool.false_eq_true,
    if_false]
  rw [Wait_drain_callers _ _ _ _ _ _ hc hd]
  have hd2 : (fifoRun (items.map some) (st, ex)).1.done = false := by
    rw [fifoRun_callers items st ex hc]; exact hd
  rw [WaitForNotification]
  simp only [hd2, workStep, Bool.false_eq_true, if_false]
  cases k <;> simp [WaitForNotification, runItem_captureStatus]

theorem map_some_split (l w : List (Option (StatusTask σ))) (items : List (StatusTask σ))
    (h : l ++ w = items.map some) :
    l = (items.take l.length).map some ∧ w = (items.drop l.length).map some := by
  constructor
  · have := congrArg (List.take l.length) h
    rw [List.take_left, ← List.map_take] at this
    exact this
  · have := congrArg (List.drop l.length) h
    rw [List.drop_left, ← List.map_drop] at this
    exact this

/-- `BlockUntilDone` on a live stream whose pending items are callers' items:
it returns, with the aggregate as it stands once those items have run, and
leaves the aggregate ok and nothing pending. -/
theorem BlockUntilDone_callers (hs : HostStream σ) (items : List (StatusTask σ)) (fuel : Nat)
    (hne : hs.hasExited = false) (hp : hs.pending = items.map some)
    (hc : ∀ t ∈ items, t.fromCaller = true) (hf : items.length + 4 ≤ fuel) :
    BlockUntilDone fuel hs
      = some (hs.store.status_.Update (firstFailure (returned items hs.store.env)),
          ⟨[], .draining [],
            ⟨Status.ok, envAfter items hs.store.env, true,
              hs.store.status_.Update (firstFailure (returned items hs.store.env))⟩,
            hs.executed ++ items ++ [.wrapped .captureStatus]⟩) := by
  obtain ⟨w, th, st, ex⟩ := hs
  cases th with
  | awaiting =>
    simp only [pending, localQueue, List.nil_append] at hp
    subst hp
    simp only [BlockUntilDone, EnqueueTask, EnqueueTaskWithStatus]
    rw [Wait_awaiting_capture items _ ex fuel hc rfl (by omega)]
    rw [fifoRun_callers items _ ex hc]
    simp [runItem_captureStatus]
  | draining l =>
    simp only [pending, localQueue] at hp
    obtain ⟨A, B, hAB, hlA, hwB⟩ : ∃ A B : List (StatusTask σ),
        items = A ++ B ∧ l = A.map some ∧ w = B.map some :=
      ⟨_, _, (List.take_append_drop l.length items).symm,
        (map_some_split l w items hp).1, (map_some_split l w items hp).2⟩
    subst hAB hlA hwB
    have hcA : ∀ t ∈ A, t.fromCaller = true := fun t ht => hc t (by simp [ht])
    have hcB : ∀ t ∈ B, t.fromCaller = true := fun t ht => hc t (by simp [ht])
    obtain ⟨k, hk⟩ : ∃ k, fuel = A.length + ((B.length + 2 + k) + 1) :=
      ⟨fuel - (A ++ B).length - 3, by simp at hf ⊢; omega⟩
    subst hk
    simp only [BlockUntilDone, EnqueueTask, EnqueueTaskWithStatus]
    have hq : List.map some A = List.map some A ++ ([] : List (Option (StatusTask σ))) := by simp
    conv_lhs => rw [hq]
    rw [Wait_drain_callers _ _ A _ _ _ hcA rfl]
    have hd2 : (fifoRun (A.map some)
        (({ st with done := false, status := Status.ok } : Store σ), ex)).1.done = false := by
      rw [fifoRun_callers _ _ ex hcA]
    rw [WaitForNotification]
    simp only [hd2, workStep, Bool.false_eq_true, if_false]
    rw [Wait_awaiting_capture _ _ _ _ hcB hd2 (by omega)]
    have hjoin : ∀ acc : Store σ × List (StatusTask σ),
        fifoRun (B.map some) (fifoRun (A.map some) acc) = fifoRun ((A ++ B).map some) acc := by
      intro acc
      rw [List.map_append, fifoRun_append, hasSentinel_map_some]
      simp
    rw [hjoin, fifoRun_callers (A ++ B) _ ex hc]
    simp [runItem_captureStatus]
  | exited => simp [hasExited] at hne

end HostStream

theorem pushed_length (evs : List (Event σ)) : (pushed evs).length ≤ evs.length := by
  induction evs with
  | nil => simp [pushed]
  | cons e es ih => cases e <;> simp [pushed] <;> omega

theorem pushed_of_no_shutdown (evs : List (Event σ))
    (h : ∀ e ∈ evs, e.isShutdown = false) : pushed evs = (submitted evs).map some := by
  induction evs with
  | nil => rfl
  | cons e es ih =>
    have hes : ∀ e ∈ es, e.isShutdown = false := fun x hx => h x (by simp [hx])
    have he := h e (by simp)
    cases e <;> simp_all [pushed, submitted, Event.isShutdown]

theorem no_shutdown_of_fromCaller (evs : List (Event σ))
    (h : ∀ e ∈ evs, e.fromCaller = true) : ∀ e ∈ evs, e.isShutdown = false := by
  intro e he
  have := h e he
  cases e <;> simp_all [Event.fromCaller, Event.isShutdown]

theorem submitted_fromCaller (evs : List (Event σ))
    (h : ∀ e ∈ evs, e.fromCaller = true) : ∀ t ∈ submitted evs, t.fromCaller = true := by
  induction evs with
  | nil => intro t ht; simp [submitted] at ht
  | cons e es ih =>
    have hes : ∀ e ∈ es, e.fromCaller = true := fun x hx => h x (by simp [hx])
    have he := h e (by simp)
    intro t ht
    cases e with
    | enqueue task =>
      simp only [submitted, List.mem_cons] at ht
      rcases ht with rfl | ht
      · simpa [Event.fromCaller] using he
      · exact ih hes t ht
    | shutdown => simp [Event.fromCaller] at he
    | work => exact ih hes t (by simpa [submitted] using ht)

/-- A live stream reached by a schedule without shutdown: what has run and
what is pending make up the submitted items, and nothing pending is empty. -/
theorem runEvents_live (hs : HostStream σ) (evs : List (Event σ))
    (hne : hs.hasExited = false) (hns : ∀ e ∈ evs, e.isShutdown = false)
    (hp : hs.pending = []) :
    (HostStream.runEvents evs hs).hasExited = false
    ∧ (∃ ran rest, submitted evs = ran ++ rest
        ∧ (HostStream.runEvents evs hs).executed = hs.executed ++ ran
        ∧ (HostStream.runEvents evs hs).pending = rest.map some)
    ∧ fifoRun (HostStream.runEvents evs hs).pending
          ((HostStream.runEvents evs hs).store, (HostStream.runEvents evs hs).executed)
        = fifoRun ((submitted evs).map some) (hs.store, hs.executed) := by
  have hpush := pushed_of_no_shutdown evs hns
  rcases HostStream.runEvents_outcome evs hs hne with ⟨k1, ⟨ran, k2, k3⟩, k4⟩ | ⟨_, _, k3⟩
  · rw [hp, List.nil_append, hpush] at k3 k4
    refine ⟨k1, ?_, k4⟩
    have hsplit := HostStream.map_some_split _ _ _ k3
    simp only [List.length_map] at hsplit
    refine ⟨ran, (submitted evs).drop ran.length, ?_, k2, hsplit.2⟩
    have h1 : ran = (submitted evs).take ran.length :=
      List.map_injective_iff.2 (Option.some_injective _) hsplit.1
    conv_lhs => rw [← List.take_append_drop ran.length (submitted evs)]
    rw [← h1]
  · rw [hp, List.nil_append, hpush, hasSentinel_map_some] at k3
    simp at k3

/-! ## Host stream: claims -/

/-- C6: when the worker is left to run a list of callers' work items (however
they are split between its local queue and `work_queue_`), it runs them all in
enqueue order, and if the aggregate was ok at the start it ends as the status
returned by the first item that returned a failure, or ok if none did; an
aggregate that already holds a failure keeps it, so no later failure or success
overwrites the first.  The items are the closures callers submit; the special
item of `BlockUntilDone`, which resets the aggregate, is not one of them. -/
theorem C6_first_failure_sticks (hs : HostStream σ) (items : List (StatusTask σ))
    (fuel : Nat) (hne : hs.hasExited = false) (hp : hs.pending = items.map some)
    (hc : ∀ t ∈ items, t.fromCaller = true) (hf : items.length + 3 ≤ fuel) :
    (HostStream.WorkLoop fuel hs).executed = hs.executed ++ items
    ∧ (HostStream.WorkLoop fuel hs).pending = []
    ∧ (hs.store.status_ = Status.ok →
        (HostStream.WorkLoop fuel hs).store.status_
          = firstFailure (returned items hs.store.env))
    ∧ (∀ code message, hs.store.status_ = Status.error code message →
        (HostStream.WorkLoop fuel hs).store.status_ = Status.error code message) := by
  obtain ⟨h1, _, _, h4⟩ := HostStream.WorkLoop_settles hs hne fuel (by rw [hp]; simpa using hf)
  rw [hp, fifoRun_callers items _ _ hc] at h1
  have hst := congrArg Prod.fst h1
  have hex := congrArg Prod.snd h1
  simp only at hst hex
  refine ⟨hex, h4 (by rw [hp]; exact hasSentinel_map_some items), ?_, ?_⟩
  · intro hok
    rw [hst, hok]
    rfl
  · intro code message herr
    rw [hst, herr]
    rfl

/-- Witness for C6: items returning ok, failure 1 "X", failure 2 "Y" leave the
aggregate at failure 1 "X". -/
theorem C6_first_failure_sticks_witness :
    (HostStream.WorkLoop 6
        ⟨[some (.user fun (e : Unit) => (Status.ok, e)),
          some (.user fun e => (Status.error 1 "X", e)),
          some (.user fun e => (Status.error 2 "Y", e))],
         .awaiting, ⟨Status.ok, (), false, Status.ok⟩, []⟩).store.status_
      = Status.error 1 "X" :=
  (C6_first_failure_sticks
    ⟨[some (.user fun (e : Unit) => (Status.ok, e)),
      some (.user fun e => (Status.error 1 "X", e)),
      some (.user fun e => (Status.error 2 "Y", e))],
     .awaiting, ⟨Status.ok, (), false, Status.ok⟩, []⟩
    [.user fun (e : Unit) => (Status.ok, e), .user fun e => (Status.error 1 "X", e),
      .user fun e => (Status.error 2 "Y", e)]
    6 rfl rfl (by simp [StatusTask.fromCaller]) (by decide)).2.2.1 rfl

/-- C7: on a stream at rest (as the constructor and every `BlockUntilDone`
leave it), after callers have enqueued items in any interleaving with the
worker, `BlockUntilDone` returns, with the first failure returned by those
items or ok when none failed, and leaves the stream at rest again with the
aggregate reset to ok.  A new stream is at rest.  For items returning ok,
failure X, ok, `BlockUntilDone` returns failure X and a `BlockUntilDone` right
after it returns ok. -/
theorem C7_BlockUntilDone_captures_and_resets (hs0 : HostStream σ) (env : σ) :
    (∀ (evs : List (Event σ)) (fuel : Nat), hs0.Quiescent →
        (∀ e ∈ evs, e.fromCaller = true) → evs.length + 4 ≤ fuel →
        ∃ hs1, HostStream.BlockUntilDone fuel (HostStream.runEvents evs hs0)
            = some (firstFailure (returned (submitted evs) hs0.store.env), hs1)
          ∧ hs1.Quiescent
          ∧ hs1.executed = hs0.executed ++ submitted evs ++ [.wrapped .captureStatus]
          ∧ hs1.store.env = envAfter (submitted evs) hs0.store.env)
    ∧ (HostStream.new env).Quiescent
    ∧ (∀ (evs : List (Event σ)) (fuel : Nat) (code : Nat) (message : String),
        (∀ e ∈ evs, e.fromCaller = true) → evs.length + 4 ≤ fuel →
        returned (submitted evs) env = [Status.ok, Status.error code message, Status.ok] →
        ∃ hs1 hs2,
          HostStream.BlockUntilDone fuel (HostStream.runEvents evs (HostStream.new env))
            = some (Status.error code message, hs1)
          ∧ HostStream.BlockUntilDone fuel hs1 = some (Status.ok, hs2)) := by
  have general : ∀ (hs : HostStream σ) (evs : List (Event σ)) (fuel : Nat), hs.Quiescent →
      (∀ e ∈ evs, e.fromCaller = true) → evs.length + 4 ≤ fuel →
      ∃ hs1, HostStream.BlockUntilDone fuel (HostStream.runEvents evs hs)
          = some (firstFailure (returned (submitted evs) hs.store.env), hs1)
        ∧ hs1.Quiescent
        ∧ hs1.executed = hs.executed ++ submitted evs ++ [.wrapped .captureStatus]
        ∧ hs1.store.env = envAfter (submitted evs) hs.store.env := by
    intro hs evs fuel hq hc hf
    obtain ⟨hne, hp, hok⟩ := hq
    have hcs := submitted_fromCaller evs hc
    obtain ⟨k1, ⟨ran, rest, hsub, kex, kp⟩, kf⟩ :=
      runEvents_live hs evs hne (no_shutdown_of_fromCaller evs hc) hp
    have hcr : ∀ t ∈ rest, t.fromCaller = true :=
      fun t ht => hcs t (by rw [hsub]; simp [ht])
    have hlen : rest.length + 4 ≤ fuel := by
      have h1 := pushed_length evs
      rw [pushed_of_no_shutdown evs (no_shutdown_of_fromCaller evs hc)] at h1
      have h2 := congrArg List.length hsub
      simp at h1 h2
      omega
    rw [kp, fifoRun_callers rest _ _ hcr, fifoRun_callers (submitted evs) _ _ hcs, hok] at kf
    have hst := congrArg (fun r => r.1.status_) kf
    have henv := congrArg (fun r => r.1.env) kf
    simp only [Status.ok_Update] at hst henv
    have hb := HostStream.BlockUntilDone_callers _ rest fuel k1 kp hcr hlen
    rw [hst] at hb
    exact ⟨_, hb, ⟨rfl, rfl, rfl⟩, by simp [kex, hsub], henv⟩
  refine ⟨general hs0, ⟨rfl, rfl, rfl⟩, ?_⟩
  intro evs fuel code message hc hf hret
  obtain ⟨hs1, h1, hq1, _, _⟩ := general (HostStream.new env) evs fuel ⟨rfl, rfl, rfl⟩ hc hf
  obtain ⟨hs2, h2, _, _, _⟩ := general hs1 [] fuel hq1 (by simp) (by simp at hf ⊢; omega)
  refine ⟨hs1, hs2, ?_, ?_⟩
  · rw [h1]
    simp [HostStream.new, hret, firstFailure]
  · simpa [HostStream.runEvents, submitted, returned, firstFailure] using h2

/-- Witness for C7: three items returning ok, failure 3 "X", ok, the worker
moving in between; the first `BlockUntilDone` returns the failure, the second
returns ok. -/
theorem C7_BlockUntilDone_captures_and_resets_witness :
    ∃ hs1 hs2,
      HostStream.BlockUntilDone 8
          (HostStream.runEvents
            [.enqueue (.user fun (e : Unit) => (Status.ok, e)), .work,
              .enqueue (.user fun e => (Status.error 3 "X", e)),
              .enqueue (.user fun e => (Status.ok, e))]
            (HostStream.new ()))
        = some (Status.error 3 "X", hs1)
      ∧ HostStream.BlockUntilDone 8 hs1 = some (Status.ok, hs2) :=
  (C7_BlockUntilDone_captures_and_resets (HostStream.new ()) ()).2.2
    [.enqueue (.user fun (e : Unit) => (Status.ok, e)), .work,
      .enqueue (.user fun e => (Status.error 3 "X", e)),
      .enqueue (.user fun e => (Status.ok, e))]
    8 3 "X" (by simp [Event.fromCaller, StatusTask.fromCaller]) (by decide) rfl

/-- C8: for every schedule of enqueues and worker moves on a new stream (no
shutdown), at every moment the items run so far followed by the items still
pending are exactly the items submitted, in submission order; left to finish,
the worker has run every submitted item exactly once in that order, and its
store and log are those of the reference FIFO that is handed the same items
and serves them one at a time. -/
theorem C8_swap_drain_refines_fifo (env : σ) (evs : List (Event σ)) (fuel : Nat)
    (hns : ∀ e ∈ evs, e.isShutdown = false) (hf : evs.length + 3 ≤ fuel) :
    (HostStream.runEvents evs (HostStream.new env)).executed.map some
          ++ (HostStream.runEvents evs (HostStream.new env)).pending
        = (submitted evs).map some
    ∧ (HostStream.WorkLoop fuel (HostStream.runEvents evs (HostStream.new env))).executed
        = submitted evs
    ∧ (HostStream.WorkLoop fuel (HostStream.runEvents evs (HostStream.new env))).pending = []
    ∧ ((HostStream.WorkLoop fuel (HostStream.runEvents evs (HostStream.new env))).store,
        (HostStream.WorkLoop fuel (HostStream.runEvents evs (HostStream.new env))).executed)
        = fifoRun ((submitted evs).map some) ((HostStream.new env).store, []) := by
  obtain ⟨k1, ⟨ran, rest, hsub, kex, kp⟩, kf⟩ :=
    runEvents_live (HostStream.new env) evs rfl hns rfl
  have hlen : (HostStream.runEvents evs (HostStream.new env)).pending.length + 3 ≤ fuel := by
    have h1 := pushed_length evs
    rw [pushed_of_no_shutdown evs hns] at h1
    have h2 := congrArg List.length hsub
    rw [kp]
    simp at h1 h2 ⊢
    omega
  obtain ⟨h1, _, _, h4⟩ := HostStream.WorkLoop_settles _ k1 fuel hlen
  rw [kf] at h1
  have hex := congrArg Prod.snd h1
  simp only at hex
  refine ⟨?_, ?_, ?_, h1⟩
  · rw [kex, kp, hsub]
    simp [HostStream.new]
  · rw [hex, fifoRun_executed, beforeSentinel_map_some]
    simp [HostStream.new]
  · exact h4 (by rw [kp]; exact hasSentinel_map_some rest)

/-- Witness for C8: two enqueues, a swap, a third enqueue while the worker is
draining; the three items run in submission order. -/
theorem C8_swap_drain_refines_fifo_witness :
    (HostStream.WorkLoop 9
        (HostStream.runEvents
          [.enqueue (.user fun (e : List Nat) => (Status.ok, e ++ [1])),
            .enqueue (.user fun e => (Status.ok, e ++ [2])), .work, .work,
            .enqueue (.user fun e => (Status.ok, e ++ [3])), .work]
          (HostStream.new []))).store.env = [1, 2, 3] :=
  congrArg (fun r => r.1.env)
    (C8_swap_drain_refines_fifo ([] : List Nat)
      [.enqueue (.user fun (e : List Nat) => (Status.ok, e ++ [1])),
        .enqueue (.user fun e => (Status.ok, e ++ [2])), .work, .work,
        .enqueue (.user fun e => (Status.ok, e ++ [3])), .work]
      9 (by simp [Event.isShutdown]) (by decide)).2.2.2

/-- The reference FIFO runs the items ahead of the first empty item, and
those only. -/
theorem fifoRun_beforeSentinel (items : List (Option (StatusTask σ))) :
    ∀ acc : Store σ × List (StatusTask σ),
      fifoRun items acc = fifoRun ((beforeSentinel items).map some) acc := by
  induction items with
  | nil => intro acc; rfl
  | cons it rest ih =>
    intro acc
    cases it with
    | none => simp [fifoRun, beforeSentinel]
    | some fn => simp only [fifoRun, beforeSentinel, List.map_cons]; exact ih _

/-- What the reference FIFO leaves when it is handed items of callers on a new
stream: the state of the callers after the items ahead of the first empty item
have been called in order, and the first failure among what they returned. -/
theorem fifoRun_new_callers (items : List (Option (StatusTask σ))) (env : σ)
    (h : ∀ t ∈ beforeSentinel items, t.fromCaller = true) :
    (fifoRun items ((HostStream.new env).store, [])).1.env
        = envAfter (beforeSentinel items) env
    ∧ (fifoRun items ((HostStream.new env).store, [])).1.status_
        = firstFailure (returned (beforeSentinel items) env) := by
  rw [fifoRun_beforeSentinel, fifoRun_callers _ _ _ h]
  exact ⟨rfl, rfl⟩

/-- What the worker has done once an empty item is in the queue and it has
been left to run, and what the destructor leaves on a stream without one: the
worker has returned, and store and log are those of the reference FIFO handed
everything that was pushed. -/
theorem worker_after_sentinel (env : σ) (evs : List (Event σ)) (fuel : Nat) :
    (hasSentinel (pushed evs) = true → evs.length + 3 ≤ fuel →
        (HostStream.WorkLoop fuel (HostStream.runEvents evs (HostStream.new env))).hasExited
            = true
        ∧ ((HostStream.WorkLoop fuel (HostStream.runEvents evs (HostStream.new env))).store,
            (HostStream.WorkLoop fuel (HostStream.runEvents evs (HostStream.new env))).executed)
          = fifoRun (pushed evs) ((HostStream.new env).store, []))
    ∧ (hasSentinel (pushed evs) = false → evs.length + 4 ≤ fuel →
        ∃ hs2, HostStream.destroy fuel (HostStream.runEvents evs (HostStream.new env))
            = some hs2
          ∧ hs2.hasExited = true
          ∧ (hs2.store, hs2.executed) = fifoRun (pushed evs) ((HostStream.new env).store, [])) := by
  have hout := HostStream.runEvents_outcome evs (HostStream.new env) rfl
  have hpl := pushed_length evs
  simp only [HostStream.new, HostStream.pending, HostStream.localQueue, List.nil_append]
    at hout
  refine ⟨?_, ?_⟩
  · intro hsent hf
    simp only [HostStream.new]
    rcases hout with ⟨k1, ⟨ran, k2, k3⟩, k4⟩ | ⟨k1, k2, _⟩
    · have hlen := congrArg List.length k3
      simp only [List.length_append, List.length_map, HostStream.pending,
        HostStream.localQueue] at hlen
      obtain ⟨h1, h2, _, _⟩ := HostStream.WorkLoop_settles _ k1 fuel
        (by simp only [HostStream.pending, HostStream.localQueue, List.length_append]; omega)
      simp only [HostStream.pending, HostStream.localQueue] at h1 h2
      rw [k4] at h1
      refine ⟨?_, h1⟩
      rw [h2]
      have := congrArg hasSentinel k3
      rw [hasSentinel_append, hasSentinel_map_some, hsent] at this
      simpa [HostStream.pending, HostStream.localQueue] using this
    · generalize HostStream.runEvents evs
        ⟨[], Worker.awaiting, ⟨Status.ok, env, false, Status.ok⟩, []⟩ = fin at k1 k2 ⊢
      obtain ⟨w, th, st, ex⟩ := fin
      cases th <;> simp [HostStream.hasExited] at k1
      rw [HostStream.WorkLoop_exited]
      exact ⟨rfl, k2⟩
  · intro hsent hf
    rcases hout with ⟨k1, ⟨ran, k2, k3⟩, k4⟩ | ⟨_, _, k3⟩
    · have hlen := congrArg List.length k3
      simp only [List.length_append, List.length_map, HostStream.pending,
        HostStream.localQueue] at hlen
      have hlive : HostStream.hasExited
          { HostStream.runEvents evs (HostStream.new env) with
            work_queue_ := (HostStream.runEvents evs (HostStream.new env)).work_queue_
              ++ [none] } = false := by
        simp only [HostStream.hasExited, HostStream.new] at k1 ⊢
        exact k1
      obtain ⟨h1, h2, _, _⟩ := HostStream.WorkLoop_settles _ hlive fuel
        (by simp only [HostStream.pending, HostStream.localQueue, List.length_append,
              HostStream.new, List.length_singleton]; omega)
      have hp : HostStream.pending
          { HostStream.runEvents evs (HostStream.new env) with
            work_queue_ := (HostStream.runEvents evs (HostStream.new env)).work_queue_
              ++ [none] }
          = (HostStream.runEvents evs (HostStream.new env)).pending ++ [none] := by
        simp [HostStream.pending, HostStream.localQueue]
      rw [hp] at h1 h2
      have hs2 : hasSentinel
          ((HostStream.runEvents evs (HostStream.new env)).pending ++ [none]) = true := by
        rw [hasSentinel_append]; simp [hasSentinel]
      have hnp : hasSentinel (HostStream.runEvents evs (HostStream.new env)).pending
          = false := by
        have := congrArg hasSentinel k3
        rw [hasSentinel_append, hasSentinel_map_some, hsent] at this
        simpa [HostStream.new, HostStream.pending, HostStream.localQueue] using this
      refine ⟨_, ?_, h2.trans hs2, ?_⟩
      · simp only [HostStream.destroy]
        rw [h2, hs2]
        simp
      · rw [h1, fifoRun_append, hnp]
        simp only [Bool.false_eq_true, if_false, fifoRun]
        simp only [HostStream.new, HostStream.pending, HostStream.localQueue] at k4 ⊢
        exact k4
    · rw [hsent] at k3
      simp at k3

/-- C9: on a new stream, under every schedule, the worker never runs anything
but the items pushed ahead of the first empty item, in order.  Once an empty
item has been pushed the worker, left to run, returns from its loop having run
exactly those items: its log is that list, and its store is what calling them
one after the other leaves (for items of callers: the state of the callers
after all of them, and as aggregate the first failure they returned); whatever
is pushed or attempted afterwards, nothing more is run and the store stays as
it is.  On a stream without an empty item the destructor, which pushes one and
joins the worker, returns with every submitted item run in the same way. -/
theorem C9_sentinel_stops_worker (env : σ) (evs : List (Event σ)) (fuel : Nat) :
    (HostStream.runEvents evs (HostStream.new env)).executed
        <+: beforeSentinel (pushed evs)
    ∧ (hasSentinel (pushed evs) = true → evs.length + 3 ≤ fuel →
        (HostStream.WorkLoop fuel (HostStream.runEvents evs (HostStream.new env))).hasExited
            = true
        ∧ (HostStream.WorkLoop fuel (HostStream.runEvents evs (HostStream.new env))).executed
            = beforeSentinel (pushed evs)
        ∧ (∀ more : List (Event σ),
            (HostStream.runEvents more
              (HostStream.WorkLoop fuel
                (HostStream.runEvents evs (HostStream.new env)))).executed
              = beforeSentinel (pushed evs))
        ∧ ((HostStream.WorkLoop fuel (HostStream.runEvents evs (HostStream.new env))).store,
            (HostStream.WorkLoop fuel (HostStream.runEvents evs (HostStream.new env))).executed)
          = fifoRun ((beforeSentinel (pushed evs)).map some) ((HostStream.new env).store, [])
        ∧ (∀ more : List (Event σ),
            (HostStream.runEvents more
              (HostStream.WorkLoop fuel
                (HostStream.runEvents evs (HostStream.new env)))).store
              = (HostStream.WorkLoop fuel
                  (HostStream.runEvents evs (HostStream.new env))).store)
        ∧ ((∀ t ∈ beforeSentinel (pushed evs), t.fromCaller = true) →
            (HostStream.WorkLoop fuel
                (HostStream.runEvents evs (HostStream.new env))).store.env
              = envAfter (beforeSentinel (pushed evs)) env
            ∧ (HostStream.WorkLoop fuel
                (HostStream.runEvents evs (HostStream.new env))).store.status_
              = firstFailure (returned (beforeSentinel (pushed evs)) env)))
    ∧ (hasSentinel (pushed evs) = false → evs.length + 4 ≤ fuel →
        ∃ hs2, HostStream.destroy fuel (HostStream.runEvents evs (HostStream.new env))
            = some hs2
          ∧ hs2.hasExited = true
          ∧ hs2.executed = beforeSentinel (pushed evs)
          ∧ (hs2.store, hs2.executed)
            = fifoRun ((beforeSentinel (pushed evs)).map some) ((HostStream.new env).store, [])
          ∧ ((∀ t ∈ beforeSentinel (pushed evs), t.fromCaller = true) →
              hs2.store.env = envAfter (beforeSentinel (pushed evs)) env
              ∧ hs2.store.status_
                = firstFailure (returned (beforeSentinel (pushed evs)) env))) := by
  have hout := HostStream.runEvents_outcome evs (HostStream.new env) rfl
  obtain ⟨hsentinel, hdestroy⟩ := worker_after_sentinel env evs fuel
  simp only [HostStream.new, HostStream.pending, HostStream.localQueue, List.nil_append]
    at hout
  refine ⟨?_, ?_, ?_⟩
  · rcases hout with ⟨_, ⟨ran, k2, k3⟩, _⟩ | ⟨_, k2, _⟩
    · rw [← k3, beforeSentinel_append, hasSentinel_map_some, beforeSentinel_map_some]
      simp only [Bool.false_eq_true, if_false]
      simp only [HostStream.new, HostStream.pending, HostStream.localQueue]
      rw [k2]
      simp
    · have := congrArg Prod.snd k2
      simp only [fifoRun_executed, List.nil_append] at this
      simp only [HostStream.new]
      rw [this]
  · intro hsent hf
    obtain ⟨hexit, hpair⟩ := hsentinel hsent hf
    have hex : (HostStream.WorkLoop fuel
        (HostStream.runEvents evs (HostStream.new env))).executed
        = beforeSentinel (pushed evs) := by
      have := congrArg Prod.snd hpair
      simpa [fifoRun_executed] using this
    have hst : (HostStream.WorkLoop fuel
        (HostStream.runEvents evs (HostStream.new env))).store
        = (fifoRun (pushed evs) ((HostStream.new env).store, [])).1 :=
      congrArg Prod.fst hpair
    refine ⟨hexit, hex, ?_, ?_, ?_, ?_⟩
    · intro more
      rw [(HostStream.runEvents_exited more _ hexit).2.2, hex]
    · rw [hpair, fifoRun_beforeSentinel]
    · intro more
      exact (HostStream.runEvents_exited more _ hexit).2.1
    · intro hcallers
      rw [hst]
      exact fifoRun_new_callers (pushed evs) env hcallers
  · intro hsent hf
    obtain ⟨hs2, hd, hexit, hpair⟩ := hdestroy hsent hf
    have hex : hs2.executed = beforeSentinel (pushed evs) := by
      have := congrArg Prod.snd hpair
      simpa [fifoRun_executed] using this
    have hst : hs2.store = (fifoRun (pushed evs) ((HostStream.new env).store, [])).1 :=
      congrArg Prod.fst hpair
    refine ⟨hs2, hd, hexit, hex, ?_, ?_⟩
    · rw [hpair, fifoRun_beforeSentinel]
    · intro hcallers
      rw [hst]
      exact fifoRun_new_callers (pushed evs) env hcallers

/-- Witness for C9: two items, the empty item, a third item; the worker runs
the first two and returns, and the third is never run: the callers' list ends
as `[1, 2]`. -/
theorem C9_sentinel_stops_worker_witness :
    (HostStream.WorkLoop 7
        (HostStream.runEvents
          [.enqueue (.user fun (e : List Nat) => (Status.ok, e ++ [1])),
            .enqueue (.user fun e => (Status.ok, e ++ [2])), .shutdown,
            .enqueue (.user fun e => (Status.ok, e ++ [3]))]
          (HostStream.new []))).hasExited = true
    ∧ (HostStream.WorkLoop 7
        (HostStream.runEvents
          [.enqueue (.user fun (e : List Nat) => (Status.ok, e ++ [1])),
            .enqueue (.user fun e => (Status.ok, e ++ [2])), .shutdown,
            .enqueue (.user fun e => (Status.ok, e ++ [3]))]
          (HostStream.new []))).store.env = [1, 2] :=
  ⟨((C9_sentinel_stops_worker ([] : List Nat)
      [.enqueue (.user fun (e : List Nat) => (Status.ok, e ++ [1])),
        .enqueue (.user fun e => (Status.ok, e ++ [2])), .shutdown,
        .enqueue (.user fun e => (Status.ok, e ++ [3]))]
      7).2.1 rfl (by decide)).1,
   (((C9_sentinel_stops_worker ([] : List Nat)
      [.enqueue (.user fun (e : List Nat) => (Status.ok, e ++ [1])),
        .enqueue (.user fun e => (Status.ok, e ++ [2])), .shutdown,
        .enqueue (.user fun e => (Status.ok, e ++ [3]))]
      7).2.1 rfl (by decide)).2.2.2.2.2
        (by simp [beforeSentinel, pushed, StatusTask.fromCaller])).1⟩

end host
end stream_executor

/-! ## Generic transfer manager: lemmas -/

namespace itex_xla

open itex

namespace IndexUtil

theorem getD_set (l : List Nat) (d j v : Nat) :
    (l.set d v).getD j 0 = if j = d ∧ j < l.length then v else l.getD j 0 := by
  simp only [List.getD_eq_getElem?_getD, List.getElem?_set]
  by_cases h : d = j
  · subst h
    by_cases h2 : d < l.length
    · simp [h2]
    · have : l.length ≤ d := by omega
      simp [h2, List.getElem?_eq_none this]
  · have : ¬ j = d := fun e => h e.symm
    simp [h, this]

/-- Peeling the linear index of a multi-index gives the multi-index back, at
every dimension the order names. -/
theorem multiIndex_linearIndex (dims mi : List Nat) :
    ∀ (m2m acc : List Nat), (∀ d ∈ m2m, mi.getD d 0 < dims.getD d 0) →
      (multiIndex dims m2m (linearIndex dims mi m2m) acc).length = acc.length
      ∧ ∀ j, (multiIndex dims m2m (linearIndex dims mi m2m) acc).getD j 0
          = if j ∈ m2m ∧ j < acc.length then mi.getD j 0 else acc.getD j 0 := by
  intro m2m
  induction m2m with
  | nil => intro acc _; simp [multiIndex]
  | cons d rest ih =>
    intro acc h
    have hd : mi.getD d 0 < dims.getD d 0 := h d (by simp)
    have hrest : ∀ d ∈ rest, mi.getD d 0 < dims.getD d 0 := fun x hx => h x (by simp [hx])
    have hpos : 0 < dims.getD d 0 := by omega
    have hmod : (mi.getD d 0 + dims.getD d 0 * linearIndex dims mi rest) % dims.getD d 0
        = mi.getD d 0 := by
      rw [Nat.add_mul_mod_self_left]; exact Nat.mod_eq_of_lt hd
    have hdiv : (mi.getD d 0 + dims.getD d 0 * linearIndex dims mi rest) / dims.getD d 0
        = linearIndex dims mi rest := by
      rw [Nat.add_mul_div_left _ _ hpos, Nat.div_eq_of_lt hd]; simp
    simp only [linearIndex, multiIndex, hmod, hdiv]
    obtain ⟨h1, h2⟩ := ih (acc.set d (mi.getD d 0)) hrest
    refine ⟨by rw [h1]; simp, ?_⟩
    intro j
    rw [h2 j, getD_set]
    simp only [List.length_set, List.mem_cons]
    by_cases hj : j = d
    · subst hj
      by_cases hl : j < acc.length <;> simp [hl]
    · by_cases hm : j ∈ rest <;> by_cases hl : j < acc.length <;> simp [hj, hm, hl]

theorem linearIndex_lt (dims mi : List Nat) :
    ∀ m2m : List Nat, (∀ d ∈ m2m, mi.getD d 0 < dims.getD d 0) →
      linearIndex dims mi m2m < (m2m.map fun d => dims.getD d 0).prod := by
  intro m2m
  induction m2m with
  | nil => intro _; simp [linearIndex]
  | cons d rest ih =>
    intro h
    have hd : mi.getD d 0 < dims.getD d 0 := h d (by simp)
    have hrest := ih (fun x hx => h x (by simp [hx]))
    simp only [linearIndex, List.map_cons, List.prod_cons]
    calc mi.getD d 0 + dims.getD d 0 * linearIndex dims mi rest
        < dims.getD d 0 + dims.getD d 0 * linearIndex dims mi rest := by omega
      _ = dims.getD d 0 * (linearIndex dims mi rest + 1) := by ring
      _ ≤ dims.getD d 0 * (rest.map fun d => dims.getD d 0).prod :=
          Nat.mul_le_mul_left _ hrest

theorem map_getD_range (dims : List Nat) :
    (List.range dims.length).map (fun d => dims.getD d 0) = dims := by
  apply List.ext_getElem
  · simp
  · intro n h1 h2
    simp at h1
    simp [List.getD_eq_getElem?_getD, List.getElem?_eq_getElem h1]

theorem prod_of_valid (dims m2m : List Nat) (h : LayoutUtil.ValidLayout m2m dims.length) :
    (m2m.map fun d => dims.getD d 0).prod = dims.prod := by
  rw [(List.Perm.map _ h).prod_eq, map_getD_range]

/-- What being in bounds gives, dimension by dimension. -/
theorem inBounds_of (dims mi m2m : List Nat) (hv : LayoutUtil.ValidLayout m2m dims.length)
    (hlen : mi.length = dims.length)
    (hall : ∀ d, d < dims.length → mi.getD d 0 < dims.getD d 0) :
    (∀ d ∈ m2m, mi.getD d 0 < dims.getD d 0)
    ∧ linearIndex dims mi m2m < dims.prod
    ∧ multiIndex dims m2m (linearIndex dims mi m2m) (List.replicate dims.length 0) = mi := by
  have hmem : ∀ d, d ∈ m2m ↔ d < dims.length := by
    intro d
    rw [List.Perm.mem_iff hv, List.mem_range]
  have h1 : ∀ d ∈ m2m, mi.getD d 0 < dims.getD d 0 := fun d hd => hall d ((hmem d).1 hd)
  refine ⟨h1, ?_, ?_⟩
  · rw [← prod_of_valid dims m2m hv]
    exact linearIndex_lt dims mi m2m h1
  · obtain ⟨hl, hg⟩ := multiIndex_linearIndex dims mi m2m (List.replicate dims.length 0) h1
    apply List.ext_getElem
    · rw [hl, hlen]; simp
    · intro n hn1 hn2
      have hn : n < dims.length := by rw [← hlen]; exact hn2
      have := hg n
      rw [List.getD_eq_getElem?_getD, List.getD_eq_getElem?_getD,
        List.getElem?_eq_getElem hn1, List.getElem?_eq_getElem hn2] at this
      simpa [(hmem n).2 hn, hn] using this

end IndexUtil

namespace ShapeUtil

theorem GetSubshape_nil (shape : Shape) : GetSubshape shape [] = some shape := by
  cases shape <;> rfl

mutual
/-- Every node the visit of `s` meets sits in `s` at the index it is given,
and a shape compatible with `s` has a compatible node at the same index. -/
theorem subshapes_compatible : ∀ (s v : Shape) (pre : ShapeIndex),
    Compatible v s = true → ∀ e ∈ s.subshapes pre,
      ∃ rel vsub, e.2 = pre ++ rel ∧ GetSubshape s rel = some e.1
        ∧ GetSubshape v rel = some vsub ∧ Compatible vsub e.1 = true
  | .array t d dyn m, v, pre, hc, e, he => by
    simp only [Shape.subshapes, List.mem_singleton] at he
    subst he
    exact ⟨[], v, by simp, GetSubshape_nil _, GetSubshape_nil _, hc⟩
  | .tuple l, v, pre, hc, e, he => by
    cases v with
    | array t d dyn m => simp [Compatible] at hc
    | tuple vl =>
      simp only [Shape.subshapes, List.mem_cons] at he
      rcases he with rfl | he
      · exact ⟨[], .tuple vl, by simp, GetSubshape_nil _, GetSubshape_nil _, hc⟩
      · obtain ⟨j, rel, s2, v2, h1, h2, h3, h4, vsub, h5, h6⟩ :=
          subshapes_from_compatible l vl pre 0 (by simpa [Compatible] using hc) e he
        refine ⟨j :: rel, vsub, by simpa using h1, ?_, ?_, h6⟩
        · simp [GetSubshape, h2, h4]
        · simp [GetSubshape, h3, h5]
/-- The same for the children `i, i + 1, ...` of a tuple. -/
theorem subshapes_from_compatible : ∀ (l vl : List Shape) (pre : ShapeIndex) (i : Nat),
    Compatible_all vl l = true → ∀ e ∈ Shape.subshapes_from l pre i,
      ∃ j rel s2 v2, e.2 = pre ++ (i + j) :: rel ∧ l[j]? = some s2 ∧ vl[j]? = some v2
        ∧ GetSubshape s2 rel = some e.1
        ∧ ∃ vsub, GetSubshape v2 rel = some vsub ∧ Compatible vsub e.1 = true
  | [], vl, pre, i, hc, e, he => by simp [Shape.subshapes_from] at he
  | s :: rest, vl, pre, i, hc, e, he => by
    cases vl with
    | nil => simp [Compatible_all] at hc
    | cons v vrest =>
      simp only [Compatible_all, Bool.and_eq_true] at hc
      simp only [Shape.subshapes_from, List.mem_append] at he
      rcases he with he | he
      · obtain ⟨rel, vsub, h1, h2, h3, h4⟩ := subshapes_compatible s v (pre ++ [i]) hc.1 e he
        exact ⟨0, rel, s, v, by simp [h1], by simp, by simp, h2, vsub, h3, h4⟩
      · obtain ⟨j, rel, s2, v2, h1, h2, h3, h4, h5⟩ :=
          subshapes_from_compatible rest vrest pre (i + 1) hc.2 e he
        refine ⟨j + 1, rel, s2, v2, ?_, by simpa using h2, by simpa using h3, h4, h5⟩
        rw [h1]
        have : i + 1 + j = i + (j + 1) := by omega
        rw [this]
end

mutual
/-- The indices the visit of `s` from `pre` gives its nodes all extend `pre`,
and no two nodes get the same index. -/
theorem subshapes_indices : ∀ (s : Shape) (pre : ShapeIndex),
    (∀ e ∈ s.subshapes pre, ∃ rel, e.2 = pre ++ rel)
      ∧ ((s.subshapes pre).map Prod.snd).Nodup
  | .array t d dyn m, pre => by
    simp only [Shape.subshapes, List.mem_singleton, List.map_cons, List.map_nil,
      List.nodup_cons, List.not_mem_nil, not_false_eq_true, List.nodup_nil, and_self,
      and_true]
    intro e he
    subst he
    exact ⟨[], by simp⟩
  | .tuple l, pre => by
    obtain ⟨h1, h2⟩ := subshapes_from_indices l pre 0
    simp only [Shape.subshapes, List.mem_cons, List.map_cons, List.nodup_cons]
    refine ⟨?_, ?_, h2⟩
    · intro e he
      rcases he with rfl | he
      · exact ⟨[], by simp⟩
      · obtain ⟨j, rel, hj⟩ := h1 e he
        exact ⟨(0 + j) :: rel, hj⟩
    · intro hmem
      obtain ⟨e, he, hpre⟩ := List.mem_map.1 hmem
      obtain ⟨j, rel, hj⟩ := h1 e he
      rw [hpre] at hj
      have := congrArg List.length hj
      simp at this
/-- The same for the children `i, i + 1, ...` of a tuple. -/
theorem subshapes_from_indices : ∀ (l : List Shape) (pre : ShapeIndex) (i : Nat),
    (∀ e ∈ Shape.subshapes_from l pre i, ∃ j rel, e.2 = pre ++ (i + j) :: rel)
      ∧ ((Shape.subshapes_from l pre i).map Prod.snd).Nodup
  | [], pre, i => by simp [Shape.subshapes_from]
  | s :: rest, pre, i => by
    obtain ⟨a1, a2⟩ := subshapes_indices s (pre ++ [i])
    obtain ⟨b1, b2⟩ := subshapes_from_indices rest pre (i + 1)
    simp only [Shape.subshapes_from, List.mem_append, List.map_append]
    refine ⟨?_, List.Nodup.append a2 b2 ?_⟩
    · intro e he
      rcases he with he | he
      · obtain ⟨rel, hrel⟩ := a1 e he
        exact ⟨0, rel, by simp [hrel]⟩
      · obtain ⟨j, rel, hj⟩ := b1 e he
        refine ⟨j + 1, rel, ?_⟩
        rw [hj]
        have : i + 1 + j = i + (j + 1) := by omega
        rw [this]
    · intro idx h1 h2
      obtain ⟨e1, he1, hx1⟩ := List.mem_map.1 h1
      obtain ⟨e2, he2, hx2⟩ := List.mem_map.1 h2
      obtain ⟨rel, hrel⟩ := a1 e1 he1
      obtain ⟨j, rel2, hj⟩ := b1 e2 he2
      rw [hx1] at hrel
      rw [hx2, hrel] at hj
      simp only [List.append_assoc, List.singleton_append, List.append_cancel_left_eq,
        List.cons.injEq] at hj
      omega
end

/-- A visit in which every step succeeds and keeps `P` succeeds and keeps `P`. -/
theorem visit_ok {S : Type} (fn : Shape → ShapeIndex → S → Option (Status × S))
    (P : S → Prop) :
    ∀ (nodes : List (Shape × ShapeIndex)) (s : S),
      (∀ e ∈ nodes, ∀ s, P s → ∃ s2, fn e.1 e.2 s = some (Status.ok, s2) ∧ P s2) →
      P s → ∃ s2, visit fn nodes s = some (Status.ok, s2) ∧ P s2 := by
  intro nodes
  induction nodes with
  | nil => intro s _ hp; exact ⟨s, rfl, hp⟩
  | cons e rest ih =>
    intro s hstep hp
    obtain ⟨s1, h1, hp1⟩ := hstep e (by simp) s hp
    obtain ⟨s2, h2, hp2⟩ := ih s1 (fun x hx => hstep x (by simp [hx])) hp1
    refine ⟨s2, ?_, hp2⟩
    obtain ⟨sub, idx⟩ := e
    simp only [visit]
    simp only at h1
    rw [h1]
    exact h2

end ShapeUtil

theorem IndexUtil.IndexInBounds_array (t : PrimitiveType) (dims : List Nat)
    (dyn : List Bool) (m2m mi : List Nat)
    (h : IndexUtil.IndexInBounds (.array t dims dyn m2m) mi = true) :
    mi.length = dims.length ∧ ∀ d, d < dims.length → mi.getD d 0 < dims.getD d 0 := by
  simp only [IndexUtil.IndexInBounds, Shape.dimensions, Bool.and_eq_true, beq_iff_eq,
    List.all_eq_true, List.mem_range, decide_eq_true_eq] at h
  exact h

theorem ShapeUtil.Compatible_array (vsub : Shape) (t : PrimitiveType) (dims : List Nat)
    (dyn : List Bool) (m2m : List Nat)
    (h : ShapeUtil.Compatible vsub (.array t dims dyn m2m) = true) :
    ∃ dyn2 m2m2, vsub = .array t dims dyn2 m2m2 := by
  cases vsub with
  | array t2 dims2 dyn2 m2m2 =>
    simp only [ShapeUtil.Compatible, Bool.and_eq_true, beq_iff_eq] at h
    exact ⟨dyn2, m2m2, by rw [h.1, h.2]⟩
  | tuple l => simp [ShapeUtil.Compatible] at h

namespace GenericTransferManager

theorem ByteSizeOf_le (tm : GenericTransferManager) (shape : Shape) :
    ShapeUtil.ByteSizeOf shape tm.pointer_size_ ≤ tm.GetByteSizeRequirement shape := by
  unfold GetByteSizeRequirement
  split <;> omega

/-- A buffered write into a region that is large enough goes through. -/
theorem TransferBufferToDevice_ok (stream : Stream) (size : Nat) (source : HostSource)
    (destination : DeviceMemoryBase) (h : size ≤ destination.size) :
    TransferBufferToDevice stream size source destination
      = (Status.ok, stream.ThenMemcpyToDevice destination source size) := by
  simp [TransferBufferToDevice, Nat.not_lt.2 h]

/-- On a device buffer whose regions are sized for their subshapes, writing
the tuple index tables succeeds and leaves the stream ok. -/
theorem WriteTupleIndexTablesAsync_ok (tm : GenericTransferManager) (stream : Stream)
    (device_buffer : ShapedBuffer) (hok : stream.status = Status.ok)
    (hsize : device_buffer.SizedFor tm) :
    ∃ stream2, tm.WriteTupleIndexTablesAsync stream device_buffer = some (Status.ok, stream2)
      ∧ stream2.status = Status.ok ∧ stream2.device_ordinal = stream.device_ordinal := by
  unfold WriteTupleIndexTablesAsync ShapeUtil.ForEachSubshapeWithStatus
  have := ShapeUtil.visit_ok
    (fun device_subshape index stream =>
      if device_subshape.IsTuple then
        some (tm.WriteSingleTupleIndexTable stream
          ((List.range (ShapeUtil.TupleElementCount device_subshape)).map fun i =>
            device_buffer.buffers (index ++ [i]))
          device_subshape (device_buffer.buffers index))
      else some (Status.ok, stream))
    (fun s => s.status = Status.ok ∧ s.device_ordinal = stream.device_ordinal)
    (device_buffer.on_device_shape.subshapes []) stream ?_ ⟨hok, rfl⟩
  · obtain ⟨s2, h1, h2, h3⟩ := this
    exact ⟨s2, h1, h2, h3⟩
  · intro e he s hs
    by_cases ht : e.1.IsTuple = true
    · have hsz := hsize e he
      simp only [ht, if_true, WriteSingleTupleIndexTable, List.length_map, List.length_range,
        bne_self_eq_false, Bool.false_eq_true, if_false]
      rw [TransferBufferToDevice_ok _ _ _ _ (by rw [hsz])]
      exact ⟨_, rfl, hs.1, hs.2⟩
    · simp only [ht, Bool.false_eq_true, if_false]
      exact ⟨s, rfl, hs⟩

/-- The step of `TransferLiteralToDeviceAsync` on an array leaf: it succeeds,
touches no region but the leaf's, and leaves there the elements of the host
array in the layout of the device, by direct copy when the layouts are equal
and through the relaid-out copy when they are not. -/
theorem transferLeafToDevice_array (tm : GenericTransferManager) (literal : Literal)
    (device_buffer : ShapedBuffer) (index : ShapeIndex) (stream : Stream)
    (t : PrimitiveType) (dims : List Nat) (dyn dyn2 : List Bool) (m2m m2m2 : List Nat)
    (hok : stream.status = Status.ok)
    (hsz : (device_buffer.buffers index).size
      = tm.GetByteSizeRequirement (.array t dims dyn m2m))
    (hvalid : LayoutUtil.ValidLayout m2m dims.length)
    (hsub : ShapeUtil.GetSubshape literal.shape index = some (.array t dims dyn2 m2m2)) :
    ∃ stream2,
      tm.transferLeafToDevice literal device_buffer (.array t dims dyn m2m) index stream
        = some (Status.ok, stream2)
      ∧ stream2.status = Status.ok ∧ stream2.device_ordinal = stream.device_ordinal
      ∧ (∀ a, ¬ ((device_buffer.buffers index).address ≤ a
            ∧ a < (device_buffer.buffers index).address + (device_buffer.buffers index).size) →
          stream2.memory a = stream.memory a)
      ∧ HoldsElements
          (fun offset => stream2.memory ((device_buffer.buffers index).address + offset))
          (.array t dims dyn m2m) literal index := by
  have hbytes : t.byte_size * dims.prod ≤ tm.GetByteSizeRequirement (.array t dims dyn m2m) :=
    tm.ByteSizeOf_le (.array t dims dyn m2m)
  have hoks : stream.ok = true := by simp [Stream.ok, hok]
  by_cases heq : m2m = m2m2
  · subst heq
    refine ⟨stream.ThenMemcpyToDevice (device_buffer.buffers index)
      (.bytes (literal.data index)) (tm.GetByteSizeRequirement (.array t dims dyn m2m)),
      ?_, hok, rfl, ?_, ?_⟩
    · simp only [transferLeafToDevice, Shape.IsArray, if_true, hsz, bne_self_eq_false,
        Bool.false_eq_true, if_false, Literal.Slice, hsub, Shape.layout, LayoutUtil.Equal,
        beq_self_eq_true, Literal.untyped_data, List.append_nil]
      rw [TransferBufferToDevice_ok _ _ _ _ (by rw [hsz])]
    · intro a ha
      rw [hsz] at ha
      simp only [Stream.ThenMemcpyToDevice, hoks, ↓reduceIte]
      exact if_neg ha
    · intro mi hmi
      obtain ⟨hlen, hall⟩ := IndexUtil.IndexInBounds_array t dims dyn m2m mi hmi
      obtain ⟨_, hlt, _⟩ := IndexUtil.inBounds_of dims mi m2m hvalid hlen hall
      simp only [Literal.Get, hsub, Shape.element_size,
        IndexUtil.MultidimensionalIndexToLinearIndex, Shape.dimensions, Shape.layout]
      apply List.map_congr_left
      intro k hk
      have hk2 : k < t.byte_size := List.mem_range.1 hk
      have hoff : IndexUtil.linearIndex dims mi m2m * t.byte_size + k
          < tm.GetByteSizeRequirement (.array t dims dyn m2m) := by
        have : (IndexUtil.linearIndex dims mi m2m + 1) * t.byte_size
            ≤ dims.prod * t.byte_size := Nat.mul_le_mul_right _ hlt
        have h2 : dims.prod * t.byte_size = t.byte_size * dims.prod := Nat.mul_comm _ _
        have h3 : (IndexUtil.linearIndex dims mi m2m + 1) * t.byte_size
            = IndexUtil.linearIndex dims mi m2m * t.byte_size + t.byte_size := by ring
        omega
      simp [Stream.ThenMemcpyToDevice, hoks, hoff, HostSource.byte]
  · have hne : (m2m == m2m2) = false := by simpa using heq
    refine ⟨(stream.ThenMemcpyToDevice (device_buffer.buffers index)
      (.bytes fun offset =>
        if offset < t.byte_size * dims.prod then
          literal.data index
            (IndexUtil.MultidimensionalIndexToLinearIndex (.array t dims dyn2 m2m2)
                (IndexUtil.LinearIndexToMultidimensionalIndex (.array t dims dyn2 m2m)
                  (offset / t.byte_size)) * t.byte_size
              + offset % t.byte_size)
        else literal.data index offset)
      (tm.GetByteSizeRequirement (.array t dims dyn m2m))).BlockHostUntilDone.2,
      ?_, hok, rfl, ?_, ?_⟩
    · simp only [transferLeafToDevice, Shape.IsArray, if_true, hsz, bne_self_eq_false,
        Bool.false_eq_true, if_false, Literal.Slice, hsub, Shape.layout, LayoutUtil.Equal,
        hne, Literal.Relayout, hvalid, Literal.untyped_data, List.append_nil, true_and]
      rw [TransferBufferToDevice_ok _ _ _ _ (by rw [hsz])]
      simp [Stream.BlockHostUntilDone, Stream.ThenMemcpyToDevice, hok]
    · intro a ha
      rw [hsz] at ha
      simp only [Stream.BlockHostUntilDone, Stream.ThenMemcpyToDevice, hoks, ↓reduceIte]
      exact if_neg ha
    · intro mi hmi
      obtain ⟨hlen, hall⟩ := IndexUtil.IndexInBounds_array t dims dyn m2m mi hmi
      obtain ⟨_, hlt, hback⟩ := IndexUtil.inBounds_of dims mi m2m hvalid hlen hall
      simp only [Literal.Get, hsub, Shape.element_size,
        IndexUtil.MultidimensionalIndexToLinearIndex, Shape.dimensions, Shape.layout]
      apply List.map_congr_left
      intro k hk
      have hk2 : k < t.byte_size := List.mem_range.1 hk
      have hpos : 0 < t.byte_size := by omega
      have hoff1 : IndexUtil.linearIndex dims mi m2m * t.byte_size + k
          < t.byte_size * dims.prod := by
        have : (IndexUtil.linearIndex dims mi m2m + 1) * t.byte_size
            ≤ dims.prod * t.byte_size := Nat.mul_le_mul_right _ hlt
        have h2 : dims.prod * t.byte_size = t.byte_size * dims.prod := Nat.mul_comm _ _
        have h3 : (IndexUtil.linearIndex dims mi m2m + 1) * t.byte_size
            = IndexUtil.linearIndex dims mi m2m * t.byte_size + t.byte_size := by ring
        omega
      have hoff : IndexUtil.linearIndex dims mi m2m * t.byte_size + k
          < tm.GetByteSizeRequirement (.array t dims dyn m2m) := by omega
      have hdiv : (IndexUtil.linearIndex dims mi m2m * t.byte_size + k) / t.byte_size
          = IndexUtil.linearIndex dims mi m2m := by
        rw [Nat.mul_comm, Nat.mul_add_div hpos, Nat.div_eq_of_lt hk2]; simp
      have hmod : (IndexUtil.linearIndex dims mi m2m * t.byte_size + k) % t.byte_size = k := by
        rw [Nat.mul_comm, Nat.mul_add_mod]; exact Nat.mod_eq_of_lt hk2
      simp [Stream.BlockHostUntilDone, Stream.ThenMemcpyToDevice, hoks, hoff, hoff1,
        HostSource.byte, hdiv, hmod, hback, IndexUtil.LinearIndexToMultidimensionalIndex,
        IndexUtil.MultidimensionalIndexToLinearIndex, Shape.dimensions, Shape.layout]

/-- Bytes that agree over the extent of an array hold the same elements. -/
theorem HoldsElements_congr (bytes bytes2 : Nat → Nat) (t : PrimitiveType)
    (dims : List Nat) (dyn : List Bool) (m2m : List Nat) (literal : Literal)
    (index : ShapeIndex) (n : Nat)
    (hvalid : LayoutUtil.ValidLayout m2m dims.length)
    (hn : t.byte_size * dims.prod ≤ n)
    (h : ∀ offset, offset < n → bytes2 offset = bytes offset)
    (hold : HoldsElements bytes (.array t dims dyn m2m) literal index) :
    HoldsElements bytes2 (.array t dims dyn m2m) literal index := by
  intro mi hmi
  rw [← hold mi hmi]
  obtain ⟨hlen, hall⟩ := IndexUtil.IndexInBounds_array t dims dyn m2m mi hmi
  obtain ⟨_, hlt, _⟩ := IndexUtil.inBounds_of dims mi m2m hvalid hlen hall
  simp only [Shape.element_size, IndexUtil.MultidimensionalIndexToLinearIndex,
    Shape.dimensions, Shape.layout]
  apply List.map_congr_left
  intro k hk
  have hk2 : k < t.byte_size := List.mem_range.1 hk
  apply h
  have : (IndexUtil.linearIndex dims mi m2m + 1) * t.byte_size
      ≤ dims.prod * t.byte_size := Nat.mul_le_mul_right _ hlt
  have h2 : dims.prod * t.byte_size = t.byte_size * dims.prod := Nat.mul_comm _ _
  have h3 : (IndexUtil.linearIndex dims mi m2m + 1) * t.byte_size
      = IndexUtil.linearIndex dims mi m2m * t.byte_size + t.byte_size := by ring
  omega

/-- The visit of `TransferLiteralToDeviceAsync` over nodes whose array regions
do not overlap: it succeeds, touches no byte outside those regions, and
afterwards every array region holds the elements of its host array in the
device layout. -/
theorem visit_toDevice (tm : GenericTransferManager) (literal : Literal)
    (device_buffer : ShapedBuffer) :
    ∀ (nodes : List (Shape × ShapeIndex)) (stream : Stream),
      stream.status = Status.ok →
      (∀ e ∈ nodes, e.1.IsArray = true →
        (device_buffer.buffers e.2).size = tm.GetByteSizeRequirement e.1
        ∧ LayoutUtil.ValidLayout e.1.layout e.1.dimensions_size
        ∧ ∃ vsub, ShapeUtil.GetSubshape literal.shape e.2 = some vsub
            ∧ ShapeUtil.Compatible vsub e.1 = true) →
      (device_buffer.regionsOf nodes).Pairwise DeviceMemoryBase.Disjoint →
      ∃ stream2,
        ShapeUtil.visit (tm.transferLeafToDevice literal device_buffer) nodes stream
          = some (Status.ok, stream2)
        ∧ stream2.status = Status.ok ∧ stream2.device_ordinal = stream.device_ordinal
        ∧ (∀ a, (∀ region ∈ device_buffer.regionsOf nodes,
              ¬ (region.address ≤ a ∧ a < region.address + region.size)) →
            stream2.memory a = stream.memory a)
        ∧ ∀ e ∈ nodes, e.1.IsArray = true →
            HoldsElements
              (fun offset => stream2.memory ((device_buffer.buffers e.2).address + offset))
              e.1 literal e.2 := by
  intro nodes
  induction nodes with
  | nil =>
    intro stream hok _ _
    exact ⟨stream, rfl, hok, rfl, fun _ _ => rfl, by simp⟩
  | cons e rest ih =>
    intro stream hok hgood hnd
    obtain ⟨sub, idx⟩ := e
    have hrest : ∀ e ∈ rest, e.1.IsArray = true →
        (device_buffer.buffers e.2).size = tm.GetByteSizeRequirement e.1
        ∧ LayoutUtil.ValidLayout e.1.layout e.1.dimensions_size
        ∧ ∃ vsub, ShapeUtil.GetSubshape literal.shape e.2 = some vsub
            ∧ ShapeUtil.Compatible vsub e.1 = true :=
      fun x hx => hgood x (by simp [hx])
    cases sub with
    | tuple l =>
      have hadd : device_buffer.regionsOf ((Shape.tuple l, idx) :: rest)
          = device_buffer.regionsOf rest := by
        simp [ShapedBuffer.regionsOf, Shape.IsArray]
      rw [hadd] at hnd ⊢
      obtain ⟨s2, h1, h2, h3, h4, h5⟩ := ih stream hok hrest hnd
      refine ⟨s2, ?_, h2, h3, h4, ?_⟩
      · simp only [ShapeUtil.visit, transferLeafToDevice, Shape.IsArray, Bool.false_eq_true,
          if_false]
        exact h1
      · intro e he harr
        simp only [List.mem_cons] at he
        rcases he with rfl | he
        · simp [Shape.IsArray] at harr
        · exact h5 e he harr
    | array t dims dyn m2m =>
      have hadd : device_buffer.regionsOf ((Shape.array t dims dyn m2m, idx) :: rest)
          = device_buffer.buffers idx :: device_buffer.regionsOf rest := by
        simp [ShapedBuffer.regionsOf, Shape.IsArray]
      rw [hadd] at hnd ⊢
      obtain ⟨hsz, hvalid, vsub, hsub, hcomp⟩ :=
        hgood (Shape.array t dims dyn m2m, idx) (by simp) rfl
      obtain ⟨dyn2, m2m2, rfl⟩ := ShapeUtil.Compatible_array vsub t dims dyn m2m hcomp
      obtain ⟨s1, k1, k2, k3, k4, k5⟩ :=
        tm.transferLeafToDevice_array literal device_buffer idx stream t dims dyn dyn2 m2m m2m2
          hok hsz hvalid hsub
      obtain ⟨hhead, htail⟩ := List.pairwise_cons.1 hnd
      obtain ⟨s2, h1, h2, h3, h4, h5⟩ := ih s1 k2 hrest htail
      refine ⟨s2, ?_, h2, h3.trans k3, ?_, ?_⟩
      · simp only [ShapeUtil.visit]
        rw [k1]
        exact h1
      · intro a ha
        rw [h4 a (fun region hr => ha region (List.mem_cons_of_mem _ hr)),
          k4 a (ha _ (List.mem_cons_self _ _))]
      · intro e he harr
        simp only [List.mem_cons] at he
        rcases he with rfl | he
        · simp only
          simp only [Shape.layout, Shape.dimensions_size] at hvalid
          refine HoldsElements_congr _ _ t dims dyn m2m literal idx
            (device_buffer.buffers idx).size hvalid
            (by rw [hsz]; exact tm.ByteSizeOf_le (.array t dims dyn m2m)) ?_ k5
          intro offset hoff
          refine h4 _ fun region hr => ?_
          have hd := hhead region hr
          unfold DeviceMemoryBase.Disjoint at hd
          omega
        · exact h5 e he harr

/-- The visit of `TransferLiteralFromDevice` over nodes whose array indices
are pairwise distinct: it succeeds, leaves stream memory and the shape of the
literal alone, and afterwards the buffer of the literal at every array node
starts with the bytes of the device region, as many as the literal's subshape
requires. -/
theorem visit_fromDevice (tm : GenericTransferManager) (device_buffer : ShapedBuffer) :
    ∀ (nodes : List (Shape × ShapeIndex)) (stream : Stream) (literal : Literal),
      stream.status = Status.ok →
      (∀ e ∈ nodes, e.1.IsArray = true →
        ∃ lsub, ShapeUtil.GetSubshape literal.shape e.2 = some lsub) →
      ((nodes.filter fun e => e.1.IsArray).map Prod.snd).Nodup →
      ∃ stream2 literal2,
        ShapeUtil.visit (tm.transferLeafFromDevice device_buffer) nodes (stream, literal)
          = some (Status.ok, (stream2, literal2))
        ∧ stream2.status = Status.ok ∧ stream2.memory = stream.memory
        ∧ literal2.shape = literal.shape
        ∧ (∀ idx, idx ∉ (nodes.filter fun e => e.1.IsArray).map Prod.snd →
            literal2.data idx = literal.data idx)
        ∧ ∀ e ∈ nodes, e.1.IsArray = true →
            ∀ lsub, ShapeUtil.GetSubshape literal.shape e.2 = some lsub →
              ∀ offset, offset < tm.GetByteSizeRequirement lsub →
                literal2.data e.2 offset
                  = stream.memory ((device_buffer.buffers e.2).address + offset) := by
  intro nodes
  induction nodes with
  | nil =>
    intro stream literal hok _ _
    exact ⟨stream, literal, rfl, hok, rfl, rfl, fun _ _ => rfl, by simp⟩
  | cons e rest ih =>
    intro stream literal hok hgood hnd
    obtain ⟨sub, idx⟩ := e
    have hoks : stream.ok = true := by simp [Stream.ok, hok]
    by_cases harr : sub.IsArray = true
    · have hfil : ((sub, idx) :: rest).filter (fun e => e.1.IsArray)
          = (sub, idx) :: rest.filter (fun e => e.1.IsArray) := by
        simp [List.filter_cons, harr]
      rw [hfil, List.map_cons] at hnd ⊢
      obtain ⟨lsub, hl⟩ := hgood (sub, idx) (by simp) harr
      have hfresh := (List.nodup_cons.1 hnd).1
      obtain ⟨s2, l2, h1, h2, h3, h4, h5, h6⟩ :=
        ih (stream.ThenMemcpyToHost literal idx (device_buffer.buffers idx)
              (tm.GetByteSizeRequirement lsub)).1
          (stream.ThenMemcpyToHost literal idx (device_buffer.buffers idx)
              (tm.GetByteSizeRequirement lsub)).2
          (by simp [Stream.ThenMemcpyToHost, hok])
          (fun x hx hxa => by
            obtain ⟨ls, hls⟩ := hgood x (by simp [hx]) hxa
            exact ⟨ls, by simpa [Stream.ThenMemcpyToHost, hoks] using hls⟩)
          (List.nodup_cons.1 hnd).2
      refine ⟨s2, l2, ?_, h2, ?_, ?_, ?_, ?_⟩
      · simp only [ShapeUtil.visit, transferLeafFromDevice, harr, if_true, hl]
        exact h1
      · rw [h3]; simp [Stream.ThenMemcpyToHost]
      · rw [h4]; simp [Stream.ThenMemcpyToHost, hoks]
      · intro j hj
        simp only [List.mem_cons, not_or] at hj
        rw [h5 j hj.2]
        simp [Stream.ThenMemcpyToHost, hoks, Function.update_noteq hj.1]
      · intro e he hea ls hls offset hoff
        simp only [List.mem_cons] at he
        rcases he with rfl | he
        · simp only at hls ⊢
          rw [hl] at hls
          cases hls
          rw [h5 idx hfresh]
          simp [Stream.ThenMemcpyToHost, hoks, hoff]
        · rw [h6 e he hea ls (by simpa [Stream.ThenMemcpyToHost, hoks] using hls) offset hoff]
          simp [Stream.ThenMemcpyToHost]
    · have hfil : ((sub, idx) :: rest).filter (fun e => e.1.IsArray)
          = rest.filter (fun e => e.1.IsArray) := by
        simp [List.filter_cons, harr]
      rw [hfil] at hnd ⊢
      obtain ⟨s2, l2, h1, h2, h3, h4, h5, h6⟩ :=
        ih stream literal hok (fun x hx => hgood x (by simp [hx])) hnd
      refine ⟨s2, l2, ?_, h2, h3, h4, h5, ?_⟩
      · simp only [ShapeUtil.visit, transferLeafFromDevice, harr, Bool.false_eq_true,
          if_false]
        exact h1
      · intro e he hea
        simp only [List.mem_cons] at he
        rcases he with rfl | he
        · exact absurd hea harr
        · exact h6 e he hea

end GenericTransferManager

/-! ## Generic transfer manager: claims -/

namespace GenericTransferManager

/-- An array is static exactly when none of its dimensions is marked dynamic. -/
theorem is_static_array_iff (t : PrimitiveType) (dims : List Nat) (dyn : List Bool)
    (m2m : List Nat) :
    (Shape.array t dims dyn m2m).is_static = true ↔ dyn.count true = 0 := by
  simp [Shape.is_static, List.count_eq_zero]

theorem GetByteSizeRequirement_static_or_tuple (tm : GenericTransferManager) (shape : Shape)
    (h : shape.is_static = true ∨ shape.IsTuple = true) :
    tm.GetByteSizeRequirement shape = ShapeUtil.ByteSizeOf shape tm.pointer_size_ := by
  unfold GetByteSizeRequirement
  rcases h with h | h <;> simp [h]

theorem GetByteSizeRequirement_dynamic_array (tm : GenericTransferManager)
    (t : PrimitiveType) (dims : List Nat) (dyn : List Bool) (m2m : List Nat)
    (h : true ∈ dyn) :
    tm.GetByteSizeRequirement (.array t dims dyn m2m)
      = ShapeUtil.ByteSizeOf (.array t dims dyn m2m) tm.pointer_size_ + 4 * dims.length := by
  have hs : (Shape.array t dims dyn m2m).is_static = false := by
    simp [Shape.is_static, h]
  simp [GetByteSizeRequirement, hs, Shape.IsTuple, Shape.dimensions_size]

end GenericTransferManager

/-- C11, as stated, fails: the metadata term counts every dimension of the
array, not the dynamic ones.  The shape `u8[<=2, 2]` has one dynamic dimension
out of two; its static size is 4 bytes and its requirement 12, which is 8 more
(two int32 slots), not 4 (one slot). -/
theorem C11_dynamic_count_counterexample :
    Example.oneDynamicOfTwo.dynamic_dimension_count = 1
    ∧ ShapeUtil.ByteSizeOf Example.oneDynamicOfTwo Example.manager.pointer_size_ = 4
    ∧ Example.manager.GetByteSizeRequirement Example.oneDynamicOfTwo = 12
    ∧ Example.manager.GetByteSizeRequirement Example.oneDynamicOfTwo
        ≠ ShapeUtil.ByteSizeOf Example.oneDynamicOfTwo Example.manager.pointer_size_
          + 4 * Example.oneDynamicOfTwo.dynamic_dimension_count :=
  ⟨rfl, rfl, rfl, by decide⟩

/-- C11, amended: for an array with k ≥ 1 dynamic dimensions
`GetByteSizeRequirement` exceeds `ShapeUtil::ByteSizeOf` by one int32 slot for
each dimension of the array, dynamic or not, that is by 4 times the rank; this
is k slots exactly when every dimension is dynamic (k equal to the rank).  For
a shape without dynamic dimension (k = 0) and for a tuple the two sizes are
equal. -/
theorem C11_metadata_slot_per_dimension (tm : GenericTransferManager) (shape : Shape) :
    (shape.dynamic_dimension_count = 0 →
        tm.GetByteSizeRequirement shape = ShapeUtil.ByteSizeOf shape tm.pointer_size_)
    ∧ (shape.IsArray = true → 0 < shape.dynamic_dimension_count →
        tm.GetByteSizeRequirement shape
          = ShapeUtil.ByteSizeOf shape tm.pointer_size_ + 4 * shape.dimensions_size)
    ∧ (shape.IsArray = true → 0 < shape.dynamic_dimension_count →
        shape.dynamic_dimension_count = shape.dimensions_size →
        tm.GetByteSizeRequirement shape
          = ShapeUtil.ByteSizeOf shape tm.pointer_size_ + 4 * shape.dynamic_dimension_count)
    ∧ (shape.IsTuple = true →
        tm.GetByteSizeRequirement shape = ShapeUtil.ByteSizeOf shape tm.pointer_size_) := by
  cases shape with
  | tuple l =>
    have ht := tm.GetByteSizeRequirement_static_or_tuple (.tuple l) (Or.inr rfl)
    refine ⟨fun _ => ht, ?_, ?_, fun _ => ht⟩
    · intro h; simp [Shape.IsArray] at h
    · intro h; simp [Shape.IsArray] at h
  | array t dims dyn m2m =>
    have hdyn : 0 < dyn.count true → true ∈ dyn := fun h => List.count_pos_iff.1 h
    refine ⟨?_, ?_, ?_, ?_⟩
    · intro h
      exact tm.GetByteSizeRequirement_static_or_tuple _
        (Or.inl ((GenericTransferManager.is_static_array_iff t dims dyn m2m).2 h))
    · intro _ h
      exact tm.GetByteSizeRequirement_dynamic_array t dims dyn m2m (hdyn h)
    · intro _ h hk
      rw [hk]
      exact tm.GetByteSizeRequirement_dynamic_array t dims dyn m2m (hdyn h)
    · intro h; simp [Shape.IsTuple] at h

/-- Witness for C11 amended: `u8[<=2, 2]` requires its 4 bytes and two slots. -/
theorem C11_metadata_slot_per_dimension_witness :
    Example.manager.GetByteSizeRequirement Example.oneDynamicOfTwo
      = ShapeUtil.ByteSizeOf Example.oneDynamicOfTwo Example.manager.pointer_size_
        + 4 * Example.oneDynamicOfTwo.dimensions_size :=
  (C11_metadata_slot_per_dimension Example.manager Example.oneDynamicOfTwo).2.1 rfl
    (by decide)

/-- C12: for an array with at least one dynamic dimension
`GetByteSizeRequirement` is `ShapeUtil::ByteSizeOf` plus 4 bytes, one int32
slot, for each dimension of the array: plus 4 times the rank. -/
theorem C12_dynamic_array_adds_slot_per_dimension (tm : GenericTransferManager)
    (t : PrimitiveType) (dims : List Nat) (dyn : List Bool) (m2m : List Nat)
    (h : true ∈ dyn) :
    tm.GetByteSizeRequirement (.array t dims dyn m2m)
        = ShapeUtil.ByteSizeOf (.array t dims dyn m2m) tm.pointer_size_
          + 4 * (Shape.array t dims dyn m2m).dimensions_size
    ∧ (Shape.array t dims dyn m2m).dimensions_size = dims.length := by
  exact ⟨tm.GetByteSizeRequirement_dynamic_array t dims dyn m2m h, rfl⟩

/-- Witness for C12: `u8[<=2, 2]`, rank 2, requires 4 + 8 bytes. -/
theorem C12_dynamic_array_adds_slot_per_dimension_witness :
    Example.manager.GetByteSizeRequirement (.array Example.u8 [2, 2] [true, false] [1, 0])
      = ShapeUtil.ByteSizeOf (.array Example.u8 [2, 2] [true, false] [1, 0]) 8 + 4 * 2 :=
  (C12_dynamic_array_adds_slot_per_dimension Example.manager Example.u8 [2, 2]
    [true, false] [1, 0] (by decide)).1

/-- C13: for a shape all of whose dimensions are static, and for every tuple
shape, whatever its leaves, `GetByteSizeRequirement` is `ShapeUtil::ByteSizeOf`
with nothing added. -/
theorem C13_static_or_tuple_adds_nothing (tm : GenericTransferManager) (shape : Shape) :
    (shape.is_static = true →
        tm.GetByteSizeRequirement shape = ShapeUtil.ByteSizeOf shape tm.pointer_size_)
    ∧ (shape.IsTuple = true →
        tm.GetByteSizeRequirement shape = ShapeUtil.ByteSizeOf shape tm.pointer_size_) :=
  ⟨fun h => tm.GetByteSizeRequirement_static_or_tuple shape (Or.inl h),
   fun h => tm.GetByteSizeRequirement_static_or_tuple shape (Or.inr h)⟩

/-- Witness for C13: a tuple with a dynamic leaf, which is not static, requires
one pointer for each of its two children and no metadata. -/
theorem C13_static_or_tuple_adds_nothing_witness :
    (Shape.tuple [Example.oneDynamicOfTwo, Example.oneDynamicOfTwo]).is_static = false
    ∧ Example.manager.GetByteSizeRequirement
        (.tuple [Example.oneDynamicOfTwo, Example.oneDynamicOfTwo]) = 16
    ∧ Example.manager.GetByteSizeRequirement (.array Example.u8 [2, 2] [false, false] [1, 0])
        = 4 :=
  ⟨rfl,
   (C13_static_or_tuple_adds_nothing Example.manager
      (.tuple [Example.oneDynamicOfTwo, Example.oneDynamicOfTwo])).2 rfl,
   (C13_static_or_tuple_adds_nothing Example.manager
      (.array Example.u8 [2, 2] [false, false] [1, 0])).1 rfl⟩

/-! ### Traces of the transfers -/

namespace ShapeUtil

/-- A visit that got through `pre` goes on with the rest from where `pre` left
off. -/
theorem visit_append {S : Type} (fn : Shape → ShapeIndex → S → Option (Status × S)) :
    ∀ (pre rest : List (Shape × ShapeIndex)) (s s1 : S),
      visit fn pre s = some (Status.ok, s1) →
      visit fn (pre ++ rest) s = visit fn rest s1 := by
  intro pre
  induction pre with
  | nil =>
    intro rest s s1 h
    simp only [visit, Option.some.injEq, Prod.mk.injEq, true_and] at h
    subst h
    rfl
  | cons e pre ih =>
    intro rest s s1 h
    obtain ⟨sub, idx⟩ := e
    simp only [List.cons_append, visit] at h ⊢
    cases hf : fn sub idx s with
    | none => simp [hf] at h
    | some r =>
      obtain ⟨st, s2⟩ := r
      cases st with
      | ok =>
        simp only [hf] at h ⊢
        exact ih rest s2 s1 h
      | error code message => simp [hf] at h

/-- A successful visit appends to a log what its steps append, node by node. -/
theorem visit_trace {S α : Type} (fn : Shape → ShapeIndex → S → Option (Status × S))
    (log : S → List α) (g : Shape × ShapeIndex → List α)
    (hstep : ∀ e s s1, fn e.1 e.2 s = some (Status.ok, s1) → log s1 = log s ++ g e) :
    ∀ (nodes : List (Shape × ShapeIndex)) (s s2 : S),
      visit fn nodes s = some (Status.ok, s2) → log s2 = log s ++ nodes.flatMap g := by
  intro nodes
  induction nodes with
  | nil =>
    intro s s2 h
    simp only [visit, Option.some.injEq, Prod.mk.injEq, true_and] at h
    subst h
    simp
  | cons e rest ih =>
    intro s s2 h
    obtain ⟨sub, idx⟩ := e
    simp only [visit] at h
    cases hf : fn sub idx s with
    | none => simp [hf] at h
    | some r =>
      obtain ⟨st, s1⟩ := r
      cases st with
      | ok =>
        simp only [hf] at h
        rw [ih s1 s2 h, hstep (sub, idx) s s1 hf]
        simp
      | error code message => simp [hf] at h

/-- Whatever a visit returns, it has appended to the log only what its steps
append, each piece satisfying what holds of the pieces of its node. -/
theorem visit_log_all {S α : Type} (fn : Shape → ShapeIndex → S → Option (Status × S))
    (log : S → List α) (P : Shape × ShapeIndex → α → Prop)
    (hstep : ∀ e s r, fn e.1 e.2 s = some r →
      ∃ extra, log r.2 = log s ++ extra ∧ ∀ op ∈ extra, P e op) :
    ∀ (nodes : List (Shape × ShapeIndex)) (s : S) (r : Status × S),
      visit fn nodes s = some r →
      ∃ extra, log r.2 = log s ++ extra ∧ ∀ op ∈ extra, ∃ e ∈ nodes, P e op := by
  intro nodes
  induction nodes with
  | nil =>
    intro s r h
    simp only [visit, Option.some.injEq] at h
    subst h
    exact ⟨[], by simp, by simp⟩
  | cons e rest ih =>
    intro s r h
    obtain ⟨sub, idx⟩ := e
    simp only [visit] at h
    cases hf : fn sub idx s with
    | none => simp [hf] at h
    | some r1 =>
      obtain ⟨x1, hx1, hp1⟩ := hstep (sub, idx) s r1 hf
      obtain ⟨st, s1⟩ := r1
      cases st with
      | ok =>
        simp only [hf] at h
        obtain ⟨x2, hx2, hp2⟩ := ih s1 r h
        refine ⟨x1 ++ x2, by rw [hx2, hx1, List.append_assoc], ?_⟩
        intro op hop
        rcases List.mem_append.1 hop with ho | ho
        · exact ⟨(sub, idx), by simp, hp1 op ho⟩
        · obtain ⟨e, he, hpe⟩ := hp2 op ho
          exact ⟨e, by simp [he], hpe⟩
      | error code message =>
        simp only [hf, Option.some.injEq] at h
        subst h
        exact ⟨x1, hx1, fun op ho => ⟨(sub, idx), by simp, hp1 op ho⟩⟩

end ShapeUtil

namespace GenericTransferManager

/-- The two opening checks of `TransferLiteralToDeviceAsync`: when either
fails the call returns its failure and the stream is as it was. -/
theorem TransferLiteralToDeviceAsync_opening_checks (tm : GenericTransferManager)
    (stream : Stream) (literal : Literal) (device_buffer : ShapedBuffer) :
    (ShapeUtil.Compatible literal.shape device_buffer.on_device_shape = false →
        tm.TransferLiteralToDeviceAsync stream literal device_buffer
          = some (RetCheckFailure
              "ShapeUtil::Compatible(literal.shape(), device_buffer.on_device_shape())",
              stream))
    ∧ (ShapeUtil.Compatible literal.shape device_buffer.on_device_shape = true →
        stream.device_ordinal ≠ device_buffer.device_ordinal →
        tm.TransferLiteralToDeviceAsync stream literal device_buffer
          = some (RetCheckFailure
              "stream->parent()->device_ordinal() == device_buffer.device_ordinal()",
              stream)) := by
  constructor
  · intro h
    simp [TransferLiteralToDeviceAsync, h]
  · intro h1 h2
    simp [TransferLiteralToDeviceAsync, h1, h2]

/-- A step of the transfer to the device that succeeds has enqueued exactly
what `leafCopyOps` lists: one copy at an array, a wait after it exactly when
the host layout differs from that of the device, nothing at a tuple; and the
region of an array it copied into has the size its subshape requires. -/
theorem transferLeafToDevice_ok_ops (tm : GenericTransferManager) (literal : Literal)
    (device_buffer : ShapedBuffer) (sub : Shape) (idx : ShapeIndex) (s s1 : Stream)
    (h : tm.transferLeafToDevice literal device_buffer sub idx s = some (Status.ok, s1)) :
    s1.ops = s.ops ++ tm.leafCopyOps literal device_buffer (sub, idx)
    ∧ (tm.leafCopyOps literal device_buffer (sub, idx)).countP StreamOp.isHostToDevice
        = (if sub.IsArray then 1 else 0)
    ∧ (tm.leafCopyOps literal device_buffer (sub, idx)).countP StreamOp.isBlock
        = (if literal.layoutDiffers (sub, idx) then 1 else 0)
    ∧ (sub.IsArray = true →
        tm.GetByteSizeRequirement sub = (device_buffer.buffers idx).size) := by
  unfold transferLeafToDevice at h
  by_cases harr : sub.IsArray = true
  · simp only [harr, if_true] at h
    by_cases hsz : tm.GetByteSizeRequirement sub = (device_buffer.buffers idx).size
    · simp only [hsz, bne_self_eq_false, Bool.false_eq_true, if_false] at h
      cases hg : ShapeUtil.GetSubshape literal.shape idx with
      | none => simp [Literal.Slice, hg] at h
      | some lsub =>
        simp only [Literal.Slice, hg] at h
        by_cases heq : sub.layout = lsub.layout
        · have hE : LayoutUtil.Equal sub.layout lsub.layout = true := by
            simp [LayoutUtil.Equal, heq]
          simp only [hE, if_true, TransferBufferToDevice, Nat.lt_irrefl, if_false,
            Option.some.injEq, Prod.mk.injEq, true_and] at h
          subst h
          have hops : tm.leafCopyOps literal device_buffer (sub, idx)
              = [StreamOp.memcpy_h2d (device_buffer.buffers idx)
                  (.bytes (Literal.untyped_data
                    { shape := lsub, data := fun j => literal.data (idx ++ j) }))
                  (tm.GetByteSizeRequirement sub)] := by
            simp [leafCopyOps, harr, Literal.Slice, hg, hE]
          have hd : literal.layoutDiffers (sub, idx) = false := by
            simp [Literal.layoutDiffers, Literal.layoutMatches, hg, heq]
          rw [hops, hd]
          refine ⟨?_, ?_, ?_, fun _ => hsz⟩
          · simp [Stream.ThenMemcpyToDevice, hsz]
          · simp [StreamOp.isHostToDevice, harr]
          · simp [StreamOp.isBlock]
        · have hE : LayoutUtil.Equal sub.layout lsub.layout = false := by
            simp [LayoutUtil.Equal, heq]
          simp only [hE, Bool.false_eq_true, if_false] at h
          cases hr : Literal.Relayout
              { shape := lsub, data := fun j => literal.data (idx ++ j) } sub.layout with
          | none => simp [hr] at h
          | some relayed =>
            simp only [hr, TransferBufferToDevice, Nat.lt_irrefl, if_false,
              Stream.BlockHostUntilDone, Option.some.injEq, Prod.mk.injEq] at h
            obtain ⟨_, h2⟩ := h
            subst h2
            have hne : ¬ lsub.layout = sub.layout := fun e => heq e.symm
            have hops : tm.leafCopyOps literal device_buffer (sub, idx)
                = [StreamOp.memcpy_h2d (device_buffer.buffers idx)
                    (.bytes relayed.untyped_data) (tm.GetByteSizeRequirement sub),
                   StreamOp.block_host_until_done] := by
              simp [leafCopyOps, harr, Literal.Slice, hg, hE, hr]
            have hd : literal.layoutDiffers (sub, idx) = true := by
              simp [Literal.layoutDiffers, Literal.layoutMatches, hg, harr, hne]
            rw [hops, hd]
            refine ⟨?_, ?_, ?_, fun _ => hsz⟩
            · simp [Stream.ThenMemcpyToDevice, hsz]
            · simp [StreamOp.isHostToDevice, harr]
            · simp [StreamOp.isBlock]
    · have hb : (tm.GetByteSizeRequirement sub != (device_buffer.buffers idx).size) = true := by
        simpa using hsz
      simp [hb, RetCheckFailure] at h
  · have harr2 : sub.IsArray = false := by simpa using harr
    simp only [harr2, Bool.false_eq_true, if_false, Option.some.injEq, Prod.mk.injEq,
      true_and] at h
    subst h
    simp [leafCopyOps, harr2, Literal.layoutDiffers]

/-- Whatever a step of the transfer to the device returns, it has enqueued
nothing but waits and copies into the region of its array node, of as many
bytes as the subshape requires, which is the size of the region. -/
theorem transferLeafToDevice_any_ops (tm : GenericTransferManager) (literal : Literal)
    (device_buffer : ShapedBuffer) (sub : Shape) (idx : ShapeIndex) (s : Stream)
    (r : Status × Stream)
    (h : tm.transferLeafToDevice literal device_buffer sub idx s = some r) :
    ∃ extra, r.2.ops = s.ops ++ extra ∧ ∀ op ∈ extra,
      op = StreamOp.block_host_until_done
      ∨ (sub.IsArray = true
        ∧ tm.GetByteSizeRequirement sub = (device_buffer.buffers idx).size
        ∧ ∃ src, op = StreamOp.memcpy_h2d (device_buffer.buffers idx) src
            (tm.GetByteSizeRequirement sub)) := by
  unfold transferLeafToDevice at h
  by_cases harr : sub.IsArray = true
  · simp only [harr, if_true] at h
    by_cases hsz : tm.GetByteSizeRequirement sub = (device_buffer.buffers idx).size
    · simp only [hsz, bne_self_eq_false, Bool.false_eq_true, if_false] at h
      cases hg : ShapeUtil.GetSubshape literal.shape idx with
      | none => simp [Literal.Slice, hg] at h
      | some lsub =>
        simp only [Literal.Slice, hg] at h
        by_cases hE : LayoutUtil.Equal sub.layout lsub.layout = true
        · simp only [hE, if_true, TransferBufferToDevice, Nat.lt_irrefl, if_false,
            Option.some.injEq] at h
          subst h
          refine ⟨[StreamOp.memcpy_h2d (device_buffer.buffers idx)
              (.bytes (Literal.untyped_data
                { shape := lsub, data := fun j => literal.data (idx ++ j) }))
              (tm.GetByteSizeRequirement sub)], by simp [Stream.ThenMemcpyToDevice, hsz], ?_⟩
          intro op hop
          simp only [List.mem_singleton] at hop
          exact Or.inr ⟨harr, hsz, _, hop⟩
        · have hE2 : LayoutUtil.Equal sub.layout lsub.layout = false := by simpa using hE
          simp only [hE2, Bool.false_eq_true, if_false] at h
          cases hr : Literal.Relayout
              { shape := lsub, data := fun j => literal.data (idx ++ j) } sub.layout with
          | none => simp [hr] at h
          | some relayed =>
            simp only [hr, TransferBufferToDevice, Nat.lt_irrefl, if_false,
              Stream.BlockHostUntilDone, Option.some.injEq] at h
            subst h
            refine ⟨[StreamOp.memcpy_h2d (device_buffer.buffers idx)
                (.bytes relayed.untyped_data) (tm.GetByteSizeRequirement sub),
              StreamOp.block_host_until_done], by simp [Stream.ThenMemcpyToDevice, hsz], ?_⟩
            intro op hop
            simp only [List.mem_cons, List.mem_singleton, List.not_mem_nil, or_false] at hop
            rcases hop with hop | hop
            · exact Or.inr ⟨harr, hsz, _, hop⟩
            · exact Or.inl hop
    · have hb : (tm.GetByteSizeRequirement sub != (device_buffer.buffers idx).size) = true := by
        simpa using hsz
      simp only [hb, if_true, Option.some.injEq] at h
      subst h
      exact ⟨[], by simp, by simp⟩
  · have harr2 : sub.IsArray = false := by simpa using harr
    simp only [harr2, Bool.false_eq_true, if_false, Option.some.injEq] at h
    subst h
    exact ⟨[], by simp, by simp⟩

/-- Writing the tuple index tables only appends to the stream, and what it
appends are copies to the device and host callbacks, never a wait. -/
theorem WriteTupleIndexTablesAsync_ops (tm : GenericTransferManager) (stream : Stream)
    (device_buffer : ShapedBuffer) (r : Status × Stream)
    (h : tm.WriteTupleIndexTablesAsync stream device_buffer = some r) :
    ∃ tables, r.2.ops = stream.ops ++ tables ∧ ∀ op ∈ tables, op.isBlock = false := by
  unfold WriteTupleIndexTablesAsync ShapeUtil.ForEachSubshapeWithStatus at h
  refine (ShapeUtil.visit_log_all _ Stream.ops (fun _ op => op.isBlock = false) ?_ _
    stream r h).imp fun extra hx => ⟨hx.1, fun op hop => (hx.2 op hop).choose_spec.2⟩
  intro e s r1 hr
  by_cases ht : e.1.IsTuple = true
  · simp only [ht, if_true, WriteSingleTupleIndexTable, List.length_map, List.length_range,
      bne_self_eq_false, Bool.false_eq_true, if_false, Option.some.injEq] at hr
    subst hr
    by_cases hlt : (device_buffer.buffers e.2).size < tm.GetByteSizeRequirement e.1
    · simp only [TransferBufferToDevice, hlt, if_true]
      exact ⟨[], by simp, by simp⟩
    · simp only [TransferBufferToDevice, hlt, if_false]
      exact ⟨_, List.append_assoc _ _ _, by simp [StreamOp.isBlock]⟩
  · simp only [ht, Bool.false_eq_true, if_false, Option.some.injEq] at hr
    subst hr
    exact ⟨[], by simp, by simp⟩

end GenericTransferManager

/-! ### Claims about the transfer to the device -/

/-- C14: when the shape of the literal is not compatible with the on-device
shape of the device buffer, or the device ordinal of the stream differs from
that of the device buffer, `TransferLiteralToDeviceAsync` returns the failure of
the check concerned (the compatibility check first), which is not ok, and the
stream it leaves is the stream it was given: no operation has been enqueued. -/
theorem C14_validation_failure_before_any_operation (tm : GenericTransferManager)
    (stream : Stream) (literal : Literal) (device_buffer : ShapedBuffer)
    (h : ShapeUtil.Compatible literal.shape device_buffer.on_device_shape = false
      ∨ stream.device_ordinal ≠ device_buffer.device_ordinal) :
    ∃ result, tm.TransferLiteralToDeviceAsync stream literal device_buffer = some result
      ∧ result.1 = RetCheckFailure
          (if ShapeUtil.Compatible literal.shape device_buffer.on_device_shape = false then
            "ShapeUtil::Compatible(literal.shape(), device_buffer.on_device_shape())"
          else "stream->parent()->device_ordinal() == device_buffer.device_ordinal()")
      ∧ result.1 ≠ Status.ok
      ∧ result.2 = stream
      ∧ result.2.ops = stream.ops := by
  have hopen := tm.TransferLiteralToDeviceAsync_opening_checks stream literal device_buffer
  by_cases hc : ShapeUtil.Compatible literal.shape device_buffer.on_device_shape = false
  · exact ⟨_, hopen.1 hc, by simp [hc], by simp [RetCheckFailure], rfl, rfl⟩
  · have hc2 : ShapeUtil.Compatible literal.shape device_buffer.on_device_shape = true := by
      simpa using hc
    have ho : stream.device_ordinal ≠ device_buffer.device_ordinal := by
      rcases h with h | h
      · exact absurd h hc
      · exact h
    exact ⟨_, hopen.2 hc2 ho, by simp [hc2], by simp [RetCheckFailure], rfl, rfl⟩

/-- Witness for C14: a matrix sent to a device buffer for a tuple (shapes not
compatible), and a matrix sent on a stream of device 1 to a buffer of device 0
(ordinals differ); in both cases the stream comes back with no operation. -/
theorem C14_validation_failure_before_any_operation_witness :
    (∃ result, Example.manager.TransferLiteralToDeviceAsync Example.stream
          Example.rowMajorValue Example.tupleBuffer = some result
        ∧ result.1 = RetCheckFailure
            "ShapeUtil::Compatible(literal.shape(), device_buffer.on_device_shape())"
        ∧ result.2.ops = [])
    ∧ (∃ result, Example.manager.TransferLiteralToDeviceAsync
          { Example.stream with device_ordinal := 1 }
          Example.rowMajorValue Example.columnMajorBuffer = some result
        ∧ result.1 = RetCheckFailure
            "stream->parent()->device_ordinal() == device_buffer.device_ordinal()"
        ∧ result.2.ops = []) := by
  constructor
  · obtain ⟨result, h1, h2, _, _, h5⟩ :=
      C14_validation_failure_before_any_operation Example.manager Example.stream
        Example.rowMajorValue Example.tupleBuffer (Or.inl rfl)
    exact ⟨result, h1, h2, h5⟩
  · obtain ⟨result, h1, h2, _, _, h5⟩ :=
      C14_validation_failure_before_any_operation Example.manager
        { Example.stream with device_ordinal := 1 }
        Example.rowMajorValue Example.columnMajorBuffer (Or.inr (by decide))
    exact ⟨result, h1, h2, h5⟩

/-- C15, as stated, fails for the check of a leaf's region size: that check is
made inside the visit of the subshapes, after the tuple index tables have been
written and after the leaves before it have been copied.  A tuple of a matrix
and a vector sent to a device buffer whose second leaf is one byte short
(shapes compatible, same device) returns the failure of the size check with
four operations on a stream that had none: the copy of the index table (16
bytes) and its host callback, then the copy of the first leaf (4 bytes) and the
wait after it. -/
theorem C15_leaf_check_after_operations_counterexample :
    (Example.manager.TransferLiteralToDeviceAsync Example.stream Example.tupleValue
        Example.shortLeafBuffer).map
      (fun result => (result.1, result.2.ops.map StreamOp.summary))
      = some (RetCheckFailure "GetByteSizeRequirement(device_subshape) == device_memory.size()",
          [(true, false, false, 16), (false, false, false, 0), (true, false, false, 4),
           (false, false, true, 0)])
    ∧ Example.stream.ops = []
    ∧ ShapeUtil.Compatible Example.tupleValue.shape
        Example.shortLeafBuffer.on_device_shape = true
    ∧ Example.stream.device_ordinal = Example.shortLeafBuffer.device_ordinal
    ∧ Example.manager.GetByteSizeRequirement (.array Example.u8 [2] [false] [0]) = 2
    ∧ (Example.shortLeafBuffer.buffers [1]).size = 1 :=
  ⟨rfl, rfl, rfl, rfl, rfl, rfl⟩

/-- C15, amended: a failure of one of the two opening checks of
`TransferLiteralToDeviceAsync` (shape compatibility, device ordinal) is returned
with the stream as it was given, no operation issued.  A failure of the check
of the region size of an array leaf is returned with, on the stream, exactly
the operations enqueued before that leaf was reached: those of the tuple index
tables, then the copies (and waits) of the leaves visited before it; nothing is
enqueued for the failing leaf or for a later one. -/
theorem C15_only_opening_checks_precede_the_stream (tm : GenericTransferManager)
    (stream : Stream) (literal : Literal) (device_buffer : ShapedBuffer) :
    ((ShapeUtil.Compatible literal.shape device_buffer.on_device_shape = false
        ∨ stream.device_ordinal ≠ device_buffer.device_ordinal) →
      ∃ what, tm.TransferLiteralToDeviceAsync stream literal device_buffer
        = some (RetCheckFailure what, stream))
    ∧ (∀ (s0 s1 : Stream) (pre post : List (Shape × ShapeIndex)) (sub : Shape)
        (idx : ShapeIndex),
      ShapeUtil.Compatible literal.shape device_buffer.on_device_shape = true →
      stream.device_ordinal = device_buffer.device_ordinal →
      tm.WriteTupleIndexTablesAsync stream device_buffer = some (Status.ok, s0) →
      device_buffer.on_device_shape.subshapes [] = pre ++ (sub, idx) :: post →
      ShapeUtil.visit (tm.transferLeafToDevice literal device_buffer) pre s0
        = some (Status.ok, s1) →
      sub.IsArray = true →
      tm.GetByteSizeRequirement sub ≠ (device_buffer.buffers idx).size →
      tm.TransferLiteralToDeviceAsync stream literal device_buffer
          = some (RetCheckFailure
              "GetByteSizeRequirement(device_subshape) == device_memory.size()", s1)
        ∧ s1.ops = s0.ops ++ pre.flatMap (tm.leafCopyOps literal device_buffer)
        ∧ ∃ tables, s0.ops = stream.ops ++ tables) := by
  have hopen := tm.TransferLiteralToDeviceAsync_opening_checks stream literal device_buffer
  constructor
  · intro h
    by_cases hc : ShapeUtil.Compatible literal.shape device_buffer.on_device_shape = false
    · exact ⟨_, hopen.1 hc⟩
    · have hc2 : ShapeUtil.Compatible literal.shape device_buffer.on_device_shape = true := by
        simpa using hc
      rcases h with h | h
      · exact absurd h hc
      · exact ⟨_, hopen.2 hc2 h⟩
  · intro s0 s1 pre post sub idx hcompat hord htables hnodes hpre harr hsize
    have hb : (tm.GetByteSizeRequirement sub != (device_buffer.buffers idx).size) = true := by
      simpa using hsize
    refine ⟨?_, ?_, ?_⟩
    · simp only [GenericTransferManager.TransferLiteralToDeviceAsync, hcompat, hord,
        Bool.not_true, Bool.false_eq_true, if_false, bne_self_eq_false, htables,
        ShapeUtil.ForEachSubshapeWithStatus, hnodes]
      rw [ShapeUtil.visit_append _ pre _ s0 s1 hpre]
      simp [ShapeUtil.visit, GenericTransferManager.transferLeafToDevice, harr, hb,
        RetCheckFailure]
    · exact ShapeUtil.visit_trace _ Stream.ops (tm.leafCopyOps literal device_buffer)
        (fun e s s2 h =>
          (tm.transferLeafToDevice_ok_ops literal device_buffer e.1 e.2 s s2 h).1)
        pre s0 s1 hpre
    · obtain ⟨tables, ht, _⟩ :=
        tm.WriteTupleIndexTablesAsync_ops stream device_buffer _ htables
      exact ⟨tables, ht⟩

/-- Witness for C15 amended: the tuple sent to the buffer whose second leaf is
one byte short; the failure comes with the operations of the index table and
of the first leaf, which is all that precedes the second leaf. -/
theorem C15_only_opening_checks_precede_the_stream_witness :
    ∃ s0 s1 : Stream,
      Example.manager.TransferLiteralToDeviceAsync Example.stream Example.tupleValue
          Example.shortLeafBuffer
        = some (RetCheckFailure
            "GetByteSizeRequirement(device_subshape) == device_memory.size()", s1)
      ∧ s1.ops = s0.ops
          ++ [(Example.shortLeafBuffer.on_device_shape, []),
              (.array Example.u8 [2, 2] [false, false] [0, 1], [0])].flatMap
            (Example.manager.leafCopyOps Example.tupleValue Example.shortLeafBuffer)
      ∧ ∃ tables, s0.ops = Example.stream.ops ++ tables :=
  ⟨_, _, (C15_only_opening_checks_precede_the_stream Example.manager Example.stream
    Example.tupleValue Example.shortLeafBuffer).2 _ _
    [(Example.shortLeafBuffer.on_device_shape, []),
      (.array Example.u8 [2, 2] [false, false] [0, 1], [0])]
    [] (.array Example.u8 [2] [false] [0]) [1] rfl rfl rfl rfl rfl rfl (by decide)⟩

/-! ### Copies per leaf -/

/-- In a successful visit every node has had a successful step. -/
theorem ShapeUtil.visit_steps {S : Type} (fn : Shape → ShapeIndex → S → Option (Status × S)) :
    ∀ (nodes : List (Shape × ShapeIndex)) (s s2 : S),
      ShapeUtil.visit fn nodes s = some (Status.ok, s2) →
      ∀ e ∈ nodes, ∃ s0 s1, fn e.1 e.2 s0 = some (Status.ok, s1) := by
  intro nodes
  induction nodes with
  | nil => intro s s2 _ e he; simp at he
  | cons e0 rest ih =>
    intro s s2 h e he
    obtain ⟨sub, idx⟩ := e0
    simp only [ShapeUtil.visit] at h
    cases hf : fn sub idx s with
    | none => simp [hf] at h
    | some r =>
      obtain ⟨st, s1⟩ := r
      cases st with
      | ok =>
        simp only [hf] at h
        rcases List.mem_cons.1 he with rfl | hmem
        · exact ⟨s, s1, hf⟩
        · exact ih s1 s2 h e hmem
      | error code message => simp [hf] at h

/-- Counting through a `flatMap` whose pieces each count 0 or 1. -/
theorem List.countP_flatMap_indicator {α β : Type} (p : α → Bool) (g : β → List α)
    (q : β → Bool) (l : List β)
    (h : ∀ e ∈ l, (g e).countP p = if q e then 1 else 0) :
    (l.flatMap g).countP p = l.countP q := by
  induction l with
  | nil => simp
  | cons e rest ih =>
    rw [List.flatMap_cons, List.countP_append, List.countP_cons,
      ih (fun x hx => h x (List.mem_cons_of_mem _ hx)), h e (List.mem_cons_self _ _)]
    omega

namespace GenericTransferManager

/-- What a node whose step succeeded contributes: nothing for a tuple, a
direct-copy sequence for an array whose host layout matches, a
relayout-then-copy sequence for an array whose host layout differs. -/
theorem transferLeafToDevice_ok_sequences (tm : GenericTransferManager) (literal : Literal)
    (device_buffer : ShapedBuffer) (sub : Shape) (idx : ShapeIndex) (s s1 : Stream)
    (h : tm.transferLeafToDevice literal device_buffer sub idx s = some (Status.ok, s1)) :
    StreamOp.isDirectSequence (tm.leafCopyOps literal device_buffer (sub, idx))
        = (sub.IsArray && literal.layoutMatches (sub, idx))
    ∧ StreamOp.isRelayoutSequence (tm.leafCopyOps literal device_buffer (sub, idx))
        = literal.layoutDiffers (sub, idx) := by
  unfold transferLeafToDevice at h
  by_cases harr : sub.IsArray = true
  · simp only [harr, if_true] at h
    by_cases hsz : tm.GetByteSizeRequirement sub = (device_buffer.buffers idx).size
    · simp only [hsz, bne_self_eq_false, Bool.false_eq_true, if_false] at h
      cases hg : ShapeUtil.GetSubshape literal.shape idx with
      | none => simp [Literal.Slice, hg] at h
      | some lsub =>
        simp only [Literal.Slice, hg] at h
        by_cases heq : sub.layout = lsub.layout
        · have hE : LayoutUtil.Equal sub.layout lsub.layout = true := by
            simp [LayoutUtil.Equal, heq]
          have hops : tm.leafCopyOps literal device_buffer (sub, idx)
              = [StreamOp.memcpy_h2d (device_buffer.buffers idx)
                  (.bytes (Literal.untyped_data
                    { shape := lsub, data := fun j => literal.data (idx ++ j) }))
                  (tm.GetByteSizeRequirement sub)] := by
            simp [leafCopyOps, harr, Literal.Slice, hg, hE]
          have hm : literal.layoutMatches (sub, idx) = true := by
            simp [Literal.layoutMatches, hg, heq]
          rw [hops]
          simp [Literal.layoutDiffers, hm, harr, StreamOp.isDirectSequence,
            StreamOp.isRelayoutSequence]
        · have hE : LayoutUtil.Equal sub.layout lsub.layout = false := by
            simp [LayoutUtil.Equal, heq]
          simp only [hE, Bool.false_eq_true, if_false] at h
          cases hr : Literal.Relayout
              { shape := lsub, data := fun j => literal.data (idx ++ j) } sub.layout with
          | none => simp [hr] at h
          | some relayed =>
            have hne : ¬ lsub.layout = sub.layout := fun e => heq e.symm
            have hops : tm.leafCopyOps literal device_buffer (sub, idx)
                = [StreamOp.memcpy_h2d (device_buffer.buffers idx)
                    (.bytes relayed.untyped_data) (tm.GetByteSizeRequirement sub),
                   StreamOp.block_host_until_done] := by
              simp [leafCopyOps, harr, Literal.Slice, hg, hE, hr]
            have hm : literal.layoutMatches (sub, idx) = false := by
              simp [Literal.layoutMatches, hg, hne]
            rw [hops]
            simp [Literal.layoutDiffers, hm, harr, StreamOp.isDirectSequence,
              StreamOp.isRelayoutSequence]
    · have hb : (tm.GetByteSizeRequirement sub != (device_buffer.buffers idx).size) = true := by
        simpa using hsz
      simp [hb, RetCheckFailure] at h
  · have harr2 : sub.IsArray = false := by simpa using harr
    simp [leafCopyOps, harr2, Literal.layoutDiffers, StreamOp.isDirectSequence,
      StreamOp.isRelayoutSequence]

/-- A relaid-out copy has the layout it was asked for. -/
theorem Relayout_layout (literal relaid : Literal) (new_layout : List Nat)
    (h : literal.Relayout new_layout = some relaid) : relaid.shape.layout = new_layout := by
  unfold Literal.Relayout at h
  cases hs : literal.shape with
  | tuple l => simp [hs] at h
  | array t dims dyn m2m =>
    simp only [hs] at h
    by_cases hv : LayoutUtil.ValidLayout new_layout dims.length
    · simp only [hv, if_true, Option.some.injEq] at h
      subst h
      rfl
    · simp [hv] at h

/-- A call of `TransferLiteralToDeviceAsync` that returns ok has written the
tuple index tables and then visited every subshape with success. -/
theorem TransferLiteralToDeviceAsync_ok_phases (tm : GenericTransferManager)
    (stream s2 : Stream) (literal : Literal) (device_buffer : ShapedBuffer)
    (h : tm.TransferLiteralToDeviceAsync stream literal device_buffer = some (Status.ok, s2)) :
    ∃ s0, tm.WriteTupleIndexTablesAsync stream device_buffer = some (Status.ok, s0)
      ∧ ShapeUtil.visit (tm.transferLeafToDevice literal device_buffer)
          (device_buffer.on_device_shape.subshapes []) s0 = some (Status.ok, s2) := by
  unfold TransferLiteralToDeviceAsync at h
  by_cases hc : ShapeUtil.Compatible literal.shape device_buffer.on_device_shape = true
  · by_cases ho : stream.device_ordinal = device_buffer.device_ordinal
    · simp only [hc, ho, Bool.not_true, Bool.false_eq_true, if_false, bne_self_eq_false] at h
      cases hw : tm.WriteTupleIndexTablesAsync stream device_buffer with
      | none => simp [hw] at h
      | some r =>
        obtain ⟨st, s0⟩ := r
        cases st with
        | ok =>
          simp only [hw] at h
          exact ⟨s0, rfl, h⟩
        | error code message => simp [hw] at h
    · have hb : (stream.device_ordinal != device_buffer.device_ordinal) = true := by
        simpa using ho
      simp [hc, hb, RetCheckFailure] at h
  · have hc2 : ShapeUtil.Compatible literal.shape device_buffer.on_device_shape = false := by
      simpa using hc
    simp [hc2, RetCheckFailure] at h

/-- Whatever a step of the transfer to the device returns, either the node has
had its sequence in full (nothing for a tuple, the direct copy or the
relayout-then-copy sequence for an array whose region has the required size;
a status that is not ok can then only come from the wait of the relayout
path), or the node is an array whose region has not the required size and the
step returns the failure of that check with nothing enqueued. -/
theorem transferLeafToDevice_cases (tm : GenericTransferManager) (literal : Literal)
    (device_buffer : ShapedBuffer) (sub : Shape) (idx : ShapeIndex) (s : Stream)
    (r : Status × Stream)
    (h : tm.transferLeafToDevice literal device_buffer sub idx s = some r) :
    (r.2.ops = s.ops ++ tm.leafCopyOps literal device_buffer (sub, idx)
      ∧ (sub.IsArray = true →
          tm.GetByteSizeRequirement sub = (device_buffer.buffers idx).size)
      ∧ StreamOp.isDirectSequence (tm.leafCopyOps literal device_buffer (sub, idx))
          = (sub.IsArray && literal.layoutMatches (sub, idx))
      ∧ StreamOp.isRelayoutSequence (tm.leafCopyOps literal device_buffer (sub, idx))
          = literal.layoutDiffers (sub, idx)
      ∧ (tm.leafCopyOps literal device_buffer (sub, idx)).countP StreamOp.isBlock
          = (if literal.layoutDiffers (sub, idx) then 1 else 0)
      ∧ (r.1 ≠ Status.ok → literal.layoutDiffers (sub, idx) = true))
    ∨ (sub.IsArray = true
      ∧ tm.GetByteSizeRequirement sub ≠ (device_buffer.buffers idx).size
      ∧ r = (RetCheckFailure "GetByteSizeRequirement(device_subshape) == device_memory.size()",
          s)) := by
  obtain ⟨st, s1⟩ := r
  cases st with
  | ok =>
    obtain ⟨h1, _, h3, h4⟩ := tm.transferLeafToDevice_ok_ops literal device_buffer sub idx s s1 h
    obtain ⟨k1, k2⟩ := tm.transferLeafToDevice_ok_sequences literal device_buffer sub idx s s1 h
    exact Or.inl ⟨h1, h4, k1, k2, h3, fun hne => absurd rfl hne⟩
  | error code message =>
    unfold transferLeafToDevice at h
    by_cases harr : sub.IsArray = true
    · simp only [harr, if_true] at h
      by_cases hsz : tm.GetByteSizeRequirement sub = (device_buffer.buffers idx).size
      · left
        simp only [hsz, bne_self_eq_false, Bool.false_eq_true, if_false] at h
        cases hg : ShapeUtil.GetSubshape literal.shape idx with
        | none => simp [Literal.Slice, hg] at h
        | some lsub =>
          simp only [Literal.Slice, hg] at h
          by_cases heq : sub.layout = lsub.layout
          · have hE : LayoutUtil.Equal sub.layout lsub.layout = true := by
              simp [LayoutUtil.Equal, heq]
            simp [hE, TransferBufferToDevice] at h
          · have hE : LayoutUtil.Equal sub.layout lsub.layout = false := by
              simp [LayoutUtil.Equal, heq]
            simp only [hE, Bool.false_eq_true, if_false] at h
            cases hr : Literal.Relayout
                { shape := lsub, data := fun j => literal.data (idx ++ j) } sub.layout with
            | none => simp [hr] at h
            | some relayed =>
              simp only [hr, TransferBufferToDevice, Nat.lt_irrefl, if_false,
                Stream.BlockHostUntilDone, Option.some.injEq, Prod.mk.injEq] at h
              obtain ⟨_, h2⟩ := h
              subst h2
              have hne : ¬ lsub.layout = sub.layout := fun e => heq e.symm
              have hops : tm.leafCopyOps literal device_buffer (sub, idx)
                  = [StreamOp.memcpy_h2d (device_buffer.buffers idx)
                      (.bytes relayed.untyped_data) (tm.GetByteSizeRequirement sub),
                     StreamOp.block_host_until_done] := by
                simp [leafCopyOps, harr, Literal.Slice, hg, hE, hr]
              have hm : literal.layoutMatches (sub, idx) = false := by
                simp [Literal.layoutMatches, hg, hne]
              have hd : literal.layoutDiffers (sub, idx) = true := by
                simp [Literal.layoutDiffers, hm, harr]
              rw [hops, hd]
              refine ⟨?_, fun _ => hsz, ?_, ?_, ?_, fun _ => rfl⟩
              · simp [Stream.ThenMemcpyToDevice, hsz]
              · simp [hm, harr, StreamOp.isDirectSequence]
              · simp [StreamOp.isRelayoutSequence]
              · simp [StreamOp.isBlock]
      · right
        have hb : (tm.GetByteSizeRequirement sub != (device_buffer.buffers idx).size)
            = true := by
          simpa using hsz
        simp only [hb, if_true, Option.some.injEq] at h
        exact ⟨harr, hsz, h.symm⟩
    · have harr2 : sub.IsArray = false := by simpa using harr
      simp [harr2] at h

/-- Whatever the visit of the transfer to the device returns, the nodes split
into those that have had their sequence in full, in order, and the rest, for
which nothing is enqueued; the rest is empty when the visit returns ok. -/
theorem visit_toDevice_cases (tm : GenericTransferManager) (literal : Literal)
    (device_buffer : ShapedBuffer) :
    ∀ (nodes : List (Shape × ShapeIndex)) (s : Stream) (r : Status × Stream),
      ShapeUtil.visit (tm.transferLeafToDevice literal device_buffer) nodes s = some r →
      ∃ done rest : List (Shape × ShapeIndex),
        nodes = done ++ rest
        ∧ r.2.ops = s.ops ++ done.flatMap (tm.leafCopyOps literal device_buffer)
        ∧ (∀ node ∈ done,
            (node.1.IsArray = true →
              tm.GetByteSizeRequirement node.1 = (device_buffer.buffers node.2).size)
            ∧ StreamOp.isDirectSequence (tm.leafCopyOps literal device_buffer node)
                = (node.1.IsArray && literal.layoutMatches node)
            ∧ StreamOp.isRelayoutSequence (tm.leafCopyOps literal device_buffer node)
                = literal.layoutDiffers node
            ∧ (tm.leafCopyOps literal device_buffer node).countP StreamOp.isBlock
                = (if literal.layoutDiffers node then 1 else 0))
        ∧ (r.1 = Status.ok → rest = []) := by
  intro nodes
  induction nodes with
  | nil =>
    intro s r h
    simp only [ShapeUtil.visit, Option.some.injEq] at h
    subst h
    exact ⟨[], [], rfl, by simp, by simp, fun _ => rfl⟩
  | cons e nodes ih =>
    intro s r h
    obtain ⟨sub, idx⟩ := e
    simp only [ShapeUtil.visit] at h
    cases hf : tm.transferLeafToDevice literal device_buffer sub idx s with
    | none => simp [hf] at h
    | some r1 =>
      rcases tm.transferLeafToDevice_cases literal device_buffer sub idx s r1 hf with
        ⟨c1, c2, c3, c4, c5, _⟩ | ⟨_, _, hr1⟩
      · obtain ⟨st, s1⟩ := r1
        cases st with
        | ok =>
          simp only [hf] at h
          obtain ⟨done, rest, k1, k2, k3, k4⟩ := ih s1 r h
          refine ⟨(sub, idx) :: done, rest, by rw [k1]; rfl, ?_, ?_, k4⟩
          · rw [k2, c1, List.flatMap_cons, List.append_assoc]
          · intro node hnode
            rcases List.mem_cons.1 hnode with rfl | hmem
            · exact ⟨c2, c3, c4, c5⟩
            · exact k3 node hmem
        | error code message =>
          simp only [hf, Option.some.injEq] at h
          subst h
          refine ⟨[(sub, idx)], nodes, rfl, by simpa using c1, ?_, ?_⟩
          · intro node hnode
            rw [List.mem_singleton] at hnode
            subst hnode
            exact ⟨c2, c3, c4, c5⟩
          · intro hok
            cases hok
      · subst hr1
        simp only [hf, RetCheckFailure, Option.some.injEq] at h
        subst h
        exact ⟨[], (sub, idx) :: nodes, rfl, by simp, by simp, fun hok => by cases hok⟩

end GenericTransferManager

/-- C16 as stated fails: an array leaf that is visited, whose device layout
equals the host layout, gets no copy when its region has not the required
size.  The vector `[5, 6]` of shape `u8[2]` is sent to a device buffer of the
same shape and layout whose region holds 1 byte where 2 are required: the only
node visited is that array leaf, the layouts are equal, one array leaf has
matching layouts, yet the call returns the failure of the size check with no
operation enqueued, so with no direct copy. -/
theorem C16_visited_leaf_without_copy_counterexample :
    Example.shortVectorBuffer.on_device_shape.subshapes []
        = [(Example.shortVectorBuffer.on_device_shape, [])]
    ∧ Example.shortVectorBuffer.on_device_shape.IsArray = true
    ∧ LayoutUtil.Equal Example.shortVectorBuffer.on_device_shape.layout
        Example.vectorValue.shape.layout = true
    ∧ (Example.shortVectorBuffer.on_device_shape.subshapes []).countP
        (fun node => node.1.IsArray && Example.vectorValue.layoutMatches node) = 1
    ∧ Example.manager.GetByteSizeRequirement Example.shortVectorBuffer.on_device_shape = 2
    ∧ (Example.shortVectorBuffer.buffers []).size = 1
    ∧ (Example.manager.TransferLiteralToDeviceAsync Example.stream Example.vectorValue
          Example.shortVectorBuffer).map (fun result => (result.1, result.2.ops))
        = some (RetCheckFailure
            "GetByteSizeRequirement(device_subshape) == device_memory.size()", [])
    ∧ ((Example.manager.TransferLiteralToDeviceAsync Example.stream Example.vectorValue
          Example.shortVectorBuffer).map
        (fun result => result.2.ops.countP StreamOp.isHostToDevice)) = some 0 :=
  ⟨rfl, rfl, rfl, rfl, rfl, rfl, rfl, rfl⟩

/-- C16, amended: at an array leaf whose region has the required size (the
check of the region size passes), `TransferLiteralToDeviceAsync` either, when
the device layout equals the host layout, enqueues exactly one copy of the
host bytes and nothing else (no relayout, no wait), or, when the layouts
differ, makes a relaid-out copy of the host leaf in the device layout,
enqueues exactly one copy of that and then blocks until the stream is done.
In a call that returns ok, the operations after those of the index tables are
these sequences node by node, tuples contributing none; the direct-copy
sequences are as many as the array leaves with matching layout, the
relayout-then-copy sequences as many as the array leaves with differing
layout, and the waits are as many as the latter.  Whatever the call returns,
the nodes of the device shape split, in the order of the visit, into those
done and the rest: the operations enqueued after the phase of the index tables
(the stream `s0` that phase left, or the stream given when the call stopped
before it) are the sequences of the nodes done and nothing for the rest, every
array leaf done has passed the check of its region size, among the nodes done
the direct-copy sequences are as many as the array leaves with matching
layout, the relayout-then-copy sequences and the waits as many as the array
leaves with differing layout, and the rest is empty when the call returns
ok. -/
theorem C16_direct_copy_or_relayout_then_copy (tm : GenericTransferManager)
    (literal : Literal) (device_buffer : ShapedBuffer) :
    (∀ (sub : Shape) (idx : ShapeIndex) (s : Stream) (subliteral : Literal),
      sub.IsArray = true →
      tm.GetByteSizeRequirement sub = (device_buffer.buffers idx).size →
      literal.Slice idx = some subliteral →
      (LayoutUtil.Equal sub.layout subliteral.shape.layout = true →
        tm.transferLeafToDevice literal device_buffer sub idx s
            = some (Status.ok, s.ThenMemcpyToDevice (device_buffer.buffers idx)
                (.bytes subliteral.untyped_data) (tm.GetByteSizeRequirement sub))
          ∧ (s.ThenMemcpyToDevice (device_buffer.buffers idx)
                (.bytes subliteral.untyped_data) (tm.GetByteSizeRequirement sub)).ops
              = s.ops ++ [.memcpy_h2d (device_buffer.buffers idx)
                  (.bytes subliteral.untyped_data) (tm.GetByteSizeRequirement sub)])
      ∧ (LayoutUtil.Equal sub.layout subliteral.shape.layout = false →
          ∀ relaid, subliteral.Relayout sub.layout = some relaid →
            relaid.shape.layout = sub.layout
            ∧ tm.transferLeafToDevice literal device_buffer sub idx s
                = some (s.ThenMemcpyToDevice (device_buffer.buffers idx)
                    (.bytes relaid.untyped_data)
                    (tm.GetByteSizeRequirement sub)).BlockHostUntilDone
            ∧ (s.ThenMemcpyToDevice (device_buffer.buffers idx)
                    (.bytes relaid.untyped_data)
                    (tm.GetByteSizeRequirement sub)).BlockHostUntilDone.2.ops
                = s.ops ++ [.memcpy_h2d (device_buffer.buffers idx)
                    (.bytes relaid.untyped_data) (tm.GetByteSizeRequirement sub),
                  .block_host_until_done]))
    ∧ (∀ (stream s2 : Stream),
      tm.TransferLiteralToDeviceAsync stream literal device_buffer = some (Status.ok, s2) →
      ∃ s0, tm.WriteTupleIndexTablesAsync stream device_buffer = some (Status.ok, s0)
        ∧ s2.ops = s0.ops
            ++ (device_buffer.on_device_shape.subshapes []).flatMap
                (tm.leafCopyOps literal device_buffer)
        ∧ (device_buffer.on_device_shape.subshapes []).countP
              (fun node => StreamOp.isDirectSequence (tm.leafCopyOps literal device_buffer node))
            = (device_buffer.on_device_shape.subshapes []).countP
              (fun node => node.1.IsArray && literal.layoutMatches node)
        ∧ (device_buffer.on_device_shape.subshapes []).countP
              (fun node =>
                StreamOp.isRelayoutSequence (tm.leafCopyOps literal device_buffer node))
            = (device_buffer.on_device_shape.subshapes []).countP literal.layoutDiffers
        ∧ ((device_buffer.on_device_shape.subshapes []).flatMap
              (tm.leafCopyOps literal device_buffer)).countP StreamOp.isHostToDevice
            = (device_buffer.on_device_shape.subshapes []).countP (fun node => node.1.IsArray)
        ∧ ((device_buffer.on_device_shape.subshapes []).flatMap
              (tm.leafCopyOps literal device_buffer)).countP StreamOp.isBlock
            = (device_buffer.on_device_shape.subshapes []).countP literal.layoutDiffers)
    ∧ (∀ (stream : Stream) (r : Status × Stream),
      tm.TransferLiteralToDeviceAsync stream literal device_buffer = some r →
      ∃ (s0 : Stream) (done rest : List (Shape × ShapeIndex)),
        device_buffer.on_device_shape.subshapes [] = done ++ rest
        ∧ (s0 = stream
            ∨ ∃ st, tm.WriteTupleIndexTablesAsync stream device_buffer = some (st, s0))
        ∧ r.2.ops = s0.ops ++ done.flatMap (tm.leafCopyOps literal device_buffer)
        ∧ (∀ node ∈ done, node.1.IsArray = true →
            tm.GetByteSizeRequirement node.1 = (device_buffer.buffers node.2).size)
        ∧ done.countP
              (fun node => StreamOp.isDirectSequence (tm.leafCopyOps literal device_buffer node))
            = done.countP (fun node => node.1.IsArray && literal.layoutMatches node)
        ∧ done.countP
              (fun node =>
                StreamOp.isRelayoutSequence (tm.leafCopyOps literal device_buffer node))
            = done.countP literal.layoutDiffers
        ∧ (done.flatMap (tm.leafCopyOps literal device_buffer)).countP StreamOp.isBlock
            = done.countP literal.layoutDiffers
        ∧ (r.1 = Status.ok → rest = [])) := by
  refine ⟨?_, ?_, ?_⟩
  · intro sub idx s subliteral harr hsz hslice
    have hb : (tm.GetByteSizeRequirement sub != (device_buffer.buffers idx).size) = false := by
      simp [hsz]
    constructor
    · intro hE
      refine ⟨?_, rfl⟩
      simp only [GenericTransferManager.transferLeafToDevice, harr, if_true, hb,
        Bool.false_eq_true, if_false, hslice, hE]
      rw [GenericTransferManager.TransferBufferToDevice_ok _ _ _ _ (by rw [hsz])]
    · intro hE relaid hr
      refine ⟨GenericTransferManager.Relayout_layout _ _ _ hr, ?_, ?_⟩
      · simp only [GenericTransferManager.transferLeafToDevice, harr, if_true, hb,
          Bool.false_eq_true, if_false, hslice, hE, hr]
        rw [GenericTransferManager.TransferBufferToDevice_ok _ _ _ _ (by rw [hsz])]
      · simp [Stream.BlockHostUntilDone, Stream.ThenMemcpyToDevice]
  · intro stream s2 hcall
    obtain ⟨s0, htables, hvisit⟩ :=
      tm.TransferLiteralToDeviceAsync_ok_phases stream s2 literal device_buffer hcall
    have hsteps := ShapeUtil.visit_steps _ _ s0 s2 hvisit
    refine ⟨s0, htables, ?_, ?_, ?_, ?_, ?_⟩
    · exact ShapeUtil.visit_trace _ Stream.ops (tm.leafCopyOps literal device_buffer)
        (fun e s s1 h =>
          (tm.transferLeafToDevice_ok_ops literal device_buffer e.1 e.2 s s1 h).1)
        _ s0 s2 hvisit
    · refine List.countP_congr fun e he => ?_
      obtain ⟨sa, sb, hstep⟩ := hsteps e he
      rw [(tm.transferLeafToDevice_ok_sequences literal device_buffer e.1 e.2 sa sb hstep).1]
    · refine List.countP_congr fun e he => ?_
      obtain ⟨sa, sb, hstep⟩ := hsteps e he
      rw [(tm.transferLeafToDevice_ok_sequences literal device_buffer e.1 e.2 sa sb hstep).2]
    · refine List.countP_flatMap_indicator _ _ _ _ fun e he => ?_
      obtain ⟨sa, sb, hstep⟩ := hsteps e he
      exact (tm.transferLeafToDevice_ok_ops literal device_buffer e.1 e.2 sa sb hstep).2.1
    · refine List.countP_flatMap_indicator _ _ _ _ fun e he => ?_
      obtain ⟨sa, sb, hstep⟩ := hsteps e he
      exact (tm.transferLeafToDevice_ok_ops literal device_buffer e.1 e.2 sa sb hstep).2.2.1
  · intro stream r hcall
    have hopen := tm.TransferLiteralToDeviceAsync_opening_checks stream literal device_buffer
    have hstop : ∀ (s0 : Stream) (st : Status), st ≠ Status.ok → r = (st, s0) →
        (s0 = stream
          ∨ ∃ st2, tm.WriteTupleIndexTablesAsync stream device_buffer = some (st2, s0)) →
        ∃ (s0 : Stream) (done rest : List (Shape × ShapeIndex)),
          device_buffer.on_device_shape.subshapes [] = done ++ rest
          ∧ (s0 = stream
              ∨ ∃ st, tm.WriteTupleIndexTablesAsync stream device_buffer = some (st, s0))
          ∧ r.2.ops = s0.ops ++ done.flatMap (tm.leafCopyOps literal device_buffer)
          ∧ (∀ node ∈ done, node.1.IsArray = true →
              tm.GetByteSizeRequirement node.1 = (device_buffer.buffers node.2).size)
          ∧ done.countP
                (fun node =>
                  StreamOp.isDirectSequence (tm.leafCopyOps literal device_buffer node))
              = done.countP (fun node => node.1.IsArray && literal.layoutMatches node)
          ∧ done.countP
                (fun node =>
                  StreamOp.isRelayoutSequence (tm.leafCopyOps literal device_buffer node))
              = done.countP literal.layoutDiffers
          ∧ (done.flatMap (tm.leafCopyOps literal device_buffer)).countP StreamOp.isBlock
              = done.countP literal.layoutDiffers
          ∧ (r.1 = Status.ok → rest = []) := by
      intro s0 st hst hr hs0
      subst hr
      exact ⟨s0, [], _, rfl, hs0, by simp, by simp, by simp, by simp, by simp,
        fun hok => absurd hok hst⟩
    by_cases hc : ShapeUtil.Compatible literal.shape device_buffer.on_device_shape = true
    · by_cases ho : stream.device_ordinal = device_buffer.device_ordinal
      · unfold GenericTransferManager.TransferLiteralToDeviceAsync at hcall
        simp only [hc, ho, Bool.not_true, Bool.false_eq_true, if_false, bne_self_eq_false]
          at hcall
        cases hw : tm.WriteTupleIndexTablesAsync stream device_buffer with
        | none => simp [hw] at hcall
        | some rt =>
          obtain ⟨st, s0⟩ := rt
          cases st with
          | error code message =>
            simp only [hw, Option.some.injEq] at hcall
            rw [← hw]
            exact hstop s0 (Status.error code message) (fun e => by cases e) hcall.symm
              (Or.inr ⟨_, hw⟩)
          | ok =>
            simp only [hw] at hcall
            obtain ⟨done, rest, k1, k2, k3, k4⟩ :=
              tm.visit_toDevice_cases literal device_buffer _ s0 r hcall
            refine ⟨s0, done, rest, k1, Or.inr ⟨_, rfl⟩, k2, fun node hn => (k3 node hn).1,
              ?_, ?_, ?_, k4⟩
            · exact List.countP_congr fun e he => by rw [(k3 e he).2.1]
            · exact List.countP_congr fun e he => by rw [(k3 e he).2.2.1]
            · exact List.countP_flatMap_indicator _ _ _ _ fun e he => (k3 e he).2.2.2
      · exact hstop stream _ (fun e => by cases e)
          (Option.some.inj ((hopen.2 hc ho).symm.trans hcall)).symm (Or.inl rfl)
    · have hc2 : ShapeUtil.Compatible literal.shape device_buffer.on_device_shape = false := by
        simpa using hc
      exact hstop stream _ (fun e => by cases e)
        (Option.some.inj ((hopen.1 hc2).symm.trans hcall)).symm (Or.inl rfl)

/-- Witness for C16 (Scenario C): a tuple of two row-major matrices sent to a
device buffer whose two leaves are column-major returns ok with, after the
operations of the index table, two relayout-then-copy sequences and no
direct-copy sequence: two copies and two waits.  The tuple of a matrix and a
vector sent to the buffer whose second leaf is one byte short returns a
failure, and its nodes split into those done and the rest with the stream
holding the sequences of the nodes done. -/
theorem C16_direct_copy_or_relayout_then_copy_witness :
    (∃ s0 s2 : Stream,
      Example.manager.TransferLiteralToDeviceAsync Example.stream Example.twoMatrices
          Example.twoColumnMajorBuffer = some (Status.ok, s2)
      ∧ s2.ops = s0.ops
          ++ (Example.twoColumnMajorBuffer.on_device_shape.subshapes []).flatMap
              (Example.manager.leafCopyOps Example.twoMatrices Example.twoColumnMajorBuffer)
      ∧ (Example.twoColumnMajorBuffer.on_device_shape.subshapes []).countP
            (fun node => StreamOp.isDirectSequence
              (Example.manager.leafCopyOps Example.twoMatrices Example.twoColumnMajorBuffer
                node)) = 0
      ∧ (Example.twoColumnMajorBuffer.on_device_shape.subshapes []).countP
            (fun node => StreamOp.isRelayoutSequence
              (Example.manager.leafCopyOps Example.twoMatrices Example.twoColumnMajorBuffer
                node)) = 2
      ∧ ((Example.twoColumnMajorBuffer.on_device_shape.subshapes []).flatMap
            (Example.manager.leafCopyOps Example.twoMatrices
              Example.twoColumnMajorBuffer)).countP StreamOp.isHostToDevice = 2
      ∧ ((Example.twoColumnMajorBuffer.on_device_shape.subshapes []).flatMap
            (Example.manager.leafCopyOps Example.twoMatrices
              Example.twoColumnMajorBuffer)).countP StreamOp.isBlock = 2
      ∧ s2.ops.map StreamOp.summary
          = [(true, false, false, 16), (false, false, false, 0), (true, false, false, 4),
             (false, false, true, 0), (true, false, false, 4), (false, false, true, 0)])
    ∧ (∃ (s0 : Stream) (done rest : List (Shape × ShapeIndex)),
        Example.shortLeafBuffer.on_device_shape.subshapes [] = done ++ rest
        ∧ (Example.manager.TransferLiteralToDeviceAsync Example.stream Example.tupleValue
            Example.shortLeafBuffer).map (fun result => result.2.ops)
          = some (s0.ops ++ done.flatMap
              (Example.manager.leafCopyOps Example.tupleValue Example.shortLeafBuffer))
        ∧ (∀ node ∈ done, node.1.IsArray = true →
            Example.manager.GetByteSizeRequirement node.1
              = (Example.shortLeafBuffer.buffers node.2).size)
        ∧ done.countP
              (fun node => StreamOp.isDirectSequence
                (Example.manager.leafCopyOps Example.tupleValue Example.shortLeafBuffer node))
            = done.countP (fun node => node.1.IsArray && Example.tupleValue.layoutMatches node))
    ∧ (Example.manager.TransferLiteralToDeviceAsync Example.stream Example.tupleValue
          Example.shortLeafBuffer).map
        (fun result => (result.1, result.2.ops.map StreamOp.summary))
      = some (RetCheckFailure
          "GetByteSizeRequirement(device_subshape) == device_memory.size()",
          [(true, false, false, 16), (false, false, false, 0), (true, false, false, 4),
           (false, false, true, 0)]) := by
  refine ⟨?_, ?_, rfl⟩
  · obtain ⟨s0, _, h2, h3, h4, h5, h6⟩ :=
      (C16_direct_copy_or_relayout_then_copy Example.manager Example.twoMatrices
        Example.twoColumnMajorBuffer).2.1 Example.stream _ rfl
    exact ⟨s0, _, rfl, h2, h3.trans rfl, h4.trans rfl, h5.trans rfl, h6.trans rfl, rfl⟩
  · obtain ⟨s0, done, rest, k1, _, k3, k4, k5, _⟩ :=
      (C16_direct_copy_or_relayout_then_copy Example.manager Example.tupleValue
        Example.shortLeafBuffer).2.2 Example.stream _ rfl
    exact ⟨s0, done, rest, k1, congrArg some k3, k4, k5⟩

/-- C17: whatever `TransferLiteralToDeviceAsync` returns, the operations it has
enqueued after the phase of the tuple index tables (the stream `s0` that phase
left, or the stream given when the call stopped before it) are waits and
host-to-device copies for array leaves only, and each such copy goes into the
region of its leaf and transfers exactly `GetByteSizeRequirement` of the
device subshape of that leaf, a number equal to the size of that region: the
bytes copied into a leaf do not exceed its allocation. -/
theorem C17_leaf_copy_is_the_size_of_its_region (tm : GenericTransferManager)
    (stream : Stream) (literal : Literal) (device_buffer : ShapedBuffer)
    (r : Status × Stream)
    (hcall : tm.TransferLiteralToDeviceAsync stream literal device_buffer = some r) :
    ∃ (s0 : Stream) (leaf_ops : List StreamOp),
      (s0 = stream ∨ ∃ st, tm.WriteTupleIndexTablesAsync stream device_buffer = some (st, s0))
      ∧ r.2.ops = s0.ops ++ leaf_ops
      ∧ ∀ op ∈ leaf_ops, op = StreamOp.block_host_until_done
          ∨ ∃ node ∈ device_buffer.on_device_shape.subshapes [],
              node.1.IsArray = true
              ∧ (∃ src, op = StreamOp.memcpy_h2d (device_buffer.buffers node.2) src
                  (tm.GetByteSizeRequirement node.1))
              ∧ op.byte_count = tm.GetByteSizeRequirement node.1
              ∧ tm.GetByteSizeRequirement node.1 = (device_buffer.buffers node.2).size
              ∧ op.byte_count ≤ (device_buffer.buffers node.2).size := by
  have hopen := tm.TransferLiteralToDeviceAsync_opening_checks stream literal device_buffer
  by_cases hc : ShapeUtil.Compatible literal.shape device_buffer.on_device_shape = true
  · by_cases ho : stream.device_ordinal = device_buffer.device_ordinal
    · unfold GenericTransferManager.TransferLiteralToDeviceAsync at hcall
      simp only [hc, ho, Bool.not_true, Bool.false_eq_true, if_false, bne_self_eq_false]
        at hcall
      cases hw : tm.WriteTupleIndexTablesAsync stream device_buffer with
      | none => simp [hw] at hcall
      | some rt =>
        obtain ⟨st, s0⟩ := rt
        cases st with
        | error code message =>
          simp only [hw, Option.some.injEq] at hcall
          subst hcall
          exact ⟨s0, [], Or.inr ⟨_, rfl⟩, by simp, by simp⟩
        | ok =>
          simp only [hw] at hcall
          obtain ⟨extra, hx, hall⟩ := ShapeUtil.visit_log_all
            (tm.transferLeafToDevice literal device_buffer) Stream.ops
            (fun e op => op = StreamOp.block_host_until_done
              ∨ (e.1.IsArray = true
                ∧ tm.GetByteSizeRequirement e.1 = (device_buffer.buffers e.2).size
                ∧ ∃ src, op = StreamOp.memcpy_h2d (device_buffer.buffers e.2) src
                    (tm.GetByteSizeRequirement e.1)))
            (fun e s r1 h => tm.transferLeafToDevice_any_ops literal device_buffer e.1 e.2 s r1 h)
            _ s0 r hcall
          refine ⟨s0, extra, Or.inr ⟨_, rfl⟩, hx, ?_⟩
          intro op hop
          obtain ⟨e, he, hp⟩ := hall op hop
          rcases hp with hp | ⟨harr, hsz, src, hsrc⟩
          · exact Or.inl hp
          · refine Or.inr ⟨e, he, harr, ⟨src, hsrc⟩, ?_, hsz, ?_⟩
            · rw [hsrc]; rfl
            · rw [hsrc, ← hsz]; exact Nat.le_refl _
    · rw [hopen.2 hc ho, Option.some.injEq] at hcall
      subst hcall
      exact ⟨stream, [], Or.inl rfl, by simp, by simp⟩
  · have hc2 : ShapeUtil.Compatible literal.shape device_buffer.on_device_shape = false := by
      simpa using hc
    rw [hopen.1 hc2, Option.some.injEq] at hcall
    subst hcall
    exact ⟨stream, [], Or.inl rfl, by simp, by simp⟩

/-- Witness for C17: the tuple of a matrix and a vector sent to its device
buffer; the copies of the two leaves are of 4 and of 2 bytes, the sizes of
their regions. -/
theorem C17_leaf_copy_is_the_size_of_its_region_witness :
    (∃ (s0 : Stream) (leaf_ops : List StreamOp),
      (s0 = Example.stream
        ∨ ∃ st, Example.manager.WriteTupleIndexTablesAsync Example.stream Example.tupleBuffer
            = some (st, s0))
      ∧ (Example.manager.TransferLiteralToDeviceAsync Example.stream Example.tupleValue
          Example.tupleBuffer).map (fun result => result.2.ops) = some (s0.ops ++ leaf_ops)
      ∧ ∀ op ∈ leaf_ops, op = StreamOp.block_host_until_done
          ∨ ∃ node ∈ Example.tupleBuffer.on_device_shape.subshapes [],
              node.1.IsArray = true
              ∧ (∃ src, op = StreamOp.memcpy_h2d (Example.tupleBuffer.buffers node.2) src
                  (Example.manager.GetByteSizeRequirement node.1))
              ∧ op.byte_count = Example.manager.GetByteSizeRequirement node.1
              ∧ Example.manager.GetByteSizeRequirement node.1
                  = (Example.tupleBuffer.buffers node.2).size
              ∧ op.byte_count ≤ (Example.tupleBuffer.buffers node.2).size)
    ∧ (Example.manager.TransferLiteralToDeviceAsync Example.stream Example.tupleValue
          Example.tupleBuffer).map (fun result => (result.1, result.2.ops.map StreamOp.summary))
        = some (Status.ok,
            [(true, false, false, 16), (false, false, false, 0), (true, false, false, 4),
             (false, false, true, 0), (true, false, false, 2)]) := by
  refine ⟨?_, rfl⟩
  obtain ⟨s0, leaf_ops, h1, h2, h3⟩ :=
    C17_leaf_copy_is_the_size_of_its_region Example.manager Example.stream Example.tupleValue
      Example.tupleBuffer _ rfl
  exact ⟨s0, leaf_ops, h1, congrArg some h2, h3⟩

/-! ### Traces of the transfer from the device -/

namespace GenericTransferManager

/-- The copy to enqueue at a node depends on the literal through its shape
only. -/
theorem leafCopyBack_congr (tm : GenericTransferManager) (literal literal2 : Literal)
    (device_buffer : ShapedBuffer) (h : literal2.shape = literal.shape) :
    tm.leafCopyBack literal2 device_buffer = tm.leafCopyBack literal device_buffer := by
  funext node
  simp [leafCopyBack, literalByteSize, h]

/-- A copy to the host leaves the shape of the literal as it is. -/
theorem ThenMemcpyToHost_shape (stream : Stream) (literal : Literal) (index : ShapeIndex)
    (src : DeviceMemoryBase) (size : Nat) :
    (stream.ThenMemcpyToHost literal index src size).2.shape = literal.shape := by
  unfold Stream.ThenMemcpyToHost
  by_cases h : stream.ok = true <;> simp [h]

/-- Whatever the visit of `TransferLiteralFromDevice` returns is ok; it has
enqueued one copy for each array node, in the order of the visit, and nothing
else, and the literal had a subshape at each of them. -/
theorem visit_fromDevice_ops (tm : GenericTransferManager) (device_buffer : ShapedBuffer) :
    ∀ (nodes : List (Shape × ShapeIndex)) (stream : Stream) (literal : Literal)
      (r : Status × (Stream × Literal)),
      ShapeUtil.visit (tm.transferLeafFromDevice device_buffer) nodes (stream, literal) = some r →
      r.1 = Status.ok
      ∧ r.2.2.shape = literal.shape
      ∧ r.2.1.status = stream.status
      ∧ r.2.1.ops = stream.ops
          ++ (nodes.filter fun node => node.1.IsArray).map
              (tm.leafCopyBack literal device_buffer)
      ∧ ∀ node ∈ nodes, node.1.IsArray = true →
          ∃ lsub, ShapeUtil.GetSubshape literal.shape node.2 = some lsub := by
  intro nodes
  induction nodes with
  | nil =>
    intro stream literal r h
    simp only [ShapeUtil.visit, Option.some.injEq] at h
    subst h
    simp
  | cons e rest ih =>
    intro stream literal r h
    obtain ⟨sub, idx⟩ := e
    by_cases harr : sub.IsArray = true
    · cases hl : ShapeUtil.GetSubshape literal.shape idx with
      | none => simp [ShapeUtil.visit, transferLeafFromDevice, harr, hl] at h
      | some lsub =>
        simp only [ShapeUtil.visit, transferLeafFromDevice, harr, if_true, hl] at h
        have hshape := ThenMemcpyToHost_shape stream literal idx (device_buffer.buffers idx)
          (tm.GetByteSizeRequirement lsub)
        obtain ⟨h1, h2, h3, h4, h5⟩ := ih
          (stream.ThenMemcpyToHost literal idx (device_buffer.buffers idx)
            (tm.GetByteSizeRequirement lsub)).1
          (stream.ThenMemcpyToHost literal idx (device_buffer.buffers idx)
            (tm.GetByteSizeRequirement lsub)).2 r h
        have hcongr := leafCopyBack_congr tm literal _ device_buffer hshape
        refine ⟨h1, h2.trans hshape, h3.trans rfl, ?_, ?_⟩
        · rw [h4, hcongr]
          simp [Stream.ThenMemcpyToHost, List.filter_cons, harr, leafCopyBack,
            literalByteSize, hl]
        · intro node hnode hna
          rcases List.mem_cons.1 hnode with rfl | hmem
          · exact ⟨lsub, hl⟩
          · obtain ⟨ls, hls⟩ := h5 node hmem hna
            exact ⟨ls, hshape ▸ hls⟩
    · simp only [ShapeUtil.visit, transferLeafFromDevice, harr, Bool.false_eq_true,
        if_false] at h
      obtain ⟨h1, h2, h3, h4, h5⟩ := ih _ _ r h
      refine ⟨h1, h2, h3, ?_, ?_⟩
      · rw [h4]
        simp [List.filter_cons, harr]
      · intro node hnode hna
        rcases List.mem_cons.1 hnode with rfl | hmem
        · exact absurd hna harr
        · exact h5 node hmem hna

/-- The visit of `TransferLiteralFromDevice` returns when the literal has a
subshape at every array node. -/
theorem visit_fromDevice_returns (tm : GenericTransferManager)
    (device_buffer : ShapedBuffer) :
    ∀ (nodes : List (Shape × ShapeIndex)) (stream : Stream) (literal : Literal),
      (∀ node ∈ nodes, node.1.IsArray = true →
        ∃ lsub, ShapeUtil.GetSubshape literal.shape node.2 = some lsub) →
      ∃ r, ShapeUtil.visit (tm.transferLeafFromDevice device_buffer) nodes (stream, literal)
        = some r := by
  intro nodes
  induction nodes with
  | nil => intro stream literal _; exact ⟨_, rfl⟩
  | cons e rest ih =>
    intro stream literal hsub
    obtain ⟨sub, idx⟩ := e
    by_cases harr : sub.IsArray = true
    · obtain ⟨lsub, hl⟩ := hsub (sub, idx) (by simp) harr
      simp only [ShapeUtil.visit, transferLeafFromDevice, harr, if_true, hl]
      have hshape := ThenMemcpyToHost_shape stream literal idx (device_buffer.buffers idx)
        (tm.GetByteSizeRequirement lsub)
      refine ih
        (stream.ThenMemcpyToHost literal idx (device_buffer.buffers idx)
          (tm.GetByteSizeRequirement lsub)).1
        (stream.ThenMemcpyToHost literal idx (device_buffer.buffers idx)
          (tm.GetByteSizeRequirement lsub)).2 fun node hnode hna => ?_
      rw [hshape]
      exact hsub node (List.mem_cons_of_mem _ hnode) hna
    · simp only [ShapeUtil.visit, transferLeafFromDevice, harr, Bool.false_eq_true, if_false]
      exact ih _ _ fun node hnode hna => hsub node (List.mem_cons_of_mem _ hnode) hna

/-- A call of `TransferLiteralFromDevice` on a stream of the device of the
buffer that returns: it made its visit, which was ok, and `done` received the
status of the wait that followed. -/
theorem TransferLiteralFromDevice_phases (tm : GenericTransferManager) (stream : Stream)
    (device_buffer : ShapedBuffer) (literal : Literal) (result : FromDeviceResult)
    (hord : stream.device_ordinal = device_buffer.device_ordinal)
    (h : tm.TransferLiteralFromDevice stream device_buffer literal = some result) :
    ∃ stream2 literal2,
      ShapeUtil.visit (tm.transferLeafFromDevice device_buffer)
          (device_buffer.on_device_shape.subshapes []) (stream, literal)
        = some (Status.ok, (stream2, literal2))
      ∧ result = ⟨[stream2.BlockHostUntilDone.1], stream2.BlockHostUntilDone.2, literal2⟩ := by
  unfold TransferLiteralFromDevice at h
  simp only [hord, bne_self_eq_false, Bool.false_eq_true, if_false,
    ShapeUtil.ForEachSubshapeWithStatus] at h
  cases hv : ShapeUtil.visit (tm.transferLeafFromDevice device_buffer)
      (device_buffer.on_device_shape.subshapes []) (stream, literal) with
  | none => simp [hv] at h
  | some r =>
    have hok := (visit_fromDevice_ops tm device_buffer _ stream literal r hv).1
    obtain ⟨st, s2, l2⟩ := r
    simp only at hok
    subst hok
    simp only [hv, Option.some.injEq] at h
    exact ⟨s2, l2, rfl, h.symm⟩

end GenericTransferManager

/-- An array compatible with a device array requires no more bytes than it
when it is static or the device array is dynamic. -/
theorem GenericTransferManager.GetByteSizeRequirement_le_of_compatible
    (tm : GenericTransferManager) (lsub dsub : Shape) (harr : dsub.IsArray = true)
    (hc : ShapeUtil.Compatible lsub dsub = true)
    (hdyn : lsub.is_static = true ∨ dsub.is_static = false) :
    tm.GetByteSizeRequirement lsub ≤ tm.GetByteSizeRequirement dsub := by
  cases dsub with
  | tuple l => simp [Shape.IsArray] at harr
  | array t dims dyn m2m =>
    obtain ⟨dyn2, m2m2, rfl⟩ := ShapeUtil.Compatible_array lsub t dims dyn m2m hc
    rcases hdyn with hs | hs
    · rw [tm.GetByteSizeRequirement_static_or_tuple _ (Or.inl hs)]
      exact tm.ByteSizeOf_le (.array t dims dyn m2m)
    · simp only [GenericTransferManager.GetByteSizeRequirement, hs, Shape.IsTuple,
        Bool.or_self, Bool.false_eq_true, if_false, ShapeUtil.ByteSizeOf,
        Shape.dimensions_size]
      split <;> omega

/-! ### Claims about the transfer from the device -/

/-- C18, as stated, fails: the size of each copy is taken from the destination
literal, and nothing compares the literal with the device buffer.  A device
buffer of static shape `u8[2]`, its region of the 2 bytes that shape requires,
read into a destination of shape `u8[<=2]` (compatible, but dynamic, so it
requires 2 + 4 bytes) on a stream of the same device: the call enqueues a copy
of 6 bytes out of the region of 2, and `done` receives ok. -/
theorem C18_copy_larger_than_region_counterexample :
    (Example.manager.TransferLiteralFromDevice Example.stream Example.vectorBuffer
        Example.dynamicVectorDestination).map
      (fun result => (result.done_calls, result.stream.ops.map StreamOp.summary))
      = some ([Status.ok], [(false, true, false, 6), (false, false, true, 0)])
    ∧ (Example.vectorBuffer.buffers []).size = 2
    ∧ Example.manager.GetByteSizeRequirement Example.vectorBuffer.on_device_shape = 2
    ∧ Example.stream.device_ordinal = Example.vectorBuffer.device_ordinal
    ∧ ShapeUtil.Compatible Example.dynamicVectorDestination.shape
        Example.vectorBuffer.on_device_shape = true :=
  ⟨rfl, rfl, rfl, rfl, rfl⟩

/-- C18, amended: in a call of `TransferLiteralFromDevice` on a stream of the
device of the buffer, every copy enqueued is out of the region of an array leaf
of the device buffer and of `GetByteSizeRequirement` of the subshape of the
destination literal at the index of that leaf; this number of bytes does not
exceed the size of the region of the leaf when the region holds at least what
the device subshape requires, the subshape of the destination is compatible
with the device subshape, and the subshape of the destination is static or the
device subshape is dynamic. -/
theorem C18_copy_within_region_when_literal_fits (tm : GenericTransferManager)
    (stream : Stream) (device_buffer : ShapedBuffer) (literal : Literal)
    (result : GenericTransferManager.FromDeviceResult)
    (hord : stream.device_ordinal = device_buffer.device_ordinal)
    (hcall : tm.TransferLiteralFromDevice stream device_buffer literal = some result) :
    ∃ copies, result.stream.ops = stream.ops ++ copies ++ [.block_host_until_done]
      ∧ ∀ op ∈ copies, ∃ node ∈ device_buffer.on_device_shape.subshapes [],
          node.1.IsArray = true
          ∧ ∃ lsub, ShapeUtil.GetSubshape literal.shape node.2 = some lsub
            ∧ op = .memcpy_d2h node.2 (device_buffer.buffers node.2)
                (tm.GetByteSizeRequirement lsub)
            ∧ op.byte_count = tm.GetByteSizeRequirement lsub
            ∧ (tm.GetByteSizeRequirement node.1 ≤ (device_buffer.buffers node.2).size →
                ShapeUtil.Compatible lsub node.1 = true →
                (lsub.is_static = true ∨ node.1.is_static = false) →
                op.byte_count ≤ (device_buffer.buffers node.2).size) := by
  obtain ⟨s2, l2, hv, hres⟩ := tm.TransferLiteralFromDevice_phases stream device_buffer
    literal result hord hcall
  obtain ⟨_, _, _, hops, hsub⟩ := tm.visit_fromDevice_ops device_buffer _ stream literal _ hv
  simp only at hops
  refine ⟨(List.filter (fun node => node.1.IsArray)
      (device_buffer.on_device_shape.subshapes [])).map
      (tm.leafCopyBack literal device_buffer), ?_, ?_⟩
  · rw [hres]
    simp only [Stream.BlockHostUntilDone]
    rw [hops]
  · intro op hop
    obtain ⟨node, hnode, rfl⟩ := List.mem_map.1 hop
    obtain ⟨hmem, harr⟩ := List.mem_filter.1 hnode
    obtain ⟨lsub, hl⟩ := hsub node hmem harr
    have hop2 : tm.leafCopyBack literal device_buffer node
        = .memcpy_d2h node.2 (device_buffer.buffers node.2)
            (tm.GetByteSizeRequirement lsub) := by
      simp [GenericTransferManager.leafCopyBack, GenericTransferManager.literalByteSize, hl]
    refine ⟨node, hmem, harr, lsub, hl, hop2, by rw [hop2]; rfl, ?_⟩
    intro hsz hc hdyn
    rw [hop2]
    exact Nat.le_trans
      (tm.GetByteSizeRequirement_le_of_compatible lsub node.1 harr hc hdyn) hsz

/-- Witness for C18 amended: the tuple buffer read into a destination of its
own shape; the copies are of 4 and of 2 bytes, out of regions of 4 and of 2. -/
theorem C18_copy_within_region_when_literal_fits_witness :
    (∃ copies,
      (Example.manager.TransferLiteralFromDevice Example.stream Example.tupleBuffer
          Example.tupleDestination).map (fun result => result.stream.ops)
        = some (Example.stream.ops ++ copies ++ [.block_host_until_done])
      ∧ ∀ op ∈ copies, ∃ node ∈ Example.tupleBuffer.on_device_shape.subshapes [],
          node.1.IsArray = true
          ∧ ∃ lsub, ShapeUtil.GetSubshape Example.tupleDestination.shape node.2 = some lsub
            ∧ op = .memcpy_d2h node.2 (Example.tupleBuffer.buffers node.2)
                (Example.manager.GetByteSizeRequirement lsub)
            ∧ op.byte_count = Example.manager.GetByteSizeRequirement lsub
            ∧ (Example.manager.GetByteSizeRequirement node.1
                  ≤ (Example.tupleBuffer.buffers node.2).size →
                ShapeUtil.Compatible lsub node.1 = true →
                (lsub.is_static = true ∨ node.1.is_static = false) →
                op.byte_count ≤ (Example.tupleBuffer.buffers node.2).size))
    ∧ (Example.manager.TransferLiteralFromDevice Example.stream Example.tupleBuffer
          Example.tupleDestination).map
        (fun result => (result.done_calls, result.stream.ops.map StreamOp.summary))
      = some ([Status.ok],
          [(false, true, false, 4), (false, true, false, 2), (false, false, true, 0)]) := by
  refine ⟨?_, rfl⟩
  obtain ⟨copies, h1, h2⟩ :=
    C18_copy_within_region_when_literal_fits Example.manager Example.stream
      Example.tupleBuffer Example.tupleDestination _ rfl rfl
  exact ⟨copies, congrArg some h1, h2⟩

/-- C19: on a stream of the device of the buffer, and with a destination
literal that has a subshape at the index of every array node of the on-device
shape (without one the lookup of the subshape aborts), `TransferLiteralFromDevice`
returns having enqueued, after what the stream held, exactly one device-to-host
copy for each array subshape of the on-device shape, in the depth-first order
of the visit, none for a tuple node, and then the wait.  The copy of a node is
from the region of the device buffer at the index of the node into the data of
the literal at that index, and its size is `GetByteSizeRequirement` of the
subshape of the literal at that index, not of the device subshape. -/
theorem C19_one_copy_back_per_array_subshape (tm : GenericTransferManager)
    (stream : Stream) (device_buffer : ShapedBuffer) (literal : Literal)
    (hord : stream.device_ordinal = device_buffer.device_ordinal)
    (hsub : ∀ node ∈ device_buffer.on_device_shape.subshapes [], node.1.IsArray = true →
      ∃ lsub, ShapeUtil.GetSubshape literal.shape node.2 = some lsub) :
    ∃ result, tm.TransferLiteralFromDevice stream device_buffer literal = some result
      ∧ result.stream.ops = stream.ops
          ++ ((device_buffer.on_device_shape.subshapes []).filter fun node => node.1.IsArray).map
              (tm.leafCopyBack literal device_buffer)
          ++ [.block_host_until_done]
      ∧ (((device_buffer.on_device_shape.subshapes []).filter fun node => node.1.IsArray).map
            (tm.leafCopyBack literal device_buffer)).length
          = (device_buffer.on_device_shape.subshapes []).countP (fun node => node.1.IsArray)
      ∧ ∀ node ∈ device_buffer.on_device_shape.subshapes [], node.1.IsArray = true →
          ∃ lsub, ShapeUtil.GetSubshape literal.shape node.2 = some lsub
            ∧ tm.leafCopyBack literal device_buffer node
              = .memcpy_d2h node.2 (device_buffer.buffers node.2)
                  (tm.GetByteSizeRequirement lsub) := by
  obtain ⟨r, hr⟩ := tm.visit_fromDevice_returns device_buffer _ stream literal hsub
  obtain ⟨hok, _, _, hops, _⟩ := tm.visit_fromDevice_ops device_buffer _ stream literal r hr
  obtain ⟨st, s2, l2⟩ := r
  simp only at hok hops
  subst hok
  refine ⟨⟨[s2.BlockHostUntilDone.1], s2.BlockHostUntilDone.2, l2⟩, ?_, ?_, ?_, ?_⟩
  · simp only [GenericTransferManager.TransferLiteralFromDevice, hord, bne_self_eq_false,
      Bool.false_eq_true, if_false, ShapeUtil.ForEachSubshapeWithStatus, hr]
  · simp only [Stream.BlockHostUntilDone]
    rw [hops]
  · rw [List.length_map, List.countP_eq_length_filter]
  · intro node hnode harr
    obtain ⟨lsub, hl⟩ := hsub node hnode harr
    exact ⟨lsub, hl, by
      simp [GenericTransferManager.leafCopyBack, GenericTransferManager.literalByteSize, hl]⟩

/-- Witness for C19: a device buffer of static shape `u8[2]` read into a
destination of shape `u8[<=2]`: one copy, of the 6 bytes the destination
requires (the device shape requires 2), then the wait. -/
theorem C19_one_copy_back_per_array_subshape_witness :
    (∃ result, Example.manager.TransferLiteralFromDevice Example.stream Example.vectorBuffer
          Example.dynamicVectorDestination = some result
      ∧ result.stream.ops = Example.stream.ops
          ++ ((Example.vectorBuffer.on_device_shape.subshapes []).filter
                fun node => node.1.IsArray).map
              (Example.manager.leafCopyBack Example.dynamicVectorDestination
                Example.vectorBuffer)
          ++ [.block_host_until_done])
    ∧ ((Example.vectorBuffer.on_device_shape.subshapes []).filter
          fun node => node.1.IsArray).map
        (fun node => (Example.manager.leafCopyBack Example.dynamicVectorDestination
          Example.vectorBuffer node).summary)
      = [(false, true, false, 6)]
    ∧ Example.manager.GetByteSizeRequirement Example.vectorBuffer.on_device_shape = 2 := by
  refine ⟨?_, rfl, rfl⟩
  obtain ⟨result, h1, h2, _⟩ :=
    C19_one_copy_back_per_array_subshape Example.manager Example.stream Example.vectorBuffer
      Example.dynamicVectorDestination rfl
      (by intro node h _
          simp only [Example.vectorBuffer, Shape.subshapes, List.mem_singleton] at h
          subst h
          exact ⟨_, rfl⟩)
  exact ⟨result, h1, h2⟩

/-- C20: `TransferLiteralFromDevice` calls `done` exactly once on every path.
When the device ordinal of the stream differs from that of the device buffer,
`done` receives the failure of that check, and the stream and the literal are
as they were: nothing enqueued, no wait.  Otherwise (the literal having a
subshape at every array node, so that the call returns) all the copies are
enqueued first, and `done` receives exactly the status that
`BlockHostUntilDone` returns on the stream that holds them; the wait is the
last operation.  Every call that returns has called `done` once. -/
theorem C20_done_called_exactly_once (tm : GenericTransferManager)
    (stream : Stream) (device_buffer : ShapedBuffer) (literal : Literal) :
    (stream.device_ordinal ≠ device_buffer.device_ordinal →
      tm.TransferLiteralFromDevice stream device_buffer literal
        = some ⟨[RetCheckFailure
            "stream->parent()->device_ordinal() == device_buffer.device_ordinal()"],
          stream, literal⟩)
    ∧ (stream.device_ordinal = device_buffer.device_ordinal →
        (∀ node ∈ device_buffer.on_device_shape.subshapes [], node.1.IsArray = true →
          ∃ lsub, ShapeUtil.GetSubshape literal.shape node.2 = some lsub) →
        ∃ (copied : Stream) (literal2 : Literal),
          ShapeUtil.ForEachSubshapeWithStatus device_buffer.on_device_shape
              (tm.transferLeafFromDevice device_buffer) (stream, literal)
            = some (Status.ok, (copied, literal2))
          ∧ copied.ops = stream.ops
              ++ ((device_buffer.on_device_shape.subshapes []).filter
                    fun node => node.1.IsArray).map
                  (tm.leafCopyBack literal device_buffer)
          ∧ tm.TransferLiteralFromDevice stream device_buffer literal
              = some ⟨[copied.BlockHostUntilDone.1], copied.BlockHostUntilDone.2, literal2⟩
          ∧ copied.BlockHostUntilDone.2.ops = copied.ops ++ [.block_host_until_done])
    ∧ (∀ result, tm.TransferLiteralFromDevice stream device_buffer literal = some result →
        result.done_calls.length = 1) := by
  have hmis : stream.device_ordinal ≠ device_buffer.device_ordinal →
      tm.TransferLiteralFromDevice stream device_buffer literal
        = some ⟨[RetCheckFailure
            "stream->parent()->device_ordinal() == device_buffer.device_ordinal()"],
          stream, literal⟩ := by
    intro h
    have hb : (stream.device_ordinal != device_buffer.device_ordinal) = true := by
      simpa using h
    simp [GenericTransferManager.TransferLiteralFromDevice, hb, RetCheckFailure]
  refine ⟨hmis, ?_, ?_⟩
  · intro hord hsub
    obtain ⟨r, hr⟩ := tm.visit_fromDevice_returns device_buffer _ stream literal hsub
    obtain ⟨hok, _, _, hops, _⟩ := tm.visit_fromDevice_ops device_buffer _ stream literal r hr
    obtain ⟨st, s2, l2⟩ := r
    simp only at hok hops
    subst hok
    refine ⟨s2, l2, hr, hops, ?_, rfl⟩
    simp only [GenericTransferManager.TransferLiteralFromDevice, hord, bne_self_eq_false,
      Bool.false_eq_true, if_false, ShapeUtil.ForEachSubshapeWithStatus, hr]
  · intro result hres
    by_cases hord : stream.device_ordinal = device_buffer.device_ordinal
    · obtain ⟨s2, l2, _, h2⟩ := tm.TransferLiteralFromDevice_phases stream device_buffer
        literal result hord hres
      rw [h2]
      rfl
    · rw [hmis hord, Option.some.injEq] at hres
      rw [← hres]
      rfl

/-- Witness for C20: a read on a stream of device 1 from a buffer of device 0
(one call of `done`, with the failure, the stream left empty), and a read of
the tuple buffer on its own device (one call, with ok, after two copies and
the wait). -/
theorem C20_done_called_exactly_once_witness :
    (Example.manager.TransferLiteralFromDevice { Example.stream with device_ordinal := 1 }
        Example.tupleBuffer Example.tupleDestination).map
      (fun result => (result.done_calls, result.stream.ops.length))
      = some ([RetCheckFailure
          "stream->parent()->device_ordinal() == device_buffer.device_ordinal()"], 0)
    ∧ (∃ (copied : Stream) (literal2 : Literal),
        Example.manager.TransferLiteralFromDevice Example.stream Example.tupleBuffer
            Example.tupleDestination
          = some ⟨[copied.BlockHostUntilDone.1], copied.BlockHostUntilDone.2, literal2⟩
        ∧ copied.BlockHostUntilDone.2.ops = copied.ops ++ [.block_host_until_done])
    ∧ (Example.manager.TransferLiteralFromDevice Example.stream Example.tupleBuffer
        Example.tupleDestination).map
      (fun result => (result.done_calls, result.stream.ops.map StreamOp.summary))
      = some ([Status.ok],
          [(false, true, false, 4), (false, true, false, 2), (false, false, true, 0)]) := by
  refine ⟨?_, ?_, rfl⟩
  · rw [(C20_done_called_exactly_once Example.manager { Example.stream with device_ordinal := 1 }
      Example.tupleBuffer Example.tupleDestination).1 (by decide)]
    rfl
  · obtain ⟨copied, literal2, _, _, h3, h4⟩ :=
      (C20_done_called_exactly_once Example.manager Example.stream Example.tupleBuffer
        Example.tupleDestination).2.1 rfl
        (by intro node h _
            simp only [Example.tupleBuffer, Shape.subshapes, Shape.subshapes_from,
              List.mem_cons, List.nil_append, List.append_nil, List.mem_append,
              List.mem_singleton, List.not_mem_nil, or_false] at h
            rcases h with rfl | rfl | rfl <;> exact ⟨_, rfl⟩)
    exact ⟨copied, literal2, h3, h4⟩

/-! ### Unsupported operations -/

/-- C21: whatever their arguments, `TransferLiteralToInfeed`,
`TransferLiteralFromOutfeed` and `ResetDevices` of the generic transfer manager
return an unimplemented failure (code UNIMPLEMENTED, with a message naming the
operation), which is not ok, and leave their arguments as they were: the
executor, the literal, the executors. -/
theorem C21_unsupported_operations_fail (tm : GenericTransferManager)
    (executor : StreamExecutor) (literal : Literal) (executors : List StreamExecutor) :
    (tm.TransferLiteralToInfeed executor literal
        = (Unimplemented "Generic transfer to Infeed", executor)
      ∧ (tm.TransferLiteralToInfeed executor literal).1 ≠ Status.ok)
    ∧ (tm.TransferLiteralFromOutfeed executor literal
        = (Unimplemented "Generic transfer from Outfeed", executor, literal)
      ∧ (tm.TransferLiteralFromOutfeed executor literal).1 ≠ Status.ok)
    ∧ (tm.ResetDevices executors
        = (Unimplemented "Device reset is not yet supported on this platform (b/30481585)",
            executors)
      ∧ (tm.ResetDevices executors).1 ≠ Status.ok)
    ∧ ∀ message, Unimplemented message = Status.error 12 message := by
  refine ⟨⟨rfl, ?_⟩, ⟨rfl, ?_⟩, ⟨rfl, ?_⟩, fun _ => rfl⟩ <;>
    simp [GenericTransferManager.TransferLiteralToInfeed,
      GenericTransferManager.TransferLiteralFromOutfeed,
      GenericTransferManager.ResetDevices, Unimplemented]

/-! ### Infeed thunk: the loop over the leaves -/

namespace gpu
namespace InfeedThunk

/-- While the leaves pass the check the loop goes on: after a prefix of
leaves that all pass, the loop stands at the next leaf with `index` advanced
by their number and with one copy enqueued for each of them, in order. -/
theorem copyLeaves_prefix (thunk : InfeedThunk) (buffer_allocations : BufferAllocations)
    (shape : Shape) :
    ∀ (pre : List (ShapeIndex × DeviceMemoryBase)) (index : Nat) (stream : Stream),
      thunk.allMatch shape index pre = true →
      ∃ s1 : Stream,
        (∀ rest, thunk.copyLeaves buffer_allocations shape (pre ++ rest) index stream
          = thunk.copyLeaves buffer_allocations shape rest (index + pre.length) s1)
        ∧ s1.ops = stream.ops ++ thunk.copiesFrom buffer_allocations index pre
        ∧ s1.status = stream.status
        ∧ (thunk.copiesFrom buffer_allocations index pre).length = pre.length
        ∧ (index ≤ thunk.dest_slices_.length →
            index + pre.length ≤ thunk.dest_slices_.length) := by
  intro pre
  induction pre with
  | nil =>
    intro index stream _
    exact ⟨stream, fun _ => rfl, by simp [copiesFrom], rfl, rfl, fun h => h⟩
  | cons leaf pre ih =>
    intro index stream h
    obtain ⟨shape_index, buffer⟩ := leaf
    simp only [allMatch, Bool.and_eq_true, shapeMatches] at h
    obtain ⟨h1, h2⟩ := h
    cases hd : thunk.dest_slices_[index]? with
    | none => simp [hd] at h1
    | some dest =>
      cases hg : ShapeUtil.GetSubshape shape shape_index with
      | none => simp [hd, hg] at h1
      | some source_shape =>
        simp only [hd, hg] at h1
        obtain ⟨s1, k1, k2, k3, k4, k5⟩ := ih (index + 1)
          (stream.ThenMemcpyDeviceToDevice (buffer_allocations.GetDeviceAddress dest.slice)
            buffer buffer.size) h2
        refine ⟨s1, ?_, ?_, ?_, ?_, ?_⟩
        · intro rest
          have hstep : thunk.copyLeaves buffer_allocations shape
              ((shape_index, buffer) :: (pre ++ rest)) index stream
              = thunk.copyLeaves buffer_allocations shape (pre ++ rest) (index + 1)
                  (stream.ThenMemcpyDeviceToDevice
                    (buffer_allocations.GetDeviceAddress dest.slice) buffer buffer.size) := by
            rw [copyLeaves]
            simp only [hg, hd, h1, Bool.not_true, Bool.false_eq_true, if_false]
          rw [List.cons_append, hstep, k1 rest, List.length_cons]
          congr 1
          omega
        · rw [k2]
          simp [copiesFrom, hd, Stream.ThenMemcpyDeviceToDevice]
        · rw [k3]; rfl
        · simp [copiesFrom, hd, k4]
        · intro _
          have hlt : index < thunk.dest_slices_.length := by
            by_contra hge
            rw [List.getElem?_eq_none (Nat.le_of_not_lt hge)] at hd
            cases hd
          have := k5 hlt
          rw [List.length_cons]; omega

/-- A loop that runs to its end has found every leaf to pass the check. -/
theorem allMatch_of_copyLeaves (thunk : InfeedThunk) (buffer_allocations : BufferAllocations)
    (shape : Shape) :
    ∀ (leaves : List (ShapeIndex × DeviceMemoryBase)) (index index2 : Nat)
      (stream s1 : Stream),
      thunk.copyLeaves buffer_allocations shape leaves index stream
        = .ok (Status.ok, index2, s1) →
      thunk.allMatch shape index leaves = true := by
  intro leaves
  induction leaves with
  | nil => intro _ _ _ _ _; rfl
  | cons leaf rest ih =>
    intro index index2 stream s1 h
    obtain ⟨shape_index, buffer⟩ := leaf
    simp only [copyLeaves] at h
    cases hg : ShapeUtil.GetSubshape shape shape_index with
    | none => simp [hg] at h
    | some source_shape =>
      cases hd : thunk.dest_slices_[index]? with
      | none => simp [hg, hd] at h
      | some dest =>
        simp only [hg, hd] at h
        by_cases he : ShapeUtil.Equal dest.shape source_shape = true
        · simp only [he, Bool.not_true, Bool.false_eq_true, if_false] at h
          simp only [allMatch, shapeMatches, hd, hg, he, Bool.true_and]
          exact ih _ _ _ _ h
        · have he2 : ShapeUtil.Equal dest.shape source_shape = false := by simpa using he
          simp [he2, RetCheckFailure] at h

/-- The loop at a leaf that has a destination slice of another shape: it is
left with the failure of the check, and nothing more is enqueued. -/
theorem copyLeaves_mismatch (thunk : InfeedThunk) (buffer_allocations : BufferAllocations)
    (shape : Shape) (leaf : ShapeIndex × DeviceMemoryBase)
    (post : List (ShapeIndex × DeviceMemoryBase)) (index : Nat) (stream : Stream)
    (dest : ShapedSlice) (source_shape : Shape)
    (hdest : thunk.dest_slices_[index]? = some dest)
    (hsrc : ShapeUtil.GetSubshape shape leaf.1 = some source_shape)
    (hne : ShapeUtil.Equal dest.shape source_shape = false) :
    thunk.copyLeaves buffer_allocations shape (leaf :: post) index stream
      = .ok (RetCheckFailure "ShapeUtil::Equal(dest_slices_[index].shape, source_shape)",
          index, stream) := by
  obtain ⟨shape_index, buffer⟩ := leaf
  simp only at hsrc
  simp [copyLeaves, hsrc, hdest, hne]

/-- A run whose first leaf not to pass the check has a destination slice of
another shape returns the failure of the check, with on the stream the copies
of the leaves before that leaf and nothing else. -/
theorem ExecuteOnStream_mismatch (thunk : InfeedThunk) (stream : Stream)
    (buffer_allocations : BufferAllocations) (source_buffers : ShapeTree)
    (pre post : List (ShapeIndex × DeviceMemoryBase)) (leaf : ShapeIndex × DeviceMemoryBase)
    (dest : ShapedSlice) (source_shape : Shape)
    (hleaves : source_buffers.leaves = pre ++ leaf :: post)
    (hpre : thunk.allMatch source_buffers.shape 0 pre = true)
    (hdest : thunk.dest_slices_[pre.length]? = some dest)
    (hsrc : ShapeUtil.GetSubshape source_buffers.shape leaf.1 = some source_shape)
    (hne : ShapeUtil.Equal dest.shape source_shape = false) :
    ∃ s1 : Stream,
      thunk.ExecuteOnStream stream buffer_allocations source_buffers
        = .ok (RetCheckFailure "ShapeUtil::Equal(dest_slices_[index].shape, source_shape)", s1)
      ∧ s1.ops = stream.ops ++ thunk.copiesFrom buffer_allocations 0 pre
      ∧ (thunk.copiesFrom buffer_allocations 0 pre).length = pre.length := by
  obtain ⟨s1, k1, k2, _, k4, _⟩ :=
    copyLeaves_prefix thunk buffer_allocations source_buffers.shape pre 0 stream hpre
  refine ⟨s1, ?_, k2, k4⟩
  unfold ExecuteOnStream
  rw [hleaves, k1, Nat.zero_add,
    copyLeaves_mismatch thunk buffer_allocations source_buffers.shape leaf post pre.length s1
      dest source_shape hdest hsrc hne]
  rfl

end InfeedThunk
end gpu

namespace gpu
namespace InfeedThunk

/-- The copy at position `i` among the copies of a list of leaves. -/
theorem copiesFrom_getElem? (thunk : InfeedThunk) (buffer_allocations : BufferAllocations) :
    ∀ (leaves : List (ShapeIndex × DeviceMemoryBase)) (index i : Nat)
      (leaf : ShapeIndex × DeviceMemoryBase) (dest : ShapedSlice),
      leaves[i]? = some leaf → thunk.dest_slices_[index + i]? = some dest →
      (thunk.copiesFrom buffer_allocations index leaves)[i]?
        = some (.memcpy_d2d (buffer_allocations.GetDeviceAddress dest.slice) leaf.2
            leaf.2.size) := by
  intro leaves
  induction leaves with
  | nil => intro index i leaf dest h; simp at h
  | cons l rest ih =>
    intro index i leaf dest hl hd
    cases i with
    | zero =>
      simp only [List.getElem?_cons_zero, Option.some.injEq] at hl
      subst hl
      simp only [Nat.add_zero] at hd
      simp [copiesFrom, hd]
    | succ i =>
      simp only [List.getElem?_cons_succ] at hl
      have hlt : index < thunk.dest_slices_.length := by
        by_contra hge
        rw [List.getElem?_eq_none (by omega)] at hd
        cases hd
      obtain ⟨d0, hd0⟩ : ∃ d0, thunk.dest_slices_[index]? = some d0 :=
        ⟨_, List.getElem?_eq_getElem hlt⟩
      have hd2 : thunk.dest_slices_[index + 1 + i]? = some dest := by
        rw [← hd]; congr 1; omega
      simp only [copiesFrom, hd0, List.getElem?_cons_succ]
      exact ih (index + 1) i leaf dest hl hd2

/-- A run whose loop runs to its end: the loop has gone through all the
leaves, one copy each; the run then returns when the leaves are as many as the
destination slices (with the wait as its last operation), and aborts on the
fatal check when they are not. -/
theorem ExecuteOnStream_past_loop (thunk : InfeedThunk) (stream : Stream)
    (buffer_allocations : BufferAllocations) (source_buffers : ShapeTree)
    (index : Nat) (s1 : Stream)
    (hloop : thunk.copyLeaves buffer_allocations source_buffers.shape source_buffers.leaves 0
      stream = .ok (Status.ok, index, s1)) :
    index = source_buffers.leaves.length
    ∧ s1.ops = stream.ops ++ thunk.copiesFrom buffer_allocations 0 source_buffers.leaves
    ∧ (thunk.copiesFrom buffer_allocations 0 source_buffers.leaves).length
        = source_buffers.leaves.length
    ∧ source_buffers.leaves.length ≤ thunk.dest_slices_.length
    ∧ (source_buffers.leaves.length = thunk.dest_slices_.length →
        ∃ status, thunk.ExecuteOnStream stream buffer_allocations source_buffers
          = .ok (status, s1.BlockHostUntilDone.2))
    ∧ (source_buffers.leaves.length ≠ thunk.dest_slices_.length →
        thunk.ExecuteOnStream stream buffer_allocations source_buffers
          = .error .check_failed) := by
  have hall := allMatch_of_copyLeaves thunk buffer_allocations source_buffers.shape _ _ _ _ _
    hloop
  obtain ⟨s1b, k1, k2, _, k4, k5⟩ :=
    copyLeaves_prefix thunk buffer_allocations source_buffers.shape source_buffers.leaves 0
      stream hall
  have hk := k1 []
  rw [List.append_nil, hloop] at hk
  simp only [copyLeaves, Nat.zero_add, Except.ok.injEq, Prod.mk.injEq, true_and] at hk
  obtain ⟨hi, hs⟩ := hk
  subst hs
  have hle := k5 (Nat.zero_le _)
  rw [Nat.zero_add] at hle
  refine ⟨hi, k2, k4, hle, ?_, ?_⟩
  · intro hlen
    unfold ExecuteOnStream
    rw [hloop]
    have hb : (index != thunk.dest_slices_.length) = false := by
      simp [hi, hlen]
    simp only [hb, Bool.false_eq_true, if_false]
    cases hst : s1.status with
    | ok => exact ⟨Status.ok, by simp [Stream.BlockHostUntilDone, hst]⟩
    | error code message =>
      exact ⟨InternalError ("Failed to complete data transfer on stream: " ++ message),
        by simp [Stream.BlockHostUntilDone, hst]⟩
  · intro hlen
    unfold ExecuteOnStream
    rw [hloop]
    have hb : (index != thunk.dest_slices_.length) = true := by
      simp [hi, hlen]
    simp [hb]

end InfeedThunk
end gpu

/-! ### Claims about the infeed thunk -/

/-- C22: `InfeedThunk::ExecuteOnStream` checks the shape of each leaf against
the shape of the destination slice at the same position before it enqueues the
copy of that leaf.  When the leaves `pre` before a leaf all pass the check and
that leaf has a destination slice whose shape is not exactly equal to its own,
the run fails with the failure of the check, and the stream holds, after what
it held, exactly the copies of the leaves of `pre`, one each: none for the
mismatching leaf, none for a later leaf.  (A mismatch at the second leaf: one
copy.) -/
theorem C22_copies_only_before_first_mismatch (thunk : gpu.InfeedThunk) (stream : Stream)
    (buffer_allocations : gpu.BufferAllocations) (source_buffers : gpu.ShapeTree)
    (pre post : List (ShapeIndex × DeviceMemoryBase)) (leaf : ShapeIndex × DeviceMemoryBase)
    (dest : gpu.ShapedSlice) (source_shape : Shape)
    (hleaves : source_buffers.leaves = pre ++ leaf :: post)
    (hpre : thunk.allMatch source_buffers.shape 0 pre = true)
    (hdest : thunk.dest_slices_[pre.length]? = some dest)
    (hsrc : ShapeUtil.GetSubshape source_buffers.shape leaf.1 = some source_shape)
    (hne : ShapeUtil.Equal dest.shape source_shape = false) :
    ∃ (status : Status) (s1 : Stream),
      thunk.ExecuteOnStream stream buffer_allocations source_buffers = .ok (status, s1)
      ∧ status ≠ Status.ok
      ∧ s1.ops = stream.ops ++ thunk.copiesFrom buffer_allocations 0 pre
      ∧ (thunk.copiesFrom buffer_allocations 0 pre).length = pre.length
      ∧ (∀ op ∈ thunk.copiesFrom buffer_allocations 0 pre, op.isDeviceToDevice = true)
      ∧ ∀ (i : Nat) (before : ShapeIndex × DeviceMemoryBase) (slice : gpu.ShapedSlice),
          pre[i]? = some before → thunk.dest_slices_[i]? = some slice →
          (thunk.copiesFrom buffer_allocations 0 pre)[i]?
            = some (StreamOp.memcpy_d2d (buffer_allocations.GetDeviceAddress slice.slice)
                before.2 before.2.size) := by
  obtain ⟨s1, h1, h2, h3⟩ := gpu.InfeedThunk.ExecuteOnStream_mismatch thunk stream
    buffer_allocations source_buffers pre post leaf dest source_shape hleaves hpre hdest hsrc
    hne
  have hget : ∀ (i : Nat) (before : ShapeIndex × DeviceMemoryBase) (slice : gpu.ShapedSlice),
      pre[i]? = some before → thunk.dest_slices_[i]? = some slice →
      (thunk.copiesFrom buffer_allocations 0 pre)[i]?
        = some (StreamOp.memcpy_d2d (buffer_allocations.GetDeviceAddress slice.slice)
            before.2 before.2.size) := by
    intro i before slice hb hs
    exact gpu.InfeedThunk.copiesFrom_getElem? thunk buffer_allocations pre 0 i before slice hb
      (by rw [Nat.zero_add]; exact hs)
  refine ⟨_, s1, h1, by simp [RetCheckFailure], h2, h3, ?_, hget⟩
  intro op hop
  obtain ⟨i, hi, hop2⟩ := List.getElem_of_mem hop
  have hi2 : i < pre.length := by rw [← h3]; exact hi
  have hple := (gpu.InfeedThunk.copyLeaves_prefix thunk buffer_allocations
    source_buffers.shape pre 0 stream hpre).choose_spec.2.2.2.2 (Nat.zero_le _)
  have hi3 : i < thunk.dest_slices_.length := by omega
  have := hget i pre[i] thunk.dest_slices_[i] (List.getElem?_eq_getElem hi2)
    (List.getElem?_eq_getElem hi3)
  rw [List.getElem?_eq_getElem hi, Option.some.injEq] at this
  rw [← hop2, this]
  rfl

/-- Witness for C22 (Scenario D): two leaves `u8[2]`, the second destination
slice declared `u8[3]`: the run fails with exactly one copy enqueued, that of
the first leaf into the first slice. -/
theorem C22_copies_only_before_first_mismatch_witness :
    ∃ (status : Status) (s1 : Stream),
      Example.thunkSecondDiffers.ExecuteOnStream Example.stream Example.allocations
        Example.twoVectors = .ok (status, s1)
      ∧ status ≠ Status.ok
      ∧ s1.ops = Example.stream.ops
          ++ Example.thunkSecondDiffers.copiesFrom Example.allocations 0 [([0], ⟨100, 2⟩)]
      ∧ (Example.thunkSecondDiffers.copiesFrom Example.allocations 0
          [([0], ⟨100, 2⟩)]).length = 1 := by
  obtain ⟨status, s1, h1, h2, h3, h4, _⟩ :=
    C22_copies_only_before_first_mismatch Example.thunkSecondDiffers Example.stream
      Example.allocations Example.twoVectors [([0], ⟨100, 2⟩)] [] ([1], ⟨200, 2⟩)
      ⟨1, .array Example.u8 [3] [false] [0]⟩ (.array Example.u8 [2] [false] [0])
      rfl rfl rfl rfl rfl
  exact ⟨status, s1, h1, h2, h3, h4⟩

/-- C23, as stated, fails: the check of the shapes is a `TF_RET_CHECK`, which
returns its failure as a status.  With two leaves `u8[2]` and the second
destination slice declared `u8[3]`, `ExecuteOnStream` returns to its caller,
with the internal error of the failed check; the run is not aborted. -/
theorem C23_mismatch_returns_counterexample :
    (∃ s1 : Stream,
      Example.thunkSecondDiffers.ExecuteOnStream Example.stream Example.allocations
          Example.twoVectors
        = .ok (Status.error 13 "ShapeUtil::Equal(dest_slices_[index].shape, source_shape)",
            s1))
    ∧ (Example.thunkSecondDiffers.dest_slices_[1]?).map (fun dest => dest.slice) = some 1
    ∧ ShapeUtil.GetSubshape Example.twoVectors.shape [1]
        = some (.array Example.u8 [2] [false] [0])
    ∧ ShapeUtil.Equal (.array Example.u8 [3] [false] [0]) (.array Example.u8 [2] [false] [0])
        = false :=
  ⟨⟨_, rfl⟩, rfl, rfl, rfl⟩

/-- C23, amended: a mismatch between the shape of an infeed source leaf and
the shape of the destination slice at its position is reported as an internal
error: `InfeedThunk::ExecuteOnStream` returns the failure of the check (code
INTERNAL) to its caller as a status, and the run ends with no fault: the
process is not terminated. -/
theorem C23_mismatch_is_returned_as_status (thunk : gpu.InfeedThunk) (stream : Stream)
    (buffer_allocations : gpu.BufferAllocations) (source_buffers : gpu.ShapeTree)
    (pre post : List (ShapeIndex × DeviceMemoryBase)) (leaf : ShapeIndex × DeviceMemoryBase)
    (dest : gpu.ShapedSlice) (source_shape : Shape)
    (hleaves : source_buffers.leaves = pre ++ leaf :: post)
    (hpre : thunk.allMatch source_buffers.shape 0 pre = true)
    (hdest : thunk.dest_slices_[pre.length]? = some dest)
    (hsrc : ShapeUtil.GetSubshape source_buffers.shape leaf.1 = some source_shape)
    (hne : ShapeUtil.Equal dest.shape source_shape = false) :
    (∃ s1 : Stream,
      thunk.ExecuteOnStream stream buffer_allocations source_buffers
        = .ok (Status.error 13 "ShapeUtil::Equal(dest_slices_[index].shape, source_shape)",
            s1))
    ∧ ∀ fault, thunk.ExecuteOnStream stream buffer_allocations source_buffers
        ≠ .error fault := by
  obtain ⟨s1, h1, _, _⟩ := gpu.InfeedThunk.ExecuteOnStream_mismatch thunk stream
    buffer_allocations source_buffers pre post leaf dest source_shape hleaves hpre hdest hsrc
    hne
  refine ⟨⟨s1, h1⟩, ?_⟩
  intro fault hf
  rw [h1] at hf
  cases hf

/-- Witness for C23 amended: a single leaf `u8[2]` whose only destination
slice is declared `u8[3]`. -/
theorem C23_mismatch_is_returned_as_status_witness :
    (∃ s1 : Stream,
      gpu.InfeedThunk.ExecuteOnStream ⟨[⟨0, .array Example.u8 [3] [false] [0]⟩]⟩
          Example.stream Example.allocations ⟨.array Example.u8 [2] [false] [0], fun _ => ⟨100, 2⟩⟩
        = .ok (Status.error 13 "ShapeUtil::Equal(dest_slices_[index].shape, source_shape)",
            s1))
    ∧ ∀ fault, gpu.InfeedThunk.ExecuteOnStream ⟨[⟨0, .array Example.u8 [3] [false] [0]⟩]⟩
          Example.stream Example.allocations ⟨.array Example.u8 [2] [false] [0], fun _ => ⟨100, 2⟩⟩
        ≠ .error fault :=
  C23_mismatch_is_returned_as_status ⟨[⟨0, .array Example.u8 [3] [false] [0]⟩]⟩
    Example.stream Example.allocations ⟨.array Example.u8 [2] [false] [0], fun _ => ⟨100, 2⟩⟩
    [] [] ([], ⟨100, 2⟩) ⟨0, .array Example.u8 [3] [false] [0]⟩
    (.array Example.u8 [2] [false] [0]) rfl rfl rfl rfl rfl

/-- C27 does not hold of the code: `dest_slices_[index]` is read with no check
of `index` against the number of destination slices, and the count of the
leaves is compared with it only after the loop.  When the tree has more leaves
than there are destination slices and the leaves `pre` that have a slice all
pass the check, the next leaf reads `dest_slices_` at the index that equals
its size, one past its last entry. -/
theorem C27_destination_slice_read_past_the_end (thunk : gpu.InfeedThunk) (stream : Stream)
    (buffer_allocations : gpu.BufferAllocations) (source_buffers : gpu.ShapeTree)
    (pre post : List (ShapeIndex × DeviceMemoryBase)) (leaf : ShapeIndex × DeviceMemoryBase)
    (source_shape : Shape)
    (hleaves : source_buffers.leaves = pre ++ leaf :: post)
    (hpre : thunk.allMatch source_buffers.shape 0 pre = true)
    (hlen : pre.length = thunk.dest_slices_.length)
    (hsrc : ShapeUtil.GetSubshape source_buffers.shape leaf.1 = some source_shape) :
    thunk.ExecuteOnStream stream buffer_allocations source_buffers
        = .error (.out_of_bounds thunk.dest_slices_.length)
    ∧ thunk.dest_slices_[thunk.dest_slices_.length]? = none
    ∧ thunk.dest_slices_.length < source_buffers.leaves.length := by
  obtain ⟨s1, k1, _⟩ := gpu.InfeedThunk.copyLeaves_prefix thunk buffer_allocations
    source_buffers.shape pre 0 stream hpre
  have hnone : thunk.dest_slices_[thunk.dest_slices_.length]? = none :=
    List.getElem?_eq_none (Nat.le_refl _)
  refine ⟨?_, hnone, ?_⟩
  · obtain ⟨shape_index, buffer⟩ := leaf
    simp only at hsrc
    unfold gpu.InfeedThunk.ExecuteOnStream
    rw [hleaves, k1, Nat.zero_add, hlen]
    simp [gpu.InfeedThunk.copyLeaves, hsrc, hnone]
  · rw [hleaves, List.length_append, List.length_cons, hlen]
    omega

/-- Witness for C27: two leaves and a single destination slice: the first leaf
is copied, the second reads `dest_slices_[1]` of a vector of size 1. -/
theorem C27_destination_slice_read_past_the_end_witness :
    Example.thunkOfOne.ExecuteOnStream Example.stream Example.allocations Example.twoVectors
        = .error (.out_of_bounds 1)
    ∧ Example.thunkOfOne.dest_slices_.length = 1
    ∧ Example.twoVectors.leaves.length = 2 :=
  ⟨(C27_destination_slice_read_past_the_end Example.thunkOfOne Example.stream
      Example.allocations Example.twoVectors [([0], ⟨100, 2⟩)] [] ([1], ⟨200, 2⟩)
      (.array Example.u8 [2] [false] [0]) rfl rfl rfl rfl).1, rfl, rfl⟩

/-! ### Tuple index tables -/

namespace GenericTransferManager

/-- A step of `WriteTupleIndexTablesAsync` that succeeds has enqueued what
`tableOps` lists for its node. -/
theorem writeTable_ok_ops (tm : GenericTransferManager) (device_buffer : ShapedBuffer)
    (node : Shape × ShapeIndex) (s s1 : Stream)
    (h : (if node.1.IsTuple then
          some (tm.WriteSingleTupleIndexTable s
            ((List.range (ShapeUtil.TupleElementCount node.1)).map fun i =>
              device_buffer.buffers (node.2 ++ [i]))
            node.1 (device_buffer.buffers node.2))
        else some (Status.ok, s)) = some (Status.ok, s1)) :
    s1.ops = s.ops ++ tm.tableOps device_buffer node := by
  by_cases ht : node.1.IsTuple = true
  · simp only [ht, if_true, WriteSingleTupleIndexTable, List.length_map, List.length_range,
      bne_self_eq_false, Bool.false_eq_true, if_false, Option.some.injEq] at h
    by_cases hlt : (device_buffer.buffers node.2).size < tm.GetByteSizeRequirement node.1
    · simp [TransferBufferToDevice, hlt] at h
    · simp only [TransferBufferToDevice, hlt, if_false, Prod.mk.injEq, true_and] at h
      subst h
      simp [tableOps, ht, Stream.ThenDoHostCallback, Stream.ThenMemcpyToDevice,
        Function.comp_def]
  · simp only [ht, Bool.false_eq_true, if_false, Option.some.injEq, Prod.mk.injEq,
      true_and] at h
    subst h
    simp [tableOps, ht]

/-- A successful `WriteTupleIndexTablesAsync` has enqueued the operations of
`tableOps` node by node, and nothing else. -/
theorem WriteTupleIndexTablesAsync_ok_ops (tm : GenericTransferManager) (stream s0 : Stream)
    (device_buffer : ShapedBuffer)
    (h : tm.WriteTupleIndexTablesAsync stream device_buffer = some (Status.ok, s0)) :
    s0.ops = stream.ops
      ++ (device_buffer.on_device_shape.subshapes []).flatMap (tm.tableOps device_buffer) := by
  unfold WriteTupleIndexTablesAsync ShapeUtil.ForEachSubshapeWithStatus at h
  exact ShapeUtil.visit_trace _ Stream.ops (tm.tableOps device_buffer)
    (fun e s s1 hstep => tm.writeTable_ok_ops device_buffer e s s1 hstep) _ stream s0 h

/-- What `tableOps` lists holds one copy to the device for a tuple node and
none for an array. -/
theorem tableOps_count (tm : GenericTransferManager) (device_buffer : ShapedBuffer)
    (node : Shape × ShapeIndex) :
    (tm.tableOps device_buffer node).countP StreamOp.isHostToDevice
      = if node.1.IsTuple then 1 else 0 := by
  by_cases ht : node.1.IsTuple = true
  · simp [tableOps, ht, StreamOp.isHostToDevice]
  · simp [tableOps, ht]

end GenericTransferManager

/-- C25: in a call of `TransferLiteralToDeviceAsync` that returns ok, the
stream holds, after what it held, first the operations of the tuple index
tables and then those of the array leaves: every index table write precedes
every copy of leaf data.  The table part has, for each tuple node of the
on-device shape in the order of the visit, one write to the device of the
addresses of its children into the region of the node (followed by its host
callback): as many writes as there are tuple nodes.  For a device buffer whose
shape is an array the table part is empty. -/
theorem C25_index_tables_before_leaf_copies (tm : GenericTransferManager)
    (stream s2 : Stream) (literal : Literal) (device_buffer : ShapedBuffer)
    (hcall : tm.TransferLiteralToDeviceAsync stream literal device_buffer
      = some (Status.ok, s2)) :
    s2.ops = stream.ops
        ++ (device_buffer.on_device_shape.subshapes []).flatMap (tm.tableOps device_buffer)
        ++ (device_buffer.on_device_shape.subshapes []).flatMap
            (tm.leafCopyOps literal device_buffer)
    ∧ ((device_buffer.on_device_shape.subshapes []).flatMap
          (tm.tableOps device_buffer)).countP StreamOp.isHostToDevice
        = (device_buffer.on_device_shape.subshapes []).countP (fun node => node.1.IsTuple)
    ∧ (∀ node ∈ device_buffer.on_device_shape.subshapes [], node.1.IsTuple = true →
        tm.tableOps device_buffer node
          = [.memcpy_h2d (device_buffer.buffers node.2)
              (.pointers ((List.range (ShapeUtil.TupleElementCount node.1)).map fun i =>
                (device_buffer.buffers (node.2 ++ [i])).address))
              (tm.GetByteSizeRequirement node.1),
             .host_callback])
    ∧ (∀ node ∈ device_buffer.on_device_shape.subshapes [], node.1.IsTuple = false →
        tm.tableOps device_buffer node = [])
    ∧ (device_buffer.on_device_shape.IsArray = true →
        (device_buffer.on_device_shape.subshapes []).flatMap (tm.tableOps device_buffer)
          = []) := by
  obtain ⟨s0, htables, hvisit⟩ :=
    tm.TransferLiteralToDeviceAsync_ok_phases stream s2 literal device_buffer hcall
  have h0 := tm.WriteTupleIndexTablesAsync_ok_ops stream s0 device_buffer htables
  have h2 := ShapeUtil.visit_trace _ Stream.ops (tm.leafCopyOps literal device_buffer)
    (fun e s s1 h => (tm.transferLeafToDevice_ok_ops literal device_buffer e.1 e.2 s s1 h).1)
    _ s0 s2 hvisit
  refine ⟨by rw [h2, h0], ?_, ?_, ?_, ?_⟩
  · exact List.countP_flatMap_indicator _ _ _ _
      fun e _ => tm.tableOps_count device_buffer e
  · intro node _ ht
    simp [GenericTransferManager.tableOps, ht]
  · intro node _ ht
    simp [GenericTransferManager.tableOps, ht]
  · intro harr
    cases hs : device_buffer.on_device_shape with
    | tuple l => rw [hs] at harr; simp [Shape.IsArray] at harr
    | array t dims dyn m2m =>
      simp [Shape.subshapes, GenericTransferManager.tableOps, Shape.IsTuple]

/-- Witness for C25: the tuple of a matrix and a vector sent to its device
buffer: the write of the index table (16 bytes) and its callback come first,
then the copies of the two leaves; a matrix sent to an array buffer has no
table write. -/
theorem C25_index_tables_before_leaf_copies_witness :
    (∃ s2 : Stream,
      Example.manager.TransferLiteralToDeviceAsync Example.stream Example.tupleValue
          Example.tupleBuffer = some (Status.ok, s2)
      ∧ s2.ops = Example.stream.ops
          ++ (Example.tupleBuffer.on_device_shape.subshapes []).flatMap
              (Example.manager.tableOps Example.tupleBuffer)
          ++ (Example.tupleBuffer.on_device_shape.subshapes []).flatMap
              (Example.manager.leafCopyOps Example.tupleValue Example.tupleBuffer))
    ∧ ((Example.tupleBuffer.on_device_shape.subshapes []).flatMap
          (Example.manager.tableOps Example.tupleBuffer)).map StreamOp.summary
        = [(true, false, false, 16), (false, false, false, 0)]
    ∧ ((Example.tupleBuffer.on_device_shape.subshapes []).flatMap
          (Example.manager.leafCopyOps Example.tupleValue Example.tupleBuffer)).map
            StreamOp.summary
        = [(true, false, false, 4), (false, false, true, 0), (true, false, false, 2)]
    ∧ (Example.columnMajorBuffer.on_device_shape.subshapes []).flatMap
          (Example.manager.tableOps Example.columnMajorBuffer) = [] :=
  ⟨⟨_, rfl, (C25_index_tables_before_leaf_copies Example.manager Example.stream _
      Example.tupleValue Example.tupleBuffer rfl).1⟩, rfl, rfl, rfl⟩

/-- C26 as stated fails: a tuple shape with two children and a list of two
child regions, but an index-table region of 8 bytes where the table requires
16.  The number of elements is the element count of the tuple, yet the
buffered write is refused: `WriteSingleTupleIndexTable` returns that error,
the stream is as it was, and neither a write nor the host callback is
enqueued. -/
theorem C26_refused_write_counterexample :
    ([⟨100, 4⟩, ⟨200, 2⟩] : List DeviceMemoryBase).length
        = ShapeUtil.TupleElementCount Example.tupleBuffer.on_device_shape
    ∧ Example.manager.GetByteSizeRequirement Example.tupleBuffer.on_device_shape = 16
    ∧ (Example.manager.WriteSingleTupleIndexTable Example.stream [⟨100, 4⟩, ⟨200, 2⟩]
          Example.tupleBuffer.on_device_shape ⟨10, 8⟩).1
        = Status.error 9 "Destination allocation on device not large enough for data transfer"
    ∧ (Example.manager.WriteSingleTupleIndexTable Example.stream [⟨100, 4⟩, ⟨200, 2⟩]
          Example.tupleBuffer.on_device_shape ⟨10, 8⟩).2.ops = []
    ∧ (Example.manager.WriteSingleTupleIndexTable Example.stream [⟨100, 4⟩, ⟨200, 2⟩]
          Example.tupleBuffer.on_device_shape ⟨10, 8⟩).2.ops.countP StreamOp.isHostToDevice
        = 0 :=
  ⟨rfl, rfl, rfl, rfl, rfl⟩

/-- C26, amended: given as many elements as the tuple shape has children and
an index-table region that holds at least `GetByteSizeRequirement(shape)`
bytes (the buffered write is accepted), `WriteSingleTupleIndexTable` issues
one write to the device, into the index-table region, of a host array of
pointers with one entry for each element, the `i`-th being the address of the
`i`-th element, of `GetByteSizeRequirement(shape)` bytes, and then enqueues
the host callback that keeps the array; it returns ok.  Given as many elements
and a smaller region, the buffered write is refused: its error is returned and
the stream is as it was, with neither write nor callback; more generally every
error of the buffered write is returned as it is, with the stream that write
left and no callback.  Given another number of elements it returns the failure
of its check and the stream is as it was: no write is issued. -/
theorem C26_index_table_of_child_addresses (tm : GenericTransferManager) (stream : Stream)
    (elements : List DeviceMemoryBase) (shape : Shape) (region : DeviceMemoryBase) :
    (elements.length = ShapeUtil.TupleElementCount shape →
      tm.GetByteSizeRequirement shape ≤ region.size →
      tm.WriteSingleTupleIndexTable stream elements shape region
          = (Status.ok,
              (stream.ThenMemcpyToDevice region
                (.pointers (elements.map fun element => element.address))
                (tm.GetByteSizeRequirement shape)).ThenDoHostCallback)
        ∧ (tm.WriteSingleTupleIndexTable stream elements shape region).2.ops
          = stream.ops
            ++ [.memcpy_h2d region (.pointers (elements.map fun element => element.address))
                  (tm.GetByteSizeRequirement shape),
                .host_callback]
        ∧ (elements.map fun element => element.address).length = elements.length
        ∧ ∀ (i : Nat) (element : DeviceMemoryBase), elements[i]? = some element →
            (elements.map fun element => element.address)[i]? = some element.address)
    ∧ (elements.length ≠ ShapeUtil.TupleElementCount shape →
        tm.WriteSingleTupleIndexTable stream elements shape region
          = (RetCheckFailure "elements.size() == ShapeUtil::TupleElementCount(shape)", stream))
    ∧ (∀ tuple_shapes : List Shape,
        ShapeUtil.TupleElementCount (.tuple tuple_shapes) = tuple_shapes.length
        ∧ tm.GetByteSizeRequirement (.tuple tuple_shapes)
          = tm.pointer_size_ * tuple_shapes.length)
    ∧ (elements.length = ShapeUtil.TupleElementCount shape →
        region.size < tm.GetByteSizeRequirement shape →
        tm.WriteSingleTupleIndexTable stream elements shape region
          = (Status.error 9 "Destination allocation on device not large enough for data transfer",
              stream))
    ∧ (elements.length = ShapeUtil.TupleElementCount shape →
        ∀ (code : Nat) (message : String) (stream2 : Stream),
          GenericTransferManager.TransferBufferToDevice stream (tm.GetByteSizeRequirement shape)
              (.pointers (elements.map fun element => element.address)) region
            = (Status.error code message, stream2) →
          tm.WriteSingleTupleIndexTable stream elements shape region
            = (Status.error code message, stream2)) := by
  refine ⟨?_, ?_, ?_, ?_, ?_⟩
  · intro hlen hsize
    have hb : (elements.length != ShapeUtil.TupleElementCount shape) = false := by
      simp [hlen]
    have hret : tm.WriteSingleTupleIndexTable stream elements shape region
        = (Status.ok,
            (stream.ThenMemcpyToDevice region
              (.pointers (elements.map fun element => element.address))
              (tm.GetByteSizeRequirement shape)).ThenDoHostCallback) := by
      simp only [GenericTransferManager.WriteSingleTupleIndexTable, hb, Bool.false_eq_true,
        if_false]
      rw [GenericTransferManager.TransferBufferToDevice_ok _ _ _ _ hsize]
    refine ⟨hret, ?_, by simp, ?_⟩
    · rw [hret]
      simp [Stream.ThenDoHostCallback, Stream.ThenMemcpyToDevice]
    · intro i element hi
      simp [hi]
  · intro hlen
    have hb : (elements.length != ShapeUtil.TupleElementCount shape) = true := by
      simpa using hlen
    simp [GenericTransferManager.WriteSingleTupleIndexTable, hb]
  · intro tuple_shapes
    exact ⟨rfl, tm.GetByteSizeRequirement_static_or_tuple _ (Or.inr rfl)⟩
  · intro hlen hsize
    have hb : (elements.length != ShapeUtil.TupleElementCount shape) = false := by
      simp [hlen]
    simp [GenericTransferManager.WriteSingleTupleIndexTable, hb,
      GenericTransferManager.TransferBufferToDevice, hsize]
  · intro hlen code message stream2 hwrite
    have hb : (elements.length != ShapeUtil.TupleElementCount shape) = false := by
      simp [hlen]
    simp only [GenericTransferManager.WriteSingleTupleIndexTable, hb, Bool.false_eq_true,
      if_false, hwrite]

/-- Witness for C26: the table of a tuple of two children at addresses 100 and
200, written into 16 bytes at address 10: one write of 16 bytes, then the
callback; with one element only, the check fails and nothing is written; with
two elements and 8 bytes only at address 10, the write is refused and nothing
is written. -/
theorem C26_index_table_of_child_addresses_witness :
    (Example.manager.WriteSingleTupleIndexTable Example.stream [⟨100, 4⟩, ⟨200, 2⟩]
        Example.tupleBuffer.on_device_shape ⟨10, 16⟩).2.ops
      = [.memcpy_h2d ⟨10, 16⟩ (.pointers [100, 200]) 16, .host_callback]
    ∧ Example.manager.WriteSingleTupleIndexTable Example.stream [⟨100, 4⟩]
        Example.tupleBuffer.on_device_shape ⟨10, 16⟩
      = (RetCheckFailure "elements.size() == ShapeUtil::TupleElementCount(shape)",
          Example.stream)
    ∧ Example.manager.WriteSingleTupleIndexTable Example.stream [⟨100, 4⟩, ⟨200, 2⟩]
        Example.tupleBuffer.on_device_shape ⟨10, 8⟩
      = (Status.error 9 "Destination allocation on device not large enough for data transfer",
          Example.stream) :=
  ⟨((C26_index_table_of_child_addresses Example.manager Example.stream [⟨100, 4⟩, ⟨200, 2⟩]
      Example.tupleBuffer.on_device_shape ⟨10, 16⟩).1 rfl (by decide)).2.1,
   (C26_index_table_of_child_addresses Example.manager Example.stream [⟨100, 4⟩]
      Example.tupleBuffer.on_device_shape ⟨10, 16⟩).2.1 (by decide),
   (C26_index_table_of_child_addresses Example.manager Example.stream [⟨100, 4⟩, ⟨200, 2⟩]
      Example.tupleBuffer.on_device_shape ⟨10, 8⟩).2.2.2.1 rfl (by decide)⟩

/-! ### Permutations -/

/-- A checked access at an index that is not negative is the access at that
place. -/
theorem vector_at_natCast (v : List Int) (m : Nat) : vector_at v (m : Int) = v[m]? := by
  simp [vector_at]

/-- The loop of `IsPermutation` returns from every state whose table has the
size of the list, and returns true exactly when the entries that remain are
distinct, within the range, and not yet marked as seen. -/
theorem IsPermutation.loop_spec (n : Nat) :
    ∀ (rest : List Int) (seen : List Bool), seen.length = n →
      ∃ b, IsPermutation.loop n rest seen = some b
        ∧ (b = true ↔ rest.Nodup
            ∧ ∀ x ∈ rest, 0 ≤ x ∧ x < (n : Int) ∧ seen[x.toNat]? = some false) := by
  intro rest
  induction rest with
  | nil => intro seen _; exact ⟨true, rfl, by simp⟩
  | cons p rest ih =>
    intro seen hlen
    by_cases hp : p < 0 ∨ (n : Int) ≤ p
    · refine ⟨false, ?_, ?_⟩
      · have : (decide (p < 0) || decide (p ≥ (n : Int))) = true := by
          simpa using hp
        simp [IsPermutation.loop, this]
      · simp only [Bool.false_eq_true, false_iff, not_and]
        intro _ hall
        have := hall p (List.mem_cons_self _ _)
        omega
    · have hp0 : 0 ≤ p := by omega
      have hpn : p < (n : Int) := by omega
      have hcond : (decide (p < 0) || decide (p ≥ (n : Int))) = false := by
        simp; omega
      have hlt : p.toNat < seen.length := by omega
      have hget : seen[p.toNat]? = some seen[p.toNat] := List.getElem?_eq_getElem hlt
      cases hs : seen[p.toNat] with
      | true =>
        refine ⟨false, ?_, ?_⟩
        · simp [IsPermutation.loop, hcond, hget, hs]
        · simp only [Bool.false_eq_true, false_iff, not_and]
          intro _ hall
          have := (hall p (List.mem_cons_self _ _)).2.2
          rw [hget, hs] at this
          cases this
      | false =>
        obtain ⟨b, hb, hiff⟩ := ih (seen.set p.toNat true) (by simp [hlen])
        refine ⟨b, ?_, ?_⟩
        · simp [IsPermutation.loop, hcond, hget, hs, hb]
        · rw [hiff, List.nodup_cons]
          constructor
          · rintro ⟨hnd, hall⟩
            refine ⟨⟨?_, hnd⟩, ?_⟩
            · intro hmem
              have := (hall p hmem).2.2
              rw [List.getElem?_set_self (by omega)] at this
              cases this
            · intro x hx
              rcases List.mem_cons.1 hx with rfl | hx
              · exact ⟨hp0, hpn, by rw [hget, hs]⟩
              · obtain ⟨h0, h1, h2⟩ := hall x hx
                refine ⟨h0, h1, ?_⟩
                by_cases hxp : p.toNat = x.toNat
                · rw [← hxp, List.getElem?_set_self (by omega)] at h2
                  cases h2
                · rwa [List.getElem?_set_ne hxp] at h2
          · rintro ⟨⟨hnot, hnd⟩, hall⟩
            refine ⟨hnd, ?_⟩
            intro x hx
            obtain ⟨h0, h1, h2⟩ := hall x (List.mem_cons_of_mem _ hx)
            refine ⟨h0, h1, ?_⟩
            have hne : p.toNat ≠ x.toNat := by
              intro h
              apply hnot
              have : p = x := by omega
              rw [this]; exact hx
            rwa [List.getElem?_set_ne hne]

/-- `IsPermutation` returns, and returns true exactly for a list of distinct
entries all within the range of its places. -/
theorem IsPermutation_spec (v : List Int) :
    ∃ b, IsPermutation v = some b
      ∧ (b = true ↔ v.Nodup ∧ ∀ x ∈ v, 0 ≤ x ∧ x < (v.length : Int)) := by
  obtain ⟨b, hb, hiff⟩ := IsPermutation.loop_spec v.length v
    (List.replicate v.length false) (by simp)
  refine ⟨b, hb, ?_⟩
  rw [hiff]
  constructor
  · rintro ⟨hnd, hall⟩
    exact ⟨hnd, fun x hx => ⟨(hall x hx).1, (hall x hx).2.1⟩⟩
  · rintro ⟨hnd, hall⟩
    refine ⟨hnd, fun x hx => ⟨(hall x hx).1, (hall x hx).2, ?_⟩⟩
    have := hall x hx
    rw [List.getElem?_replicate]
    simp; omega


/-- Pigeonhole: a list of `n` distinct integers of `[0, n)` has them all. -/
theorem mem_of_nodup_of_range (v : List Int) (hnd : v.Nodup)
    (hall : ∀ x ∈ v, 0 ≤ x ∧ x < (v.length : Int)) :
    ∀ k : Nat, k < v.length → (k : Int) ∈ v := by
  have hnd2 : (v.map Int.toNat).Nodup := by
    refine (List.nodup_map_iff_inj_on hnd).2 ?_
    intro x hx y hy hxy
    have := hall x hx
    have := hall y hy
    omega
  have hsub : v.map Int.toNat ⊆ List.range v.length := by
    intro m hm
    obtain ⟨x, hx, rfl⟩ := List.mem_map.1 hm
    have := hall x hx
    exact List.mem_range.2 (by omega)
  have hperm : (v.map Int.toNat).Perm (List.range v.length) :=
    (List.subperm_of_subset hnd2 hsub).perm_of_length_le (by simp)
  intro k hk
  have hmem : k ∈ v.map Int.toNat := hperm.mem_iff.2 (List.mem_range.2 hk)
  obtain ⟨x, hx, hxk⟩ := List.mem_map.1 hmem
  have := hall x hx
  have : x = (k : Int) := by omega
  rw [← this]; exact hx

/-- Holding every number below the length exactly once is the same as holding
distinct numbers below the length only. -/
theorem ContainsEachOnce_iff (v : List Int) :
    ContainsEachOnce v ↔ v.Nodup ∧ ∀ x ∈ v, 0 ≤ x ∧ x < (v.length : Int) := by
  constructor
  · intro h
    have hnd0 : ((List.range v.length).map fun k : Nat => (k : Int)).Nodup :=
      (List.nodup_range _).map fun a b hab => by simpa using hab
    have hsub : ((List.range v.length).map fun k : Nat => (k : Int)) ⊆ v := by
      intro x hx
      obtain ⟨k, hk, rfl⟩ := List.mem_map.1 hx
      have := h k (List.mem_range.1 hk)
      exact List.count_pos_iff.1 (by omega)
    have hperm : ((List.range v.length).map fun k : Nat => (k : Int)).Perm v :=
      (List.subperm_of_subset hnd0 hsub).perm_of_length_le (by simp)
    refine ⟨hperm.nodup_iff.1 hnd0, ?_⟩
    intro x hx
    obtain ⟨k, hk, rfl⟩ := List.mem_map.1 (hperm.mem_iff.2 hx)
    have := List.mem_range.1 hk
    omega
  · rintro ⟨hnd, hall⟩ k hk
    exact List.count_eq_one_of_mem hnd (mem_of_nodup_of_range v hnd hall k hk)

/-- What a permutation is, index by index: every entry is a number below the
length, no two places hold the same entry, and every number below the length is
the entry of a place. -/
theorem IsPermutation_iff (p : List Int) :
    IsPermutation p = some true ↔
      (∀ i : Nat, i < p.length → ∃ m : Nat, m < p.length ∧ p[i]? = some (m : Int))
      ∧ (∀ (i j : Nat) (x : Int), p[i]? = some x → p[j]? = some x → i = j) := by
  obtain ⟨b, hb, hiff⟩ := IsPermutation_spec p
  rw [hb, Option.some.injEq, hiff]
  constructor
  · rintro ⟨hnd, hall⟩
    refine ⟨?_, ?_⟩
    · intro i hi
      have := hall p[i] (List.getElem_mem _)
      exact ⟨p[i].toNat, by omega, by rw [List.getElem?_eq_getElem hi]; congr 1; omega⟩
    · intro i j x hi hj
      by_contra hne
      rcases Nat.lt_or_gt_of_ne hne with h | h
      · have hj2 : j < p.length := by
          by_contra hge
          rw [List.getElem?_eq_none (by omega)] at hj
          cases hj
        exact (List.nodup_iff_getElem?_ne_getElem?.1 hnd i j h hj2) (hi.trans hj.symm)
      · have hi2 : i < p.length := by
          by_contra hge
          rw [List.getElem?_eq_none (by omega)] at hi
          cases hi
        exact (List.nodup_iff_getElem?_ne_getElem?.1 hnd j i h hi2) (hj.trans hi.symm)
  · rintro ⟨h1, h2⟩
    refine ⟨?_, ?_⟩
    · refine List.nodup_iff_getElem?_ne_getElem?.2 ?_
      intro i j hij hj heq
      have := h2 i j p[j] (by rw [heq, List.getElem?_eq_getElem hj])
        (List.getElem?_eq_getElem hj)
      omega
    · intro x hx
      obtain ⟨i, hi, rfl⟩ := List.getElem_of_mem hx
      obtain ⟨m, hm, hpm⟩ := h1 i hi
      rw [List.getElem?_eq_getElem hi, Option.some.injEq] at hpm
      omega

/-- Every number below the length is the entry of some place of a permutation. -/
theorem IsPermutation_surjective (p : List Int) (h : IsPermutation p = some true) :
    ∀ m : Nat, m < p.length → ∃ i : Nat, i < p.length ∧ p[i]? = some (m : Int) := by
  obtain ⟨b, hb, hiff⟩ := IsPermutation_spec p
  rw [hb, Option.some.injEq] at h
  obtain ⟨hnd, hall⟩ := hiff.1 h
  intro m hm
  obtain ⟨i, hi, hpi⟩ := List.getElem_of_mem (mem_of_nodup_of_range p hnd hall m hm)
  exact ⟨i, hi, by rw [List.getElem?_eq_getElem hi, hpi]⟩


/-- The loop of `InversePermutation` on a permutation, after `k` rounds: the
output has its length, and holds `i` at the place `p[i]` for every `i < k`. -/
theorem InversePermutation_rounds (p : List Int) (h : IsPermutation p = some true) :
    ∀ k : Nat, k ≤ p.length →
      ∃ out : List Int,
        (List.range k).foldlM
          (fun output_permutation (i : Nat) =>
            (vector_at p i).bind fun target =>
              vector_set_at output_permutation target i)
          (List.replicate p.length (-1)) = some out
        ∧ out.length = p.length
        ∧ ∀ (i m : Nat), i < k → p[i]? = some (m : Int) → out[m]? = some (i : Int) := by
  obtain ⟨h1, h2⟩ := (IsPermutation_iff p).1 h
  intro k
  induction k with
  | zero =>
    intro _
    exact ⟨_, rfl, by simp, by intro i m hi; omega⟩
  | succ k ih =>
    intro hk
    obtain ⟨out, ho, hlen, hprop⟩ := ih (by omega)
    obtain ⟨m, hm, hpm⟩ := h1 k (by omega)
    refine ⟨out.set m k, ?_, by simp [hlen], ?_⟩
    · rw [List.range_succ, List.foldlM_append, ho]
      simp [vector_at_natCast, hpm, vector_set_at, hlen, hm]
    · intro i m2 hi hpi
      by_cases hik : i = k
      · subst hik
        rw [hpm, Option.some.injEq] at hpi
        have : m = m2 := by omega
        subst this
        rw [List.getElem?_set_self (by omega)]
      · have hne : m ≠ m2 := by
          intro heq
          subst heq
          exact hik (h2 i k _ hpi hpm)
        rw [List.getElem?_set_ne hne]
        exact hprop i m2 (by omega) hpi

/-- `InversePermutation` on a permutation returns, and its result holds `i` at
the place `p[i]`. -/
theorem InversePermutation_spec (p : List Int) (h : IsPermutation p = some true) :
    ∃ q : List Int, InversePermutation p = some q ∧ q.length = p.length
      ∧ ∀ (i m : Nat), p[i]? = some (m : Int) → q[m]? = some (i : Int) := by
  obtain ⟨q, hq, hlen, hprop⟩ := InversePermutation_rounds p h p.length (Nat.le_refl _)
  refine ⟨q, hq, hlen, ?_⟩
  intro i m hpi
  have hi : i < p.length := by
    by_contra hge
    rw [List.getElem?_eq_none (by omega)] at hpi
    cases hpi
  exact hprop i m hi hpi

/-- The result of `InversePermutation` on a permutation is a permutation, and
the permutation holds `t` at the place the result holds at `t`. -/
theorem InversePermutation_inverse (p q : List Int) (h : IsPermutation p = some true)
    (hlen : q.length = p.length)
    (hq : ∀ (i m : Nat), p[i]? = some (m : Int) → q[m]? = some (i : Int)) :
    IsPermutation q = some true
    ∧ ∀ (t i : Nat), q[t]? = some (i : Int) → p[i]? = some (t : Int) := by
  obtain ⟨h1, h2⟩ := (IsPermutation_iff p).1 h
  have h3 := IsPermutation_surjective p h
  have hback : ∀ (t i : Nat), q[t]? = some (i : Int) → p[i]? = some (t : Int) := by
    intro t i hqt
    have ht : t < p.length := by
      by_contra hge
      rw [List.getElem?_eq_none (by omega)] at hqt
      cases hqt
    obtain ⟨i2, _, hpi2⟩ := h3 t ht
    have := hq i2 t hpi2
    rw [hqt, Option.some.injEq] at this
    have : i = i2 := by omega
    rw [this]; exact hpi2
  refine ⟨(IsPermutation_iff q).2 ⟨?_, ?_⟩, hback⟩
  · intro t ht
    obtain ⟨i, hi, hpi⟩ := h3 t (by omega)
    exact ⟨i, by omega, hq i t hpi⟩
  · intro t1 t2 x ht1 ht2
    have ht1l : t1 < p.length := by
      by_contra hge
      rw [List.getElem?_eq_none (by omega)] at ht1
      cases ht1
    have ht2l : t2 < p.length := by
      by_contra hge
      rw [List.getElem?_eq_none (by omega)] at ht2
      cases ht2
    obtain ⟨i1, _, hp1⟩ := h3 t1 ht1l
    obtain ⟨i2, _, hp2⟩ := h3 t2 ht2l
    have e1 := hq i1 t1 hp1
    have e2 := hq i2 t2 hp2
    rw [ht1, Option.some.injEq] at e1
    rw [ht2, Option.some.injEq] at e2
    have : i1 = i2 := by omega
    subst this
    rw [hp1, Option.some.injEq] at hp2
    omega

/-- The loop of `ComposePermutations` after `k` rounds. -/
theorem ComposePermutations_rounds (p1 p2 : List Int) (h1 : IsPermutation p1 = some true)
    (h2 : IsPermutation p2 = some true) (hlen : p1.length = p2.length) :
    ∀ k : Nat, k ≤ p1.length →
      ∃ out : List Int,
        (List.range k).foldlM
          (fun output (i : Nat) =>
            ((vector_at p2 i).bind (vector_at p1)).map fun x => output ++ [x]) []
          = some out
        ∧ out.length = k
        ∧ ∀ (i m : Nat) (x : Int), i < k → p2[i]? = some (m : Int) → p1[m]? = some x →
            out[i]? = some x := by
  obtain ⟨a1, _⟩ := (IsPermutation_iff p1).1 h1
  obtain ⟨b1, _⟩ := (IsPermutation_iff p2).1 h2
  intro k
  induction k with
  | zero =>
    intro _
    exact ⟨[], rfl, rfl, by intro i m x hi; omega⟩
  | succ k ih =>
    intro hk
    obtain ⟨out, ho, hol, hprop⟩ := ih (by omega)
    obtain ⟨m, hm, hpm⟩ := b1 k (by omega)
    obtain ⟨m2, _, hpm2⟩ := a1 m (by omega)
    refine ⟨out ++ [(m2 : Int)], ?_, by simp [hol], ?_⟩
    · rw [List.range_succ, List.foldlM_append, ho]
      simp [vector_at_natCast, hpm, hpm2]
    · intro i mi x hi hpi hpx
      by_cases hik : i = k
      · subst hik
        rw [hpm, Option.some.injEq] at hpi
        have : m = mi := by omega
        subst this
        rw [hpm2] at hpx
        rw [List.getElem?_append_right (by omega), hol]
        simpa using hpx
      · rw [List.getElem?_append_left (by omega)]
        exact hprop i mi x (by omega) hpi hpx

/-- `ComposePermutations` on two permutations of one length returns a list of
that length that holds `p1[p2[i]]` at `i`. -/
theorem ComposePermutations_spec (p1 p2 : List Int) (h1 : IsPermutation p1 = some true)
    (h2 : IsPermutation p2 = some true) (hlen : p1.length = p2.length) :
    ∃ out : List Int, ComposePermutations p1 p2 = some out ∧ out.length = p1.length
      ∧ ∀ (i m : Nat) (x : Int), p2[i]? = some (m : Int) → p1[m]? = some x →
          out[i]? = some x := by
  obtain ⟨out, ho, hol, hprop⟩ :=
    ComposePermutations_rounds p1 p2 h1 h2 hlen p1.length (Nat.le_refl _)
  refine ⟨out, ?_, hol, ?_⟩
  · unfold ComposePermutations
    have hb : (p1.length != p2.length) = false := by simp [hlen]
    simp only [hb, Bool.false_eq_true, if_false]
    exact ho
  · intro i m x hpi hpx
    have hi : i < p1.length := by
      by_contra hge
      rw [List.getElem?_eq_none (by omega)] at hpi
      cases hpi
    exact hprop i m x hi hpi hpx

/-- A list that holds `i` at every place `i` is an identity permutation. -/
theorem IsIdentityPermutation_of (v : List Int)
    (h : ∀ i : Nat, i < v.length → v[i]? = some (i : Int)) :
    IsIdentityPermutation v = true := by
  simp only [IsIdentityPermutation, List.all_eq_true, List.mem_range, beq_iff_eq]
  exact h


/-- C28: for every list `v` of integers `IsPermutation` returns (it never reads
or writes its table `seen` outside its bounds), and returns true exactly when
`v` contains every integer of `[0, length of v)` exactly once.  It returns true
for the empty list, and false when an entry is negative or at least the length,
and when an entry repeats. -/
theorem C28_IsPermutation_decides (v : List Int) :
    (∃ b, IsPermutation v = some b ∧ (b = true ↔ ContainsEachOnce v))
    ∧ IsPermutation [] = some true
    ∧ ((∃ x ∈ v, x < 0 ∨ (v.length : Int) ≤ x) → IsPermutation v = some false)
    ∧ (¬ v.Nodup → IsPermutation v = some false) := by
  obtain ⟨b, hb, hiff⟩ := IsPermutation_spec v
  refine ⟨⟨b, hb, by rw [hiff, ContainsEachOnce_iff]⟩, rfl, ?_, ?_⟩
  · rintro ⟨x, hx, hbad⟩
    cases b with
    | false => exact hb
    | true =>
      have := (hiff.1 rfl).2 x hx
      omega
  · intro hnd
    cases b with
    | false => exact hb
    | true => exact absurd (hiff.1 rfl).1 hnd

/-- Witness for C28: `[2, 0, 1]` is accepted and holds 0, 1, 2 once each;
`[0, 3, 1]` has an entry that is not below the length and `[1, 0, 1]` repeats
an entry: both are refused. -/
theorem C28_IsPermutation_decides_witness :
    IsPermutation [2, 0, 1] = some true ∧ ContainsEachOnce [2, 0, 1]
    ∧ IsPermutation [0, 3, 1] = some false
    ∧ IsPermutation [1, 0, 1] = some false := by
  refine ⟨rfl, by decide, ?_, ?_⟩
  · exact (C28_IsPermutation_decides [0, 3, 1]).2.2.1 ⟨3, by decide, by decide⟩
  · exact (C28_IsPermutation_decides [1, 0, 1]).2.2.2 (by decide)

/-- C29: for a list `p` that `IsPermutation` accepts, `InversePermutation`
returns a list `q` of the same length that `IsPermutation` accepts, with
`q[p[i]] = i` and `p[q[i]] = i` at every index `i`; `ComposePermutations(p, q)`
and `ComposePermutations(q, p)` are identity permutations; no entry of `q` is
the initial -1; and `InversePermutation(q)` is `p`. -/
theorem C29_InversePermutation_inverts (p : List Int) (h : IsPermutation p = some true) :
    ∃ q, InversePermutation p = some q
      ∧ q.length = p.length
      ∧ IsPermutation q = some true
      ∧ (∀ i : Nat, i < p.length → (vector_at p i).bind (vector_at q) = some (i : Int))
      ∧ (∀ i : Nat, i < p.length → (vector_at q i).bind (vector_at p) = some (i : Int))
      ∧ (∃ pq, ComposePermutations p q = some pq ∧ IsIdentityPermutation pq = true)
      ∧ (∃ qp, ComposePermutations q p = some qp ∧ IsIdentityPermutation qp = true)
      ∧ (-1 : Int) ∉ q
      ∧ InversePermutation q = some p := by
  obtain ⟨q, hinv, hlen, hq⟩ := InversePermutation_spec p h
  obtain ⟨hQ, hback⟩ := InversePermutation_inverse p q h hlen hq
  obtain ⟨p1, _⟩ := (IsPermutation_iff p).1 h
  obtain ⟨q1, _⟩ := (IsPermutation_iff q).1 hQ
  have hqp : ∀ i : Nat, i < p.length →
      (vector_at p i).bind (vector_at q) = some (i : Int) := by
    intro i hi
    obtain ⟨m, _, hpm⟩ := p1 i hi
    rw [vector_at_natCast, hpm, Option.some_bind, vector_at_natCast]
    exact hq i m hpm
  have hpq : ∀ i : Nat, i < p.length →
      (vector_at q i).bind (vector_at p) = some (i : Int) := by
    intro i hi
    obtain ⟨t, _, hqt⟩ := q1 i (by omega)
    rw [vector_at_natCast, hqt, Option.some_bind, vector_at_natCast]
    exact hback i t hqt
  refine ⟨q, hinv, hlen, hQ, hqp, hpq, ?_, ?_, ?_, ?_⟩
  · obtain ⟨pq, hc, hcl, hcp⟩ := ComposePermutations_spec p q h hQ hlen.symm
    refine ⟨pq, hc, IsIdentityPermutation_of pq ?_⟩
    intro i hi
    obtain ⟨t, _, hqt⟩ := q1 i (by omega)
    exact hcp i t i hqt (hback i t hqt)
  · obtain ⟨qp, hc, hcl, hcp⟩ := ComposePermutations_spec q p hQ h hlen
    refine ⟨qp, hc, IsIdentityPermutation_of qp ?_⟩
    intro i hi
    obtain ⟨m, _, hpm⟩ := p1 i (by omega)
    exact hcp i m i hpm (hq i m hpm)
  · intro hmem
    obtain ⟨b, hb, hiff⟩ := IsPermutation_spec q
    rw [hb, Option.some.injEq] at hQ
    have := (hiff.1 hQ).2 (-1) hmem
    omega
  · obtain ⟨r, hr, hrl, hrp⟩ := InversePermutation_spec q hQ
    rw [hr]
    congr 1
    refine List.ext_getElem? fun i => ?_
    by_cases hi : i < p.length
    · obtain ⟨m, _, hpm⟩ := p1 i hi
      rw [hpm]
      exact hrp m i (hq i m hpm)
    · rw [List.getElem?_eq_none (by omega), List.getElem?_eq_none (by omega)]

/-- Witness for C29: the inverse of `[2, 0, 1]` is `[1, 2, 0]`. -/
theorem C29_InversePermutation_inverts_witness :
    ∃ q, InversePermutation [2, 0, 1] = some q
      ∧ q = [1, 2, 0]
      ∧ IsPermutation q = some true
      ∧ (∃ pq, ComposePermutations [2, 0, 1] q = some pq ∧ IsIdentityPermutation pq = true)
      ∧ InversePermutation q = some [2, 0, 1] := by
  obtain ⟨q, h1, _, h3, _, _, h6, _, _, h9⟩ := C29_InversePermutation_inverts [2, 0, 1] rfl
  have hq : q = [1, 2, 0] := by
    have : InversePermutation [2, 0, 1] = some [1, 2, 0] := rfl
    rw [this, Option.some.injEq] at h1
    exact h1.symm
  exact ⟨q, h1, hq, h3, h6, h9⟩

/-- C30: for lists `p1` and `p2` of one length `n` that `IsPermutation` both
accepts, `ComposePermutations(p1, p2)` returns (every checked access is within
bounds) a list of length `n` whose `i`-th entry is `p1[p2[i]]`, and
`IsPermutation` accepts that list. -/
theorem C30_ComposePermutations_closed (p1 p2 : List Int)
    (h1 : IsPermutation p1 = some true) (h2 : IsPermutation p2 = some true)
    (hlen : p1.length = p2.length) :
    ∃ out, ComposePermutations p1 p2 = some out
      ∧ out.length = p1.length
      ∧ (∀ i : Nat, i < p1.length →
          ∃ j x, vector_at p2 i = some j ∧ vector_at p1 j = some x ∧ out[i]? = some x)
      ∧ IsPermutation out = some true := by
  obtain ⟨out, hc, hol, hcp⟩ := ComposePermutations_spec p1 p2 h1 h2 hlen
  obtain ⟨a1, a2⟩ := (IsPermutation_iff p1).1 h1
  obtain ⟨b1, b2⟩ := (IsPermutation_iff p2).1 h2
  have hentry : ∀ i : Nat, i < p1.length →
      ∃ m m2 : Nat, m < p1.length ∧ m2 < p1.length ∧ p2[i]? = some (m : Int)
        ∧ p1[m]? = some (m2 : Int) ∧ out[i]? = some (m2 : Int) := by
    intro i hi
    obtain ⟨m, hm, hpm⟩ := b1 i (by omega)
    obtain ⟨m2, hm2, hpm2⟩ := a1 m (by omega)
    exact ⟨m, m2, by omega, hm2, hpm, hpm2, hcp i m _ hpm hpm2⟩
  refine ⟨out, hc, hol, ?_, (IsPermutation_iff out).2 ⟨?_, ?_⟩⟩
  · intro i hi
    obtain ⟨m, m2, _, _, e1, e2, e3⟩ := hentry i hi
    exact ⟨m, m2, by rw [vector_at_natCast]; exact e1,
      by rw [vector_at_natCast]; exact e2, e3⟩
  · intro i hi
    obtain ⟨m, m2, _, hm2, _, _, e3⟩ := hentry i (by omega)
    exact ⟨m2, by omega, e3⟩
  · intro i j x hi hj
    have hil : i < p1.length := by
      by_contra hge
      rw [List.getElem?_eq_none (by omega)] at hi
      cases hi
    have hjl : j < p1.length := by
      by_contra hge
      rw [List.getElem?_eq_none (by omega)] at hj
      cases hj
    obtain ⟨m, m2, _, _, e1, e2, e3⟩ := hentry i hil
    obtain ⟨n, n2, _, _, f1, f2, f3⟩ := hentry j hjl
    rw [hi, Option.some.injEq] at e3
    rw [hj, Option.some.injEq] at f3
    have hmn : m = n := a2 m n x (by rw [e2, e3]) (by rw [f2, f3])
    subst hmn
    exact b2 i j _ e1 f1

/-- Witness for C30: `[2, 0, 1]` composed with `[1, 0, 2]` is `[0, 2, 1]`. -/
theorem C30_ComposePermutations_closed_witness :
    ∃ out, ComposePermutations [2, 0, 1] [1, 0, 2] = some out
      ∧ out = [0, 2, 1]
      ∧ IsPermutation out = some true := by
  obtain ⟨out, h1, _, _, h4⟩ :=
    C30_ComposePermutations_closed [2, 0, 1] [1, 0, 2] rfl rfl rfl
  have ho : out = [0, 2, 1] := by
    have : ComposePermutations [2, 0, 1] [1, 0, 2] = some [0, 2, 1] := rfl
    rw [this, Option.some.injEq] at h1
    exact h1.symm
  exact ⟨out, h1, ho, h4⟩

end itex_xla
